import Mathlib

/-!
Verification of the gnark R1CS frontend compiler (`frontend/cs/r1cs`, file
`r1cs.go`, called `part_000` below) and of the generated GKR gate evaluators
(`constraint/bls12-377/gkr.go`) against their natural-language specification.

The Go code is shallowly embedded: field elements are `Nat` values reduced
modulo a prime `p` that is kept as an explicit parameter (the code obtains it
from `CurveID.Info().Fr.Modulus()`), Go slices are Lean lists, Go maps are
association lists read through a `lookup` function, and fallible operations
return `Option`/`Except`.  The packed `compiled.Term` of the source (a
`uint64` packing coefficient ID, wire ID and visibility, from the
`frontend/compiled` package which is not part of the sources) is embedded as
a record with those three components.
-/

namespace Gnark

/-- Wire visibility, mirroring `schema.Visibility` as used by `r1cs.go`
(`schema.Public`, `schema.Secret`, `schema.Internal`; the `Unset` sentinel of
the schema package never reaches the embedded code paths). -/
inductive Visibility where
  | Public
  | Secret
  | Internal
deriving DecidableEq, Repr

/-- Modelled from the spec: a `compiled.Term` is an immutable triple
(coefficient ID, wire ID, wire visibility); the source packs the triple in a
`uint64`, the embedding keeps the three fields (`Pack`/`Unpack` become the
constructor and the projections). -/
structure Term where
  coeffID : Nat
  wireID : Nat
  vis : Visibility
deriving DecidableEq, Repr

/-- Modelled from the spec: the coefficient table reserves the fixed ID 0 for
the constant 0 (`compiled.CoeffIdZero`). -/
def coeffIdZero : Nat := 0

/-- Modelled from the spec: the coefficient table reserves the fixed ID 1 for
the constant 1 (`compiled.CoeffIdOne`). -/
def coeffIdOne : Nat := 1

/-- A `compiled.LinearExpression`: an ordered list of terms. -/
abbrev LinExp := List Term

/-- A `compiled.R1C` constraint: three linear expressions with `L·R = O`. -/
structure R1C where
  L : LinExp
  R : LinExp
  O : LinExp
deriving DecidableEq, Repr

/-- Modelled from the spec: rank of a visibility class in the total order on
terms used by `sort.Sort(l.LinExp)` — `Public < Secret < Internal`. -/
def visRank : Visibility → Nat
  | .Public => 0
  | .Secret => 1
  | .Internal => 2

/-- Modelled from the spec: the total order on terms, by visibility class
first, then by wire ID ascending. -/
def termLe (s t : Term) : Bool :=
  decide (visRank s.vis < visRank t.vis ∨
    (visRank s.vis = visRank t.vis ∧ s.wireID ≤ t.wireID))

/-- The order on terms as a relation. -/
def termLeP (s t : Term) : Prop := termLe s t = true

instance : DecidableRel termLeP := fun s t => by
  unfold termLeP; infer_instance

/-- Strict version of the term order: lexicographic on (visibility rank,
wire ID). -/
def TermLt (s t : Term) : Prop :=
  visRank s.vis < visRank t.vis ∨
    (visRank s.vis = visRank t.vis ∧ s.wireID < t.wireID)

/-- Two terms reference the same wire: equal visibility and equal wire ID. -/
def SameWire (s t : Term) : Prop := s.vis = t.vis ∧ s.wireID = t.wireID

instance (s t : Term) : Decidable (SameWire s t) := by
  unfold SameWire; infer_instance

theorem visRank_inj : ∀ {u v : Visibility}, visRank u = visRank v → u = v := by
  intro u v; cases u <;> cases v <;> simp [visRank]

instance : IsTotal Term termLeP := by
  constructor
  intro s t
  simp only [termLeP, termLe, decide_eq_true_eq]
  omega

instance : IsTrans Term termLeP := by
  constructor
  intro s t u
  simp only [termLeP, termLe, decide_eq_true_eq]
  omega

theorem termLeP_of_lt {s t : Term} (h : TermLt s t) : termLeP s t := by
  simp only [termLeP, termLe, decide_eq_true_eq]
  rcases h with h | ⟨h1, h2⟩
  · exact Or.inl h
  · exact Or.inr ⟨h1, Nat.le_of_lt h2⟩

theorem termLt_of_le_not_same {s t : Term} (h : termLeP s t) (hn : ¬ SameWire s t) :
    TermLt s t := by
  simp only [termLeP, termLe, decide_eq_true_eq] at h
  rcases h with h | ⟨h1, h2⟩
  · exact Or.inl h
  · rcases Nat.lt_or_ge s.wireID t.wireID with hw | hw
    · exact Or.inr ⟨h1, hw⟩
    · exact absurd ⟨visRank_inj h1, Nat.le_antisymm h2 hw⟩ hn

theorem not_sameWire_of_lt {s t : Term} (h : TermLt s t) : ¬ SameWire s t := by
  rintro ⟨h1, h2⟩
  rcases h with h | ⟨_, h⟩
  · exact absurd (h1 ▸ rfl) (Nat.ne_of_lt h)
  · omega

theorem termLt_trans : ∀ {s t u : Term}, TermLt s t → TermLt t u → TermLt s u := by
  intro s t u h1 h2
  unfold TermLt at *
  omega

theorem not_termLeP_of_lt {s t : Term} (h : TermLt s t) : ¬ termLeP t s := by
  simp only [termLeP, termLe, decide_eq_true_eq]
  unfold TermLt at h
  omega

/-- The order on terms depends only on the referenced wire. -/
theorem termLeP_congr_left {s s' t : Term} (h : SameWire s s') :
    termLeP s t ↔ termLeP s' t := by
  obtain ⟨h1, h2⟩ := h
  simp only [termLeP, termLe, decide_eq_true_eq, h1, h2]

theorem termLeP_congr_right {s t t' : Term} (h : SameWire t t') :
    termLeP s t ↔ termLeP s t' := by
  obtain ⟨h1, h2⟩ := h
  simp only [termLeP, termLe, decide_eq_true_eq, h1, h2]

/-- Modelled from the spec: `sort.Sort(l.LinExp)` — sorting of a linear
expression by the total order on terms (the embedding fixes a stable
insertion sort; the source's sort algorithm is unspecified up to ties, and
ties are merged immediately afterwards by `reduce`). -/
def sortTerms (l : LinExp) : LinExp := l.insertionSort termLeP

/-- The `sort.IsSorted(l.LinExp)` check (adjacent-pair sortedness, which for
the transitive total order on terms coincides with pairwise sortedness). -/
def isSortedTerms (l : LinExp) : Bool :=
  decide (List.Sorted termLeP l)

/-- The `if !sort.IsSorted(l) { sort.Sort(l) }` pattern that appears in
`reduce`, `MarkBoolean` and `IsBoolean`. -/
def sortIfNeeded (l : LinExp) : LinExp :=
  if isSortedTerms l then l else sortTerms l

/-! ### The coefficient table (`cs.CoeffTable`) -/

/-- Modelled from the spec: the coefficient table's interning lookup — the
index of an already-interned value in the table, if any. -/
def coeffIndex (c : Nat) : List Nat → Option Nat
  | [] => none
  | x :: xs => if x = c then some 0 else (coeffIndex c xs).map (fun i => i + 1)

/-- Modelled from the spec: `st.CoeffID(value)` — returns the stable ID of
an interned coefficient value, appending the value to the table when it is
new. -/
def coeffID (st : List Nat) (c : Nat) : Nat × List Nat :=
  match coeffIndex c st with
  | some i => (i, st)
  | none => (st.length, st ++ [c])

theorem coeffIndex_spec {c : Nat} :
    ∀ {st : List Nat} {i : Nat}, coeffIndex c st = some i →
      i < st.length ∧ st.getD i 0 = c := by
  intro st
  induction st with
  | nil => intro i h; simp [coeffIndex] at h
  | cons x xs ih =>
    intro i h
    by_cases hx : x = c
    · simp [coeffIndex, hx] at h
      subst h
      simp [hx]
    · simp [coeffIndex, hx] at h
      obtain ⟨j, hj, rfl⟩ := h
      obtain ⟨h1, h2⟩ := ih hj
      refine ⟨by simpa using Nat.succ_lt_succ h1, by simpa using h2⟩

/-- The interned ID points at the interned value, and the table only grows
by appending. -/
theorem coeffID_spec (st : List Nat) (c : Nat) :
    (coeffID st c).1 < (coeffID st c).2.length ∧
    (coeffID st c).2.getD (coeffID st c).1 0 = c ∧
    ∃ ext, (coeffID st c).2 = st ++ ext := by
  unfold coeffID
  cases h : coeffIndex c st with
  | some i =>
    obtain ⟨h1, h2⟩ := coeffIndex_spec h
    exact ⟨h1, h2, [], by simp⟩
  | none =>
    refine ⟨by simp, ?_, [c], rfl⟩
    simp [List.getD_append_right]

/-! ### `reduce` (`r1cs.go` lines 134–155)

The source sorts the expression in place when needed, then runs a single
left-to-right pass: whenever two adjacent terms reference the same wire with
the same visibility, the sum of their coefficient values mod `p` is interned
and the pair is replaced by one term (the earlier one, re-pointed at the
interned sum), and the pass re-compares the replacement with the next term.
-/

/-- The duplicate-merging pass of `reduce`.  The pair `(expression, table)`
threads `system.st.Coeffs` through the interning calls. -/
def mergeTerms (p : Nat) : List Nat → LinExp → LinExp × List Nat
  | st, [] => ([], st)
  | st, [t] => ([t], st)
  | st, t :: u :: rest =>
    if SameWire t u then
      let c := (st.getD t.coeffID 0 + st.getD u.coeffID 0) % p
      let r := coeffID st c
      mergeTerms p r.2 ({ t with coeffID := r.1 } :: rest)
    else
      let r := mergeTerms p st (u :: rest)
      (t :: r.1, r.2)
termination_by _ l => l.length

/-- The `reduce` method: sort if unsorted, then merge adjacent duplicates,
summing coefficients modulo the field modulus `p`
(`system.CurveID.Info().Fr.Modulus()`). -/
def reduce (p : Nat) (st : List Nat) (l : LinExp) : LinExp × List Nat :=
  mergeTerms p st (sortIfNeeded l)

theorem sameWire_refl (t : Term) : SameWire t t := ⟨rfl, rfl⟩

theorem sameWire_symm {s t : Term} (h : SameWire s t) : SameWire t s :=
  ⟨h.1.symm, h.2.symm⟩

theorem sameWire_trans {s t u : Term} (h1 : SameWire s t) (h2 : SameWire t u) :
    SameWire s u := ⟨h1.1.trans h2.1, h1.2.trans h2.2⟩

theorem termLt_congr_right {s t t' : Term} (h : SameWire t t') :
    TermLt s t ↔ TermLt s t' := by
  obtain ⟨h1, h2⟩ := h
  simp only [TermLt, h1, h2]

theorem sortIfNeeded_sorted (l : LinExp) : List.Sorted termLeP (sortIfNeeded l) := by
  unfold sortIfNeeded
  by_cases h : isSortedTerms l
  · rw [if_pos h]
    exact of_decide_eq_true h
  · rw [if_neg h]
    exact List.sorted_insertionSort termLeP l

theorem sortIfNeeded_perm (l : LinExp) : (sortIfNeeded l).Perm l := by
  unfold sortIfNeeded
  by_cases h : isSortedTerms l
  · rw [if_pos h]
  · rw [if_neg h]
    exact List.perm_insertionSort termLeP l

/-- The merging pass of `reduce`, on a sorted expression: the result has
pairwise strictly increasing wires (so no two terms share a wire), every
result term references a wire of some input term, and the coefficient table
only grows by appending. -/
theorem mergeTerms_sorted (p : Nat) (st : List Nat) (l : LinExp) :
    List.Sorted termLeP l →
      List.Pairwise TermLt (mergeTerms p st l).1 ∧
      (∀ x ∈ (mergeTerms p st l).1, ∃ y ∈ l, SameWire x y) ∧
      (∃ ext, (mergeTerms p st l).2 = st ++ ext) := by
  induction st, l using mergeTerms.induct p with
  | case1 st =>
    intro _
    rw [mergeTerms]
    exact ⟨List.Pairwise.nil, by simp, ⟨[], by simp⟩⟩
  | case2 st t =>
    intro _
    rw [mergeTerms]
    refine ⟨List.pairwise_singleton _ _, ?_, ⟨[], by simp⟩⟩
    intro x hx
    simp only [List.mem_singleton] at hx
    exact ⟨t, by simp [hx, sameWire_refl]⟩
  | case3 st t u rest hsw c r ih =>
    intro hsorted
    have hsw' : SameWire ({ t with coeffID := r.1 } : Term) t := ⟨rfl, rfl⟩
    have hsorted' : List.Sorted termLeP ({ t with coeffID := r.1 } :: rest) := by
      rw [List.sorted_cons] at hsorted ⊢
      refine ⟨?_, (List.sorted_cons.mp hsorted.2).2⟩
      intro b hb
      exact (termLeP_congr_left hsw').mpr (hsorted.1 b (List.mem_cons_of_mem u hb))
    obtain ⟨h1, h2, ext2, h3⟩ := ih hsorted'
    rw [show mergeTerms p st (t :: u :: rest)
        = mergeTerms p r.2 ({ t with coeffID := r.1 } :: rest) by
      rw [mergeTerms]; rw [if_pos hsw]]
    refine ⟨h1, ?_, ?_⟩
    · intro x hx
      obtain ⟨y, hy, hxy⟩ := h2 x hx
      rcases List.mem_cons.mp hy with rfl | hy
      · exact ⟨t, List.mem_cons_self _ _, sameWire_trans hxy hsw'⟩
      · exact ⟨y, by simp [hy], hxy⟩
    · obtain ⟨ext1, hext1⟩ := (coeffID_spec st c).2.2
      exact ⟨ext1 ++ ext2, by rw [h3, hext1, List.append_assoc]⟩
  | case4 st t u rest hsw ih =>
    intro hsorted
    rw [List.sorted_cons] at hsorted
    obtain ⟨h1, h2, ext, h3⟩ := ih hsorted.2
    have hlt : ∀ y ∈ u :: rest, TermLt t y := by
      intro y hy
      have hle : termLeP t y := hsorted.1 y hy
      have htu : TermLt t u :=
        termLt_of_le_not_same (hsorted.1 u (List.mem_cons_self _ _)) hsw
      rcases List.mem_cons.mp hy with rfl | hy
      · exact htu
      · refine termLt_of_le_not_same hle ?_
        intro hsame
        have : termLeP u t := by
          have := (List.sorted_cons.mp hsorted.2).1 y hy
          exact (termLeP_congr_right (sameWire_symm hsame)).mp this
        exact not_termLeP_of_lt htu this
    rw [show mergeTerms p st (t :: u :: rest)
        = (t :: (mergeTerms p st (u :: rest)).1, (mergeTerms p st (u :: rest)).2) by
      rw [mergeTerms]; rw [if_neg hsw]]
    refine ⟨?_, ?_, ⟨ext, h3⟩⟩
    · rw [List.pairwise_cons]
      refine ⟨?_, h1⟩
      intro x hx
      obtain ⟨y, hy, hxy⟩ := h2 x hx
      exact (termLt_congr_right hxy).mpr (hlt y hy)
    · intro x hx
      rcases List.mem_cons.mp hx with rfl | hx
      · exact ⟨_, List.mem_cons_self _ _, sameWire_refl _⟩
      · obtain ⟨y, hy, hxy⟩ := h2 x hx
        exact ⟨y, List.mem_cons_of_mem _ hy, hxy⟩

/-- Merging is the identity on an expression with pairwise distinct wires. -/
theorem mergeTerms_of_pairwise (p : Nat) (st : List Nat) (l : LinExp) :
    List.Pairwise TermLt l → mergeTerms p st l = (l, st) := by
  induction st, l using mergeTerms.induct p with
  | case1 st => intro _; rw [mergeTerms]
  | case2 st t => intro _; rw [mergeTerms]
  | case3 st t u rest hsw c r ih =>
    intro hpw
    exact absurd hsw (not_sameWire_of_lt ((List.pairwise_cons.mp hpw).1 u
      (List.mem_cons_self _ _)))
  | case4 st t u rest hsw ih =>
    intro hpw
    rw [mergeTerms]
    rw [if_neg hsw, ih (List.pairwise_cons.mp hpw).2]

/-- Select the terms of an expression referencing wire `w` with visibility
`vs`. -/
def wireKey (w : Nat) (vs : Visibility) (t : Term) : Bool :=
  decide (t.vis = vs ∧ t.wireID = w)

theorem wireKey_congr {w vs} {a b : Term} (h : SameWire a b) :
    wireKey w vs a = wireKey w vs b := by
  simp [wireKey, h.1, h.2]

theorem sameWire_of_wireKey {w vs} {a b : Term}
    (ha : wireKey w vs a = true) (hb : wireKey w vs b = true) : SameWire a b := by
  simp only [wireKey, decide_eq_true_eq] at ha hb
  exact ⟨ha.1.trans hb.1.symm, ha.2.trans hb.2.symm⟩

theorem sorted_head_lt {t u : Term} {rest : LinExp}
    (hsorted : List.Sorted termLeP (t :: u :: rest)) (hsw : ¬ SameWire t u) :
    ∀ y ∈ u :: rest, TermLt t y := by
  rw [List.sorted_cons] at hsorted
  intro y hy
  have hle : termLeP t y := hsorted.1 y hy
  have htu : TermLt t u :=
    termLt_of_le_not_same (hsorted.1 u (List.mem_cons_self _ _)) hsw
  rcases List.mem_cons.mp hy with rfl | hy
  · exact htu
  · refine termLt_of_le_not_same hle ?_
    intro hsame
    have : termLeP u t := by
      have := (List.sorted_cons.mp hsorted.2).1 y hy
      exact (termLeP_congr_right (sameWire_symm hsame)).mp this
    exact not_termLeP_of_lt htu this

/-- Merging removes nothing and adds nothing at a wire absent from the
(sorted) input expression. -/
theorem mergeTerms_filter_nil (p : Nat) (st : List Nat) (l : LinExp)
    (w : Nat) (vs : Visibility) (hsorted : List.Sorted termLeP l)
    (hf : l.filter (wireKey w vs) = []) :
    (mergeTerms p st l).1.filter (wireKey w vs) = [] := by
  rw [List.filter_eq_nil] at hf ⊢
  intro x hx
  obtain ⟨y, hy, hxy⟩ := (mergeTerms_sorted p st l hsorted).2.1 x hx
  rw [wireKey_congr hxy]
  exact hf y hy

/-- A wire referenced by exactly one term of a sorted expression survives
merging untouched, and the coefficient table only grows by appending. -/
theorem mergeTerms_filter_single (p : Nat) (st : List Nat) (l : LinExp)
    (w : Nat) (vs : Visibility) (s : Term) :
    List.Sorted termLeP l → l.filter (wireKey w vs) = [s] →
      (mergeTerms p st l).1.filter (wireKey w vs) = [s] := by
  induction st, l using mergeTerms.induct p with
  | case1 st =>
    intro _ hf
    simp at hf
  | case2 st t =>
    intro _ hf
    rw [mergeTerms]
    exact hf
  | case3 st t u rest hsw c r ih =>
    intro hsorted hf
    have hku : wireKey w vs u = wireKey w vs t := (wireKey_congr hsw).symm
    have hkt : wireKey w vs t = false := by
      by_contra hk
      rw [Bool.not_eq_false] at hk
      rw [List.filter_cons_of_pos hk, List.filter_cons_of_pos (hku.trans hk)] at hf
      simp at hf
    have hsw' : SameWire ({ t with coeffID := r.1 } : Term) t := ⟨rfl, rfl⟩
    have hsorted' : List.Sorted termLeP ({ t with coeffID := r.1 } :: rest) := by
      rw [List.sorted_cons] at hsorted ⊢
      refine ⟨?_, (List.sorted_cons.mp hsorted.2).2⟩
      intro b hb
      exact (termLeP_congr_left hsw').mpr (hsorted.1 b (List.mem_cons_of_mem u hb))
    rw [List.filter_cons_of_neg (by simp [hkt]),
        List.filter_cons_of_neg (by simp [hku, hkt])] at hf
    rw [show mergeTerms p st (t :: u :: rest)
        = mergeTerms p r.2 ({ t with coeffID := r.1 } :: rest) by
      rw [mergeTerms]; rw [if_pos hsw]]
    refine ih hsorted' ?_
    rw [List.filter_cons_of_neg (by simp [wireKey_congr hsw', hkt])]
    exact hf
  | case4 st t u rest hsw ih =>
    intro hsorted hf
    rw [show mergeTerms p st (t :: u :: rest)
        = (t :: (mergeTerms p st (u :: rest)).1, (mergeTerms p st (u :: rest)).2) by
      rw [mergeTerms]; rw [if_neg hsw]]
    rw [List.sorted_cons] at hsorted
    by_cases hkt : wireKey w vs t = true
    · rw [List.filter_cons_of_pos hkt] at hf
      have hnil : (u :: rest).filter (wireKey w vs) = [] := by
        rw [List.filter_eq_nil]
        intro y hy hky
        exact not_sameWire_of_lt
          (sorted_head_lt (List.sorted_cons.mpr hsorted) hsw y hy)
          (sameWire_symm (sameWire_of_wireKey hky hkt))
      rw [hnil] at hf
      rw [List.filter_cons_of_pos hkt, mergeTerms_filter_nil p st _ w vs hsorted.2 hnil]
      exact hf
    · rw [List.filter_cons_of_neg hkt] at hf
      rw [List.filter_cons_of_neg hkt]
      exact ih hsorted.2 hf

/-- Merging a sorted expression with exactly two terms at a given wire
replaces them by a single term whose interned coefficient value is the
modular sum of the two coefficient values. -/
theorem mergeTerms_filter_pair (p : Nat) (st : List Nat) (l : LinExp)
    (w : Nat) (vs : Visibility) (s1 s2 : Term) :
    List.Sorted termLeP l → l.filter (wireKey w vs) = [s1, s2] →
      s1.coeffID < st.length → s2.coeffID < st.length →
      ∃ cid, (mergeTerms p st l).1.filter (wireKey w vs) = [⟨cid, w, vs⟩] ∧
        (mergeTerms p st l).2.getD cid 0
          = (st.getD s1.coeffID 0 + st.getD s2.coeffID 0) % p := by
  induction st, l using mergeTerms.induct p with
  | case1 st =>
    intro _ hf _ _
    simp at hf
  | case2 st t =>
    intro _ hf _ _
    by_cases hk : wireKey w vs t = true
    · rw [List.filter_cons_of_pos hk] at hf
      simp at hf
    · rw [List.filter_cons_of_neg hk] at hf
      simp at hf
  | case3 st t u rest hsw c r ih =>
    intro hsorted hf hr1 hr2
    obtain ⟨ext1, hext1⟩ := (coeffID_spec st c).2.2
    have hsw' : SameWire ({ t with coeffID := r.1 } : Term) t := ⟨rfl, rfl⟩
    have hsorted' : List.Sorted termLeP ({ t with coeffID := r.1 } :: rest) := by
      rw [List.sorted_cons] at hsorted ⊢
      refine ⟨?_, (List.sorted_cons.mp hsorted.2).2⟩
      intro b hb
      exact (termLeP_congr_left hsw').mpr (hsorted.1 b (List.mem_cons_of_mem u hb))
    have hstep : mergeTerms p st (t :: u :: rest)
        = mergeTerms p r.2 ({ t with coeffID := r.1 } :: rest) := by
      rw [mergeTerms]; rw [if_pos hsw]
    have hku : wireKey w vs u = wireKey w vs t := (wireKey_congr hsw).symm
    by_cases hkt : wireKey w vs t = true
    · -- the two duplicate terms at this wire are exactly `t` and `u`
      rw [List.filter_cons_of_pos hkt, List.filter_cons_of_pos (hku.trans hkt)] at hf
      obtain ⟨h1, h2⟩ := List.cons.inj hf
      obtain ⟨h3, hrest⟩ := List.cons.inj h2
      have hs1 : s1 = t := h1.symm
      have hs2 : s2 = u := h3.symm
      have hfsingle : ({ t with coeffID := r.1 } :: rest).filter (wireKey w vs)
          = [{ t with coeffID := r.1 }] := by
        rw [List.filter_cons_of_pos (by rw [wireKey_congr hsw']; exact hkt), hrest]
      rw [hstep]
      refine ⟨r.1, ?_, ?_⟩
      · rw [mergeTerms_filter_single p r.2 _ w vs _ hsorted' hfsingle]
        have hkt' : t.vis = vs ∧ t.wireID = w := by
          simpa [wireKey] using hkt
        rw [show ({ t with coeffID := r.1 } : Term) = ⟨r.1, w, vs⟩ by
          rw [← hkt'.1, ← hkt'.2]]
      · obtain ⟨ext2, hext2⟩ := (mergeTerms_sorted p r.2 _ hsorted').2.2
        rw [hext2, List.getD_append _ _ _ _ (coeffID_spec st c).1,
          (coeffID_spec st c).2.1, hs1, hs2]
    · rw [List.filter_cons_of_neg (by simp [hkt]),
          List.filter_cons_of_neg (by simp [hku, hkt])] at hf
      have hr1' : s1.coeffID < r.2.length := by
        rw [hext1, List.length_append]; omega
      have hr2' : s2.coeffID < r.2.length := by
        rw [hext1, List.length_append]; omega
      have hf' : ({ t with coeffID := r.1 } :: rest).filter (wireKey w vs) = [s1, s2] := by
        rw [List.filter_cons_of_neg (by simp [wireKey_congr hsw', hkt])]
        exact hf
      obtain ⟨cid, hc1, hc2⟩ := ih hsorted' hf' hr1' hr2'
      refine ⟨cid, by rw [hstep]; exact hc1, ?_⟩
      rw [hstep, hc2, hext1, List.getD_append _ _ _ _ hr1, List.getD_append _ _ _ _ hr2]
  | case4 st t u rest hsw ih =>
    intro hsorted hf hr1 hr2
    have hstep : mergeTerms p st (t :: u :: rest)
        = (t :: (mergeTerms p st (u :: rest)).1, (mergeTerms p st (u :: rest)).2) := by
      rw [mergeTerms]; rw [if_neg hsw]
    by_cases hkt : wireKey w vs t = true
    · -- impossible: a second term at this wire would have to equal `t`'s wire,
      -- contradicting sortedness past a strictly larger head
      exfalso
      rw [List.filter_cons_of_pos hkt] at hf
      have : s2 ∈ (u :: rest).filter (wireKey w vs) := by
        injection hf with _ h2
        rw [h2]; simp
      rw [List.mem_filter] at this
      exact not_sameWire_of_lt (sorted_head_lt hsorted hsw s2 this.1)
        (sameWire_symm (sameWire_of_wireKey this.2 hkt))
    · rw [List.filter_cons_of_neg hkt] at hf
      obtain ⟨cid, hc1, hc2⟩ :=
        ih (List.sorted_cons.mp hsorted).2 hf hr1 hr2
      refine ⟨cid, ?_, by rw [hstep]; exact hc2⟩
      rw [hstep]
      rw [List.filter_cons_of_neg hkt]
      exact hc1

/-- A list that is a permutation of an (ordered) pair is that pair or its
swap. -/
theorem perm_pair_cases {α : Type} {l : List α} {a b : α}
    (h : l.Perm [a, b]) : l = [a, b] ∨ l = [b, a] := by
  match l, h.length_eq with
  | [x, y], _ =>
    have hx : x ∈ [a, b] := h.mem_iff.mp (by simp)
    rcases List.mem_pair.mp hx with rfl | rfl
    · left
      have := h.cons_inv
      rw [List.perm_singleton] at this
      rw [this]
    · right
      have h2 : ([x, y] : List α).Perm [x, a] := h.trans (List.Perm.swap x a [])
      have := h2.cons_inv
      rw [List.perm_singleton] at this
      rw [this]

/-! ### GKR gate evaluators (`constraint/bls12-377/gkr.go`)

`fr.Element` values are embedded as natural numbers reduced modulo the field
size `p`; `res.Add` is addition mod `p` and the zero value of `fr.Element`
is `0`.
-/

/-- The `addGate.Evaluate` method of `constraint/bls12-377/gkr.go`.  The Go
`switch len(x)` has cases `0` (leave `res` at the zero value), `1`
(`res.Set(&x[0])`) and `2` (`res.Add(&x[0], &x[1])`, followed by a loop
`for i := 2; i < len(x)` that never runs when `len(x) = 2`); a list of three
or more elements matches no case, so the zero value is returned. -/
def addGateEvaluate (p : Nat) : List Nat → Nat
  | [] => 0
  | [a] => a
  | [a, b] => (a + b) % p
  | _ => 0

/-- The `mulGate.Evaluate` method of the same file, for arity check: it
panics (`none`) when the argument count differs from the gate's arity. -/
def mulGateEvaluate (p : Nat) (arity : Nat) (x : List Nat) : Option Nat :=
  if x.length ≠ arity then none
  else match x with
    | [] => some (1 % p)
    | [a] => some a
    | a :: b :: rest => some (rest.foldl (fun acc c => acc * c % p) (a * b % p))

/-! ### The constraint builder state (`compiler` struct of `r1cs.go`) -/

/-- A hint input as stored in `compiled.Hint.Inputs` (an `interface{}` in
the source): a `compiled.Variable` (carrying its `LinExp`), a
`compiled.LinearExpression`, a single `compiled.Term`, or a `big.Int`
constant produced by `utils.FromInterface`. -/
inductive HintInput where
  | hvar : LinExp → HintInput
  | hle : LinExp → HintInput
  | hterm : Term → HintInput
  | hconst : Nat → HintInput
deriving DecidableEq, Repr

/-- A `compiled.Hint` record: function identity (`hint.Function.UUID`),
input list, output wire list. -/
structure Hint where
  id : Nat
  inputs : List HintInput
  wires : List Nat
deriving DecidableEq, Repr

/-- Lookup in an association list, embedding a Go `map[int]*compiled.Hint`
read (`m[w]`); the first binding for a key wins, so consing a binding onto
the list embeds a map write `m[w] = v`. -/
def mlookup (m : List (Nat × Hint)) (w : Nat) : Option Hint :=
  (m.find? (fun e => e.1 == w)).map (fun e => e.2)

/-- A value of Go type `frontend.Variable` as it reaches the builder API: a
`compiled.Variable` (with its linear expression), a raw
`compiled.LinearExpression`, or anything convertible to a `big.Int`
(embedded by its value mod `p`). -/
inductive FrontValue where
  | fvar : LinExp → FrontValue
  | fle : LinExp → FrontValue
  | fconst : Nat → FrontValue
deriving DecidableEq, Repr

/-- The builder state: the fields of the `compiler` struct (with its
embedded `compiled.ConstraintSystem`) that the verified operations touch.
`coeffs` is `st.Coeffs` (the interned coefficient values), `mtBooleans` is
the boolean-fact table keyed by the structural hash. -/
structure CSys where
  publicNames : List String
  secretNames : List String
  nbInternal : Nat
  constraints : List R1C
  mHints : List (Nat × Hint)
  mDebug : List (Nat × Nat)
  logs : List LinExp
  debugInfo : List LinExp
  coeffs : List Nat
  mtBooleans : Nat → List LinExp

/-- The `Clone` of a linear expression (`compiled.Variable.Clone` copies the
underlying term slice). -/
def cloneLE (l : LinExp) : LinExp := l.map (fun t => t)

theorem cloneLE_eq (l : LinExp) : cloneLE l = l := List.map_id l

/-! ### `newR1C` and `addConstraint` -/

/-- The `newR1C` function: clones the three expressions and swaps `L` and
`R` when `L` has strictly more terms (`if len(l.LinExp) > len(r.LinExp)`). -/
def newR1C (l r o : LinExp) : R1C :=
  if r.length < l.length then ⟨cloneLE r, cloneLE l, cloneLE o⟩
  else ⟨cloneLE l, cloneLE r, cloneLE o⟩

/-- The `addConstraint` method: appends the constraint; when a debug ID is
supplied it is recorded in `MDebug` under the new constraint's index. -/
def addConstraint (sys : CSys) (r1c : R1C) (debugID : Option Nat) : CSys :=
  let sys1 := { sys with constraints := sys.constraints ++ [r1c] }
  match debugID with
  | some d => { sys1 with mDebug := (sys1.constraints.length - 1, d) :: sys1.mDebug }
  | none => sys1

/-! ### Internal wires and `NewHint` -/

/-- The `newInternalVariable` method: mints a fresh internal wire numbered
by the running counter and returns a single-term variable
`Pack(idx, CoeffIdOne, Internal)` over it. -/
def newInternalVariable (sys : CSys) : LinExp × CSys :=
  ([⟨coeffIdOne, sys.nbInternal, .Internal⟩],
   { sys with nbInternal := sys.nbInternal + 1 })

/-- The input conversion of `NewHint`: a `compiled.Variable` contributes a
clone of its linear expression, a raw linear expression is copied, anything
else becomes a field-element constant via `utils.FromInterface`. -/
def hintInputOf : FrontValue → HintInput
  | .fvar l => .hle (cloneLE l)
  | .fle l => .hle (cloneLE l)
  | .fconst n => .hconst n

/-- The wire-allocation loop of `NewHint`: allocates the requested number of
internal variables in order, collecting their wire IDs and the returned
single-term variables. -/
def allocHintOutputs (sys : CSys) : Nat → List Nat × List LinExp × CSys
  | 0 => ([], [], sys)
  | n + 1 =>
    let rs := newInternalVariable sys
    let wid := (rs.1.headD ⟨0, 0, .Internal⟩).wireID
    let rest := allocHintOutputs rs.2 n
    (wid :: rest.1, rs.1 :: rest.2.1, rest.2.2)

/-- The `NewHint` method: errors when `nbOutputs <= 0`, otherwise converts
the inputs, allocates `nbOutputs` fresh internal wires and registers one
shared `compiled.Hint` record in `MHints` under every output wire. -/
def NewHint (sys : CSys) (fid : Nat) (nbOutputs : Int) (inputs : List FrontValue) :
    Option (List LinExp × CSys) :=
  if nbOutputs ≤ 0 then none
  else
    let hintInputs := inputs.map hintInputOf
    let alloc := allocHintOutputs sys nbOutputs.toNat
    let ch : Hint := ⟨fid, hintInputs, alloc.1⟩
    some (alloc.2.1,
      { alloc.2.2 with
          mHints := alloc.1.foldl (fun m w => (w, ch) :: m) alloc.2.2.mHints })

/-! ### `ConstantValue`, `MarkBoolean`, `IsBoolean` -/

/-- The `ConstantValue` method: a `compiled.Variable` is constant iff its
expression is a single term bound to wire 0 with `Public` visibility, its
value being the interned coefficient; a raw value is always constant.  (The
`AssertIsSet` panic on an empty expression, which cannot arise from the
builder API, is not modelled.) -/
def constantValue (sys : CSys) : FrontValue → Option Nat
  | .fvar l =>
    match l with
    | [t] =>
      if t.wireID = 0 ∧ t.vis = .Public then some (sys.coeffs.getD t.coeffID 0)
      else none
    | _ => none
  | .fle _ => none
  | .fconst n => some n

/-- The `MarkBoolean` method, parameterised by the structural hash function
on sorted expressions (modelled from the spec:
`compiled.LinearExpression.HashCode` is outside the sources; every claim
below holds for an arbitrary hash).  A boolean constant is a no-op, a
non-boolean constant is a usage error (`none` models the panic), and a
non-constant variable's sorted expression is appended to its hash bucket in
the boolean-fact table. -/
def markBoolean (hashCode : LinExp → Nat) (sys : CSys) (v : FrontValue) :
    Option CSys :=
  match constantValue sys v with
  | some b => if b ≤ 1 then some sys else none
  | none =>
    match v with
    | .fvar l =>
      let l1 := sortIfNeeded l
      some { sys with mtBooleans := fun k =>
        if k = hashCode l1 then sys.mtBooleans (hashCode l1) ++ [l1]
        else sys.mtBooleans k }
    | _ => none

/-- The boolean-fact table after `MarkBoolean` records the sorted
expression `l1`: the bucket under `l1`'s hash gains `l1`, every other
bucket is unchanged. -/
def markedTable (hashCode : LinExp → Nat) (sys : CSys) (l1 : LinExp) : CSys :=
  { sys with mtBooleans := fun k =>
      if k = hashCode l1 then sys.mtBooleans (hashCode l1) ++ [l1]
      else sys.mtBooleans k }

theorem markBoolean_of_not_constant (hashCode : LinExp → Nat) (sys : CSys)
    (l : LinExp) (hnc : constantValue sys (.fvar l) = none) :
    markBoolean hashCode sys (.fvar l)
      = some (markedTable hashCode sys (sortIfNeeded l)) := by
  unfold markBoolean
  rw [hnc]
  rfl

/-- The `IsBoolean` method: a constant is boolean iff its value is 0 or 1;
otherwise the sorted expression's hash bucket is scanned for an entry that
is exactly structurally equal (`compiled.LinearExpression.Equal`, modelled
from the spec as term-list equality). -/
def isBoolean (hashCode : LinExp → Nat) (sys : CSys) (v : FrontValue) : Bool :=
  match constantValue sys v with
  | some b => decide (b ≤ 1)
  | none =>
    match v with
    | .fvar l =>
      let l1 := sortIfNeeded l
      (sys.mtBooleans (hashCode l1)).any (fun e => decide (e = l1))
    | _ => false

theorem mlookup_cons (x : Nat × Hint) (m : List (Nat × Hint)) (w : Nat) :
    mlookup (x :: m) w = if x.1 = w then some x.2 else mlookup m w := by
  by_cases h : x.1 = w
  · simp [mlookup, List.find?_cons_of_pos, h]
  · rw [if_neg h]
    unfold mlookup
    rw [List.find?_cons_of_neg _ (by simpa using h)]

theorem mlookup_insertAll (ws : List Nat) (ch : Hint) (m : List (Nat × Hint))
    (w : Nat) :
    mlookup (ws.foldl (fun acc x => (x, ch) :: acc) m) w
      = if w ∈ ws then some ch else mlookup m w := by
  induction ws generalizing m with
  | nil => simp
  | cons x rest ih =>
    rw [List.foldl_cons, ih ((x, ch) :: m), mlookup_cons]
    by_cases hr : w ∈ rest
    · simp [hr]
    · by_cases hx : x = w
      · simp [hr, hx]
      · have hm : w ∉ x :: rest := by
          rw [List.mem_cons]
          push_neg
          exact ⟨fun h => hx h.symm, hr⟩
        rw [if_neg hr, if_neg hx, if_neg hm]

/-- The allocation loop mints the wire IDs `nbInternal, nbInternal+1, …` in
order, returns the matching single-term variables, and only bumps the
internal-wire counter. -/
theorem allocHintOutputs_spec (sys : CSys) (n : Nat) :
    allocHintOutputs sys n
      = (List.range' sys.nbInternal n,
         (List.range' sys.nbInternal n).map
           (fun i => [(⟨coeffIdOne, i, .Internal⟩ : Term)]),
         { sys with nbInternal := sys.nbInternal + n }) := by
  induction n generalizing sys with
  | zero => rfl
  | succ k ih =>
    show (sys.nbInternal
            :: (allocHintOutputs { sys with nbInternal := sys.nbInternal + 1 } k).1,
          [(⟨coeffIdOne, sys.nbInternal, .Internal⟩ : Term)]
            :: (allocHintOutputs { sys with nbInternal := sys.nbInternal + 1 } k).2.1,
          (allocHintOutputs { sys with nbInternal := sys.nbInternal + 1 } k).2.2) = _
    rw [ih, List.range'_succ]
    rw [show sys.nbInternal + 1 + k = sys.nbInternal + (k + 1) by omega]
    simp

/-! ### The level builder (`buildLevels` / `levelBuilder.processLE`)

`mWireToNode` is embedded as an association list read through `nlookup`
(first binding wins, so consing embeds the Go map write), `nodeLevels` as a
zero-initialised list of length `len(Constraints)` updated in place, and
`MHints` of the finalized system as a lookup function.  The Go recursion of
`processLE` through hint inputs terminates because hints are acyclic by
construction; the embedding bounds it by explicit fuel, consumed only when
recursing into a hint's inputs, and the theorems hold for every fuel.
-/

/-- Lookup in the wire-to-node association list (`b.mWireToNode[wID]`). -/
def nlookup (m : List (Nat × Nat)) (w : Nat) : Option Nat :=
  (m.find? (fun e => e.1 == w)).map (fun e => e.2)

/-- The mutable state threaded through `levelBuilder.processLE`: the
wire-to-resolving-node map and the current constraint's candidate level. -/
structure LBState where
  wireMap : List (Nat × Nat)
  nodeLevel : Nat

mutual

/-- The `levelBuilder.processLE` method: scan the terms of a linear
expression for constraint `cID`.  Input wires (ID below the public+secret
count) are ignored; a wire resolved by another node `n` bumps the candidate
level to `nodeLevels[n] + 1` when needed; an unresolved hint-output wire
first recurses through the hint's inputs and then marks all of the hint's
output wires as resolved by `cID`; any other unresolved wire is marked as
resolved by `cID`. -/
def processLE (mh : Nat → Option Hint) (nbInputs : Nat) (nls : List Nat)
    (fuel : Nat) (st : LBState) (l : LinExp) (cID : Nat) : LBState :=
  match l with
  | [] => st
  | t :: rest =>
    if t.wireID < nbInputs then processLE mh nbInputs nls fuel st rest cID
    else
      match nlookup st.wireMap t.wireID with
      | some n =>
        let st1 :=
          if n ≠ cID ∧ st.nodeLevel ≤ nls.getD n 0 then
            { st with nodeLevel := nls.getD n 0 + 1 }
          else st
        processLE mh nbInputs nls fuel st1 rest cID
      | none =>
        match mh t.wireID with
        | some h =>
          let st1 :=
            match fuel with
            | 0 => st
            | f + 1 => processHintInputs mh nbInputs nls f st h.inputs cID
          let st2 := { st1 with
            wireMap := h.wires.foldl (fun m w => (w, cID) :: m) st1.wireMap }
          processLE mh nbInputs nls fuel st2 rest cID
        | none =>
          processLE mh nbInputs nls fuel
            { st with wireMap := (t.wireID, cID) :: st.wireMap } rest cID
termination_by (fuel, 1, l.length)

/-- The recursion of `processLE` over a hint's inputs: `compiled.Variable`
and `compiled.LinearExpression` inputs are scanned as expressions, a bare
`compiled.Term` as a one-term expression, constants are ignored. -/
def processHintInputs (mh : Nat → Option Hint) (nbInputs : Nat) (nls : List Nat)
    (fuel : Nat) (st : LBState) (ins : List HintInput) (cID : Nat) : LBState :=
  match ins with
  | [] => st
  | .hvar le :: rest =>
    processHintInputs mh nbInputs nls fuel
      (processLE mh nbInputs nls fuel st le cID) rest cID
  | .hle le :: rest =>
    processHintInputs mh nbInputs nls fuel
      (processLE mh nbInputs nls fuel st le cID) rest cID
  | .hterm t :: rest =>
    processHintInputs mh nbInputs nls fuel
      (processLE mh nbInputs nls fuel st [t] cID) rest cID
  | .hconst _ :: rest =>
    processHintInputs mh nbInputs nls fuel st rest cID
termination_by (fuel, 2, ins.length)

end

/-- The main loop of `buildLevels`: for each constraint in emission order,
reset the candidate level, scan `L`, `R`, `O`, then record the constraint's
level in `nodeLevels` (`b.nodeLevels[cID] = b.nodeLevel`). -/
def runLevels (mh : Nat → Option Hint) (nbInputs : Nat) (fuel : Nat) :
    List R1C → Nat → List (Nat × Nat) → List Nat → List (Nat × Nat) × List Nat
  | [], _, wm, nls => (wm, nls)
  | c :: rest, cID, wm, nls =>
    let st1 := processLE mh nbInputs nls fuel ⟨wm, 0⟩ c.L cID
    let st2 := processLE mh nbInputs nls fuel st1 c.R cID
    let st3 := processLE mh nbInputs nls fuel st2 c.O cID
    runLevels mh nbInputs fuel rest (cID + 1) st3.wireMap (nls.set cID st3.nodeLevel)

/-- The level assigned to each constraint by `buildLevels` (the final
`nodeLevels` array). -/
def constraintLevels (constraints : List R1C) (mh : Nat → Option Hint)
    (nbInputs : Nat) (fuel : Nat) : List Nat :=
  (runLevels mh nbInputs fuel constraints 0 []
    (List.replicate constraints.length 0)).2

/-- The `buildLevels` function: assigns each constraint its level, then
groups constraint indices by level, in emission order within each level
(`len(b.mLevels)` is the number of distinct levels used; the levels used by
the algorithm are `0 .. max`). -/
def buildLevels (constraints : List R1C) (mh : Nat → Option Hint)
    (nbInputs : Nat) (fuel : Nat) : List (List Nat) :=
  let nls := constraintLevels constraints mh nbInputs fuel
  (List.range nls.dedup.length).map
    (fun lvl => (List.range nls.length).filter (fun n => nls.getD n 0 = lvl))

/-! ### Finalization (`Compile`, lines 348–472) -/

/-- The `shiftVID` closure of `Compile`: offsets a wire ID into the final
layout `[public | secret | internal]` according to its visibility. -/
def shiftVID (nbPub nbSec : Nat) (oldID : Nat) : Visibility → Nat
  | .Internal => oldID + nbPub + nbSec
  | .Public => oldID
  | .Secret => oldID + nbPub

/-- One term under the `offsetIDs` closure of `Compile`
(`l[j].SetWireID(shiftVID(vID, visibility))`). -/
def offsetTerm (nbPub nbSec : Nat) (t : Term) : Term :=
  { t with wireID := shiftVID nbPub nbSec t.wireID t.vis }

/-- The `offsetIDs` closure of `Compile`: rewrites every term's wire ID of
a linear expression. -/
def offsetIDs (nbPub nbSec : Nat) (l : LinExp) : LinExp :=
  l.map (offsetTerm nbPub nbSec)

/-- Offsetting of one hint input inside the `HINTLOOP` of `Compile`: a
`compiled.Variable` or a `compiled.LinearExpression` input is copied and
its wire IDs offset (both stored back as a `LinearExpression`); any other
input is kept unchanged by the `default` branch. -/
def offsetHintInput (nbPub nbSec : Nat) : HintInput → HintInput
  | .hvar l => .hle (offsetIDs nbPub nbSec l)
  | .hle l => .hle (offsetIDs nbPub nbSec l)
  | .hterm t => .hterm t
  | .hconst n => .hconst n

/-- The shifted hint record built by one `HINTLOOP` iteration: same
function identity, offset inputs, output wires shifted as internal wires. -/
def shiftHint (nbPub nbSec : Nat) (h : Hint) : Hint :=
  ⟨h.id, h.inputs.map (offsetHintInput nbPub nbSec),
   h.wires.map (fun w => shiftVID nbPub nbSec w .Internal)⟩

/-- One iteration of the `HINTLOOP`: compute the shifted output wires `ws`;
if the shifted first output wire is already a key of `shiftedMap` the
record was already processed (`continue HINTLOOP`, triggered at `i == 0`);
otherwise the shifted record is inserted under every shifted output wire.
A record with no output wires inserts nothing. -/
def hintLoopStep (nbPub nbSec : Nat) (acc : List (Nat × Hint))
    (e : Nat × Hint) : List (Nat × Hint) :=
  let ws := e.2.wires.map (fun w => shiftVID nbPub nbSec w .Internal)
  match ws.head? with
  | none => acc
  | some w0 =>
    if (mlookup acc w0).isSome then acc
    else
      let ch := shiftHint nbPub nbSec e.2
      ws.foldl (fun m w => (w, ch) :: m) acc

/-- The `HINTLOOP` of `Compile`: iterates over the entries of `cs.MHints`
in the order `order` (Go map iteration order is unspecified; `order` makes
it an explicit parameter), building `shiftedMap`. -/
def hintLoop (nbPub nbSec : Nat) (order : List (Nat × Hint)) :
    List (Nat × Hint) :=
  order.foldl (hintLoopStep nbPub nbSec) []

/-- The finalized constraint system: the parts of `compiled.R1CS` filled in
by `Compile` before the backend-specific instantiation. -/
structure CompiledR1CS where
  constraints : List R1C
  nbPublicVariables : Nat
  nbSecretVariables : Nat
  mHints : List (Nat × Hint)
  logs : List LinExp
  debugInfo : List LinExp
  levels : List (List Nat)

/-- The finalization phase of `Compile` (everything after the
unconstrained-inputs check): offset all constraints, rebuild the hint map
with shifted wires and offset inputs, offset the `Logs` and `DebugInfo`
wire references, and build the levels. -/
def finalize (sys : CSys) (order : List (Nat × Hint)) (fuel : Nat) :
    CompiledR1CS :=
  let nbPub := sys.publicNames.length
  let nbSec := sys.secretNames.length
  let cons := sys.constraints.map (fun c =>
    ⟨offsetIDs nbPub nbSec c.L, offsetIDs nbPub nbSec c.R,
     offsetIDs nbPub nbSec c.O⟩)
  let mh := hintLoop nbPub nbSec order
  { constraints := cons
    nbPublicVariables := nbPub
    nbSecretVariables := nbSec
    mHints := mh
    logs := sys.logs.map (offsetIDs nbPub nbSec)
    debugInfo := sys.debugInfo.map (offsetIDs nbPub nbSec)
    levels := buildLevels cons (mlookup mh) (nbPub + nbSec) fuel }

/-- Well-formedness of the hint map as `NewHint` constructs it: keys are
distinct, every key's record lists the key among its output wires, and
every output wire of a bound record is itself a key bound to that same
record. -/
def HintMapWf (m : List (Nat × Hint)) : Prop :=
  (m.map Prod.fst).Nodup ∧
  ∀ w h, mlookup m w = some h →
    w ∈ h.wires ∧ ∀ w2 ∈ h.wires, mlookup m w2 = some h

theorem mem_of_mlookup {m : List (Nat × Hint)} {w : Nat} {h : Hint}
    (hl : mlookup m w = some h) : (w, h) ∈ m := by
  unfold mlookup at hl
  cases hf : m.find? (fun e => e.1 == w) with
  | none => rw [hf] at hl; simp at hl
  | some e =>
    rw [hf] at hl
    simp only [Option.map_some'] at hl
    have hmem := List.mem_of_find?_eq_some hf
    have hpred := List.find?_some hf
    simp only [beq_iff_eq] at hpred
    have : (w, h) = e := by
      cases e
      cases hl
      cases hpred
      rfl
    rw [this]
    exact hmem

theorem mlookup_of_mem_nodup :
    ∀ {m : List (Nat × Hint)}, (m.map Prod.fst).Nodup →
      ∀ {e : Nat × Hint}, e ∈ m → mlookup m e.1 = some e.2 := by
  intro m
  induction m with
  | nil => intro _ e he; simp at he
  | cons x rest ih =>
    intro hnd e he
    rw [List.map_cons, List.nodup_cons] at hnd
    rcases List.mem_cons.mp he with rfl | he
    · rw [mlookup_cons, if_pos rfl]
    · rw [mlookup_cons]
      have hne : x.1 ≠ e.1 := by
        intro hx
        exact hnd.1 (hx ▸ List.mem_map_of_mem Prod.fst he)
      rw [if_neg hne]
      exact ih hnd.2 he

theorem shiftVID_internal_inj {nbPub nbSec a b : Nat}
    (h : shiftVID nbPub nbSec a .Internal = shiftVID nbPub nbSec b .Internal) :
    a = b := by
  simp only [shiftVID] at h
  omega

/-- Two records of a well-formed hint map sharing an output wire are the
same record. -/
theorem hintMapWf_record_eq {m : List (Nat × Hint)} (hwf : HintMapWf m)
    {u v : Nat} {h1 h2 : Hint}
    (hu : mlookup m u = some h1) (hv : mlookup m v = some h2)
    {x : Nat} (hx1 : x ∈ h1.wires) (hx2 : x ∈ h2.wires) : h1 = h2 := by
  have e1 := (hwf.2 u h1 hu).2 x hx1
  have e2 := (hwf.2 v h2 hv).2 x hx2
  rw [e1] at e2
  exact Option.some.inj e2

/-- Invariant of the `HINTLOOP` fold: the accumulated `shiftedMap` binds
exactly the shifted output wires of the processed entries' records, each to
the shifted record. -/
def HintLoopInv (nbPub nbSec : Nat) (acc P : List (Nat × Hint)) : Prop :=
  (∀ e ∈ P, ∀ w ∈ e.2.wires,
     mlookup acc (shiftVID nbPub nbSec w .Internal)
       = some (shiftHint nbPub nbSec e.2)) ∧
  (∀ w' v, mlookup acc w' = some v →
     ∃ e ∈ P, (∃ w ∈ e.2.wires, w' = shiftVID nbPub nbSec w .Internal) ∧
       v = shiftHint nbPub nbSec e.2)

theorem hintLoopStep_eq (nbPub nbSec : Nat) (acc : List (Nat × Hint))
    (e : Nat × Hint) :
    hintLoopStep nbPub nbSec acc e =
      match (e.2.wires.map (fun w => shiftVID nbPub nbSec w .Internal)).head? with
      | none => acc
      | some w0 =>
        if (mlookup acc w0).isSome then acc
        else (e.2.wires.map (fun w => shiftVID nbPub nbSec w .Internal)).foldl
          (fun m w => (w, shiftHint nbPub nbSec e.2) :: m) acc := rfl

theorem hintLoopStep_inv (nbPub nbSec : Nat) {m : List (Nat × Hint)}
    (hwf : HintMapWf m) {acc P : List (Nat × Hint)} {e : Nat × Hint}
    (hPm : ∀ x ∈ P, x ∈ m) (hem : e ∈ m)
    (hinv : HintLoopInv nbPub nbSec acc P) :
    HintLoopInv nbPub nbSec (hintLoopStep nbPub nbSec acc e) (P ++ [e]) := by
  obtain ⟨I1, I2⟩ := hinv
  cases hws : (e.2.wires.map (fun w => shiftVID nbPub nbSec w .Internal)).head? with
  | none =>
    have hred : hintLoopStep nbPub nbSec acc e = acc := by
      rw [hintLoopStep_eq, hws]
    rw [hred]
    have hwnil : e.2.wires = [] := by
      have h0 := List.head?_eq_none_iff.mp hws
      exact List.map_eq_nil.mp h0
    constructor
    · intro x hx w hw
      rcases List.mem_append.mp hx with hx | hx
      · exact I1 x hx w hw
      · rw [List.mem_singleton] at hx
        subst hx
        rw [hwnil] at hw
        simp at hw
    · intro w' v hv
      obtain ⟨e2, he2, hr⟩ := I2 w' v hv
      exact ⟨e2, List.mem_append_left _ he2, hr⟩
  | some w0 =>
    have hred : hintLoopStep nbPub nbSec acc e
        = if (mlookup acc w0).isSome then acc
          else (e.2.wires.map (fun w => shiftVID nbPub nbSec w .Internal)).foldl
            (fun m w => (w, shiftHint nbPub nbSec e.2) :: m) acc := by
      rw [hintLoopStep_eq, hws]
    rw [hred]
    obtain ⟨wh, hwh, hw0⟩ :
        ∃ wh ∈ e.2.wires, w0 = shiftVID nbPub nbSec wh .Internal := by
      cases hnil : e.2.wires with
      | nil => rw [hnil] at hws; simp at hws
      | cons a as =>
        rw [hnil] at hws
        simp only [List.map_cons, List.head?_cons, Option.some.injEq] at hws
        exact ⟨a, by simp, hws.symm⟩
    by_cases hskip : (mlookup acc w0).isSome
    · rw [if_pos hskip]
      obtain ⟨v0, hv0⟩ := Option.isSome_iff_exists.mp hskip
      obtain ⟨e1, he1, ⟨u1, hu1, hw0u⟩, hv0v⟩ := I2 w0 v0 hv0
      have huw : u1 = wh := shiftVID_internal_inj (by rw [← hw0u, ← hw0])
      have heq : e1.2 = e.2 :=
        hintMapWf_record_eq hwf
          (mlookup_of_mem_nodup hwf.1 (hPm e1 he1))
          (mlookup_of_mem_nodup hwf.1 hem)
          (huw ▸ hu1) hwh
      constructor
      · intro x hx w hw
        rcases List.mem_append.mp hx with hx | hx
        · exact I1 x hx w hw
        · rw [List.mem_singleton] at hx
          subst hx
          rw [← heq]
          exact I1 e1 he1 w (by rw [heq]; exact hw)
      · intro w' v hv
        obtain ⟨e2, he2, hr⟩ := I2 w' v hv
        exact ⟨e2, List.mem_append_left _ he2, hr⟩
    · rw [if_neg hskip]
      constructor
      · intro x hx w hw
        rw [mlookup_insertAll]
        by_cases hm : shiftVID nbPub nbSec w .Internal
            ∈ e.2.wires.map (fun w => shiftVID nbPub nbSec w .Internal)
        · rw [if_pos hm]
          rcases List.mem_append.mp hx with hx | hx
          · obtain ⟨u, hu, hshift⟩ := List.mem_map.mp hm
            have huw : u = w := shiftVID_internal_inj hshift
            have heq : x.2 = e.2 :=
              hintMapWf_record_eq hwf
                (mlookup_of_mem_nodup hwf.1 (hPm x hx))
                (mlookup_of_mem_nodup hwf.1 hem)
                hw (huw ▸ hu)
            rw [heq]
          · rw [List.mem_singleton] at hx
            subst hx
            rfl
        · rw [if_neg hm]
          rcases List.mem_append.mp hx with hx | hx
          · exact I1 x hx w hw
          · rw [List.mem_singleton] at hx
            subst hx
            exact absurd (List.mem_map_of_mem _ hw) hm
      · intro w' v hv
        rw [mlookup_insertAll] at hv
        by_cases hm : w' ∈ e.2.wires.map (fun w => shiftVID nbPub nbSec w .Internal)
        · rw [if_pos hm] at hv
          obtain ⟨u, hu, hshift⟩ := List.mem_map.mp hm
          exact ⟨e, List.mem_append_right _ (List.mem_singleton.mpr rfl),
            ⟨u, hu, hshift.symm⟩, (Option.some.inj hv).symm⟩
        · rw [if_neg hm] at hv
          obtain ⟨e2, he2, hr⟩ := I2 w' v hv
          exact ⟨e2, List.mem_append_left _ he2, hr⟩

theorem hintLoop_fold_inv (nbPub nbSec : Nat) {m : List (Nat × Hint)}
    (hwf : HintMapWf m) :
    ∀ (todo acc P : List (Nat × Hint)), (∀ x ∈ todo, x ∈ m) →
      (∀ x ∈ P, x ∈ m) → HintLoopInv nbPub nbSec acc P →
      HintLoopInv nbPub nbSec (todo.foldl (hintLoopStep nbPub nbSec) acc)
        (P ++ todo) := by
  intro todo
  induction todo with
  | nil =>
    intro acc P _ _ hinv
    simpa using hinv
  | cons e rest ih =>
    intro acc P htodo hP hinv
    rw [List.foldl_cons]
    have hstep := hintLoopStep_inv nbPub nbSec hwf hP
      (htodo e (List.mem_cons_self _ _)) hinv
    have := ih (hintLoopStep nbPub nbSec acc e) (P ++ [e])
      (fun x hx => htodo x (List.mem_cons_of_mem _ hx))
      (by
        intro x hx
        rcases List.mem_append.mp hx with hx | hx
        · exact hP x hx
        · rw [List.mem_singleton] at hx
          subst hx
          exact htodo x (List.mem_cons_self _ _))
      hstep
    rwa [List.append_assoc, List.singleton_append] at this

/-- Characterization of the finished `shiftedMap`: forward direction (every
hint binding survives, shifted) and backward direction (nothing else is in
the map). -/
theorem hintLoop_lookup (nbPub nbSec : Nat) {m order : List (Nat × Hint)}
    (hwf : HintMapWf m) (hperm : order.Perm m) :
    (∀ u h, mlookup m u = some h →
      mlookup (hintLoop nbPub nbSec order) (shiftVID nbPub nbSec u .Internal)
        = some (shiftHint nbPub nbSec h)) ∧
    (∀ w' v, mlookup (hintLoop nbPub nbSec order) w' = some v →
      ∃ u h, mlookup m u = some h ∧
        (∃ w ∈ h.wires, w' = shiftVID nbPub nbSec w .Internal) ∧
        v = shiftHint nbPub nbSec h) := by
  have hbase : HintLoopInv nbPub nbSec [] [] := by
    constructor
    · intro x hx; simp at hx
    · intro w' v hv; simp [mlookup] at hv
  have hinv := hintLoop_fold_inv nbPub nbSec hwf order [] []
    (fun x hx => hperm.subset hx) (fun x hx => by simp at hx) hbase
  rw [List.nil_append] at hinv
  constructor
  · intro u h hu
    have hmem : (u, h) ∈ order := hperm.mem_iff.mpr (mem_of_mlookup hu)
    exact hinv.1 (u, h) hmem u (hwf.2 u h hu).1
  · intro w' v hv
    obtain ⟨e, he, ⟨w, hw, hw'⟩, hval⟩ := hinv.2 w' v hv
    have hem : e ∈ m := hperm.subset he
    exact ⟨e.1, e.2, mlookup_of_mem_nodup hwf.1 hem, ⟨w, hw, hw'⟩, hval⟩

/-- The finished `shiftedMap` does not depend on the iteration order over
`cs.MHints`. -/
theorem hintLoop_perm_lookup (nbPub nbSec : Nat)
    {m o1 o2 : List (Nat × Hint)} (hwf : HintMapWf m)
    (h1 : o1.Perm m) (h2 : o2.Perm m) :
    ∀ w, mlookup (hintLoop nbPub nbSec o1) w
      = mlookup (hintLoop nbPub nbSec o2) w := by
  intro w
  obtain ⟨hA1, hB1⟩ := hintLoop_lookup nbPub nbSec hwf h1
  obtain ⟨hA2, hB2⟩ := hintLoop_lookup nbPub nbSec hwf h2
  cases hc1 : mlookup (hintLoop nbPub nbSec o1) w with
  | some v =>
    obtain ⟨u, h, hu, ⟨wx, hwx, hw⟩, hv⟩ := hB1 w v hc1
    have hux : mlookup m wx = some h := (hwf.2 u h hu).2 wx hwx
    rw [hw, hA2 wx h hux, hv]
  | none =>
    cases hc2 : mlookup (hintLoop nbPub nbSec o2) w with
    | none => rfl
    | some v =>
      obtain ⟨u, h, hu, ⟨wx, hwx, hw⟩, hv⟩ := hB2 w v hc2
      have hux : mlookup m wx = some h := (hwf.2 u h hu).2 wx hwx
      rw [hw, hA1 wx h hux] at hc1
      simp at hc1

/-! ### `checkVariables` (`r1cs.go` lines 244–339) and the `Compile` gate

The Go counters are machine ints; under the in-range hypotheses used by the
theorems they never go below zero, so they are embedded as `Nat` (and the
early-exit test `cptHints|cptSecret|cptPublic == 0`, a bitwise or of
non-negative ints, as the conjunction of the three `= 0` tests).
`mHintsConstrained` (`map[int]bool`) is embedded as the list of wires
marked true.
-/

/-- The mutable state of `checkVariables`. -/
structure CheckState where
  cptSecret : Nat
  cptPublic : Nat
  cptHints : Nat
  secretConstrained : List Bool
  publicConstrained : List Bool
  mHintsConstrained : List Nat
deriving Repr

/-- One term of `processLinearExpression`: a term with coefficient ID
`CoeffIdZero` is ignored; otherwise the referenced public input (except the
reserved wire 0), secret input, or hint-output wire is marked as seen,
decrementing the matching counter on its first encounter. -/
def checkTerm (mh : List (Nat × Hint)) (st : CheckState) (t : Term) :
    CheckState :=
  if t.coeffID = coeffIdZero then st
  else
    match t.vis with
    | .Public =>
      if t.wireID ≠ 0 ∧ st.publicConstrained.getD t.wireID false = false then
        { st with publicConstrained := st.publicConstrained.set t.wireID true,
                  cptPublic := st.cptPublic - 1 }
      else st
    | .Secret =>
      if st.secretConstrained.getD t.wireID false = false then
        { st with secretConstrained := st.secretConstrained.set t.wireID true,
                  cptSecret := st.cptSecret - 1 }
      else st
    | .Internal =>
      if ¬ st.mHintsConstrained.contains t.wireID ∧ (mlookup mh t.wireID).isSome
      then
        { st with mHintsConstrained := t.wireID :: st.mHintsConstrained,
                  cptHints := st.cptHints - 1 }
      else st

/-- `processLinearExpression` over one expression. -/
def checkLE (mh : List (Nat × Hint)) (st : CheckState) (l : LinExp) :
    CheckState :=
  l.foldl (checkTerm mh) st

/-- One constraint of the scan: `L`, then `R`, then `O`. -/
def checkR1C (mh : List (Nat × Hint)) (st : CheckState) (c : R1C) : CheckState :=
  checkLE mh (checkLE mh (checkLE mh st c.L) c.R) c.O

/-- The name-emission loop of the error builder: list the names at indices
whose flag is still false, stopping once the counter reaches zero. -/
def emitNames : List Bool → List String → Nat → List String
  | _, _, 0 => []
  | [], _, _ + 1 => []
  | _ :: _, [], _ + 1 => []
  | flag :: fs, name :: ns, cpt + 1 =>
    if flag then emitNames fs ns (cpt + 1)
    else name :: emitNames fs ns cpt

/-- The writes of the name loop into the string builder: each name followed
by a newline. -/
def namesBlock : List String → String
  | [] => ""
  | n :: ns => n ++ "\n" ++ namesBlock ns

/-- The error string built after the scan (`strings.Builder` writes of
`checkVariables`). -/
def buildCheckError (secretNames publicNames : List String) (st : CheckState) :
    String :=
  (if st.cptSecret ≠ 0 then
      toString st.cptSecret ++ " unconstrained secret input(s):" ++ "\n"
        ++ namesBlock (emitNames st.secretConstrained secretNames st.cptSecret)
        ++ "\n"
    else "")
  ++ (if st.cptPublic ≠ 0 then
      toString st.cptPublic ++ " unconstrained public input(s):" ++ "\n"
        ++ namesBlock (emitNames st.publicConstrained publicNames st.cptPublic)
        ++ "\n"
    else "")
  ++ (if st.cptHints ≠ 0 then
      toString st.cptHints ++ " unconstrained hints" ++ "\n"
    else "")

/-- The scan loop of `checkVariables`: after each constraint, return `nil`
(no error) as soon as every counter is zero; when the loop ends without
that, build the error string (`errors.New` of an empty string is still a
non-nil error, hence `some` even for an empty message). -/
def checkLoop (mh : List (Nat × Hint)) (secretNames publicNames : List String) :
    CheckState → List R1C → Option String
  | st, [] => some (buildCheckError secretNames publicNames st)
  | st, c :: rest =>
    let st1 := checkR1C mh st c
    if st1.cptHints = 0 ∧ st1.cptSecret = 0 ∧ st1.cptPublic = 0 then none
    else checkLoop mh secretNames publicNames st1 rest

/-- The initial counters and flags of `checkVariables` (`publicConstrained[0]`
is pre-marked: the reserved wire needs no constraint). -/
def initCheckState (sys : CSys) : CheckState :=
  { cptSecret := sys.secretNames.length
    cptPublic := sys.publicNames.length - 1
    cptHints := sys.mHints.length
    secretConstrained := List.replicate sys.secretNames.length false
    publicConstrained := (List.replicate sys.publicNames.length false).set 0 true
    mHintsConstrained := [] }

/-- The `checkVariables` method; `some err` embeds a non-nil error. -/
def checkVariables (sys : CSys) : Option String :=
  checkLoop sys.mHints sys.secretNames sys.publicNames (initCheckState sys)
    sys.constraints

/-- The error gate of `Compile`: the check runs unless
`IgnoreUnconstrainedInputs` is configured. -/
def compileCheck (ignoreUnconstrainedInputs : Bool) (sys : CSys) :
    Option String :=
  if ignoreUnconstrainedInputs then none else checkVariables sys

/-- `Compile`: the unconstrained-inputs gate followed by finalization; on a
check error no constraint system is returned. -/
def Compile (ignoreUnconstrainedInputs : Bool) (sys : CSys)
    (order : List (Nat × Hint)) (fuel : Nat) : Except String CompiledR1CS :=
  match compileCheck ignoreUnconstrainedInputs sys with
  | some err => .error err
  | none => .ok (finalize sys order fuel)

/-- All terms of a constraint, in scan order. -/
def r1cTerms (c : R1C) : LinExp := c.L ++ c.R ++ c.O

/-- All terms of a constraint list, in scan order. -/
def termsOf (cs : List R1C) : LinExp := (cs.map r1cTerms).join

/-- Some term among `ts` references secret wire `i` with a non-zero
coefficient ID. -/
def SeenSecretT (ts : LinExp) (i : Nat) : Prop :=
  ∃ t ∈ ts, t.vis = .Secret ∧ t.wireID = i ∧ t.coeffID ≠ coeffIdZero

/-- Some term among `ts` references public wire `i` with a non-zero
coefficient ID. -/
def SeenPublicT (ts : LinExp) (i : Nat) : Prop :=
  ∃ t ∈ ts, t.vis = .Public ∧ t.wireID = i ∧ t.coeffID ≠ coeffIdZero

/-- Some term among `ts` references internal wire `w` with a non-zero
coefficient ID. -/
def SeenInternalT (ts : LinExp) (w : Nat) : Prop :=
  ∃ t ∈ ts, t.vis = .Internal ∧ t.wireID = w ∧ t.coeffID ≠ coeffIdZero

instance (ts : LinExp) (i : Nat) : Decidable (SeenSecretT ts i) := by
  unfold SeenSecretT; infer_instance

instance (ts : LinExp) (i : Nat) : Decidable (SeenPublicT ts i) := by
  unfold SeenPublicT; infer_instance

instance (ts : LinExp) (w : Nat) : Decidable (SeenInternalT ts w) := by
  unfold SeenInternalT; infer_instance

/-- Every secret input, every public input other than the reserved wire 0,
and every hint-output wire appears with a non-zero coefficient ID among the
terms `ts`. -/
def AllSeenT (mh : List (Nat × Hint)) (nbSec nbPub : Nat) (ts : LinExp) : Prop :=
  (∀ i, i < nbSec → SeenSecretT ts i) ∧
  (∀ i, i < nbPub → i ≠ 0 → SeenPublicT ts i) ∧
  (∀ e ∈ mh, SeenInternalT ts e.1)

instance (mh : List (Nat × Hint)) (nbSec nbPub : Nat) (ts : LinExp) :
    Decidable (AllSeenT mh nbSec nbPub ts) := by
  unfold AllSeenT; infer_instance

/-- Every secret input, every public input other than the reserved wire 0,
and every hint-output wire appears with a non-zero coefficient ID in some
stored constraint. -/
def AllConstrained (sys : CSys) : Prop :=
  AllSeenT sys.mHints sys.secretNames.length sys.publicNames.length
    (termsOf sys.constraints)

instance (sys : CSys) : Decidable (AllConstrained sys) := by
  unfold AllConstrained; infer_instance

/-- Range discipline of the builder: public- and secret-visibility terms of
the stored constraints reference allocated input wires (the Go code indexes
the flag arrays with these IDs). -/
def TermsInRange (pubLen secLen : Nat) (cs : List R1C) : Prop :=
  ∀ c ∈ cs, ∀ t ∈ r1cTerms c,
    (t.vis = .Public → t.wireID < pubLen) ∧
    (t.vis = .Secret → t.wireID < secLen)

theorem count_false_set : ∀ {l : List Bool} {i : Nat}, i < l.length →
    l.getD i false = false → (l.set i true).count false + 1 = l.count false := by
  intro l
  induction l with
  | nil => intro i hi; simp at hi
  | cons b bs ih =>
    intro i hi hflag
    cases i with
    | zero =>
      have hb : b = false := by simpa using hflag
      subst hb
      simp [List.count_cons]
    | succ j =>
      have hj : j < bs.length := by simpa using hi
      have hfl : bs.getD j false = false := by simpa using hflag
      have := ih hj hfl
      simp only [List.set_cons_succ, List.count_cons]
      omega

theorem all_true_iff_getD {l : List Bool} :
    (∀ x ∈ l, x = true) ↔ ∀ i, i < l.length → l.getD i false = true := by
  constructor
  · intro h i hi
    rw [List.getD_eq_getElem?_getD, List.getElem?_eq_getElem hi]
    exact h _ (List.getElem_mem _)
  · intro h x hx
    obtain ⟨i, hi, rfl⟩ := List.mem_iff_getElem.mp hx
    have := h i hi
    rwa [List.getD_eq_getElem?_getD, List.getElem?_eq_getElem hi] at this

theorem nodup_subset_length {l1 l2 : List Nat} (h1 : l1.Nodup) (hs : l1 ⊆ l2) :
    l1.length ≤ l2.length :=
  calc l1.length = l1.toFinset.card := (List.toFinset_card_of_nodup h1).symm
    _ ≤ l2.toFinset.card := Finset.card_le_card
        (fun _ hx => List.mem_toFinset.mpr (hs (List.mem_toFinset.mp hx)))
    _ ≤ l2.length := l2.toFinset_card_le

theorem seenSecretT_append {ts : LinExp} {t : Term} {i : Nat} :
    SeenSecretT (ts ++ [t]) i ↔
      SeenSecretT ts i ∨
        (t.vis = .Secret ∧ t.wireID = i ∧ t.coeffID ≠ coeffIdZero) := by
  constructor
  · rintro ⟨x, hx, hp⟩
    rcases List.mem_append.mp hx with hx | hx
    · exact Or.inl ⟨x, hx, hp⟩
    · rw [List.mem_singleton] at hx
      subst hx
      exact Or.inr hp
  · rintro (⟨x, hx, hp⟩ | hp)
    · exact ⟨x, List.mem_append_left _ hx, hp⟩
    · exact ⟨t, List.mem_append_right _ (List.mem_singleton.mpr rfl), hp⟩

theorem seenPublicT_append {ts : LinExp} {t : Term} {i : Nat} :
    SeenPublicT (ts ++ [t]) i ↔
      SeenPublicT ts i ∨
        (t.vis = .Public ∧ t.wireID = i ∧ t.coeffID ≠ coeffIdZero) := by
  constructor
  · rintro ⟨x, hx, hp⟩
    rcases List.mem_append.mp hx with hx | hx
    · exact Or.inl ⟨x, hx, hp⟩
    · rw [List.mem_singleton] at hx
      subst hx
      exact Or.inr hp
  · rintro (⟨x, hx, hp⟩ | hp)
    · exact ⟨x, List.mem_append_left _ hx, hp⟩
    · exact ⟨t, List.mem_append_right _ (List.mem_singleton.mpr rfl), hp⟩

theorem seenInternalT_append {ts : LinExp} {t : Term} {w : Nat} :
    SeenInternalT (ts ++ [t]) w ↔
      SeenInternalT ts w ∨
        (t.vis = .Internal ∧ t.wireID = w ∧ t.coeffID ≠ coeffIdZero) := by
  constructor
  · rintro ⟨x, hx, hp⟩
    rcases List.mem_append.mp hx with hx | hx
    · exact Or.inl ⟨x, hx, hp⟩
    · rw [List.mem_singleton] at hx
      subst hx
      exact Or.inr hp
  · rintro (⟨x, hx, hp⟩ | hp)
    · exact ⟨x, List.mem_append_left _ hx, hp⟩
    · exact ⟨t, List.mem_append_right _ (List.mem_singleton.mpr rfl), hp⟩

/-- A wire with a hint binding is a key of the hint map. -/
theorem key_of_mlookup_isSome {m : List (Nat × Hint)} {w : Nat}
    (h : (mlookup m w).isSome) : w ∈ m.map Prod.fst := by
  obtain ⟨v, hv⟩ := Option.isSome_iff_exists.mp h
  exact List.mem_map_of_mem Prod.fst (mem_of_mlookup hv)

/-- The invariant of the `checkVariables` scan after processing the terms
`ts`: flags record exactly the seen wires, counters count the remaining
unseen ones. -/
def CheckInv (mh : List (Nat × Hint)) (nbSec nbPub : Nat) (ts : LinExp)
    (st : CheckState) : Prop :=
  st.secretConstrained.length = nbSec ∧
  st.publicConstrained.length = nbPub ∧
  (∀ i, i < nbSec →
    (st.secretConstrained.getD i false = true ↔ SeenSecretT ts i)) ∧
  (∀ i, i < nbPub →
    (st.publicConstrained.getD i false = true ↔ (i = 0 ∨ SeenPublicT ts i))) ∧
  st.cptSecret = st.secretConstrained.count false ∧
  st.cptPublic = st.publicConstrained.count false ∧
  st.mHintsConstrained.Nodup ∧
  (∀ w, w ∈ st.mHintsConstrained ↔
    ((mlookup mh w).isSome ∧ SeenInternalT ts w)) ∧
  st.cptHints + st.mHintsConstrained.length = mh.length

theorem seenSecretT_append_of_not {ts : LinExp} {t : Term} {i : Nat}
    (h : ¬ (t.vis = .Secret ∧ t.wireID = i ∧ t.coeffID ≠ coeffIdZero)) :
    SeenSecretT (ts ++ [t]) i ↔ SeenSecretT ts i := by
  rw [seenSecretT_append]
  exact or_iff_left h

theorem seenPublicT_append_of_not {ts : LinExp} {t : Term} {i : Nat}
    (h : ¬ (t.vis = .Public ∧ t.wireID = i ∧ t.coeffID ≠ coeffIdZero)) :
    SeenPublicT (ts ++ [t]) i ↔ SeenPublicT ts i := by
  rw [seenPublicT_append]
  exact or_iff_left h

theorem seenInternalT_append_of_not {ts : LinExp} {t : Term} {w : Nat}
    (h : ¬ (t.vis = .Internal ∧ t.wireID = w ∧ t.coeffID ≠ coeffIdZero)) :
    SeenInternalT (ts ++ [t]) w ↔ SeenInternalT ts w := by
  rw [seenInternalT_append]
  exact or_iff_left h

theorem getD_set_self {α : Type} {d : α} : ∀ {l : List α} {i : Nat},
    i < l.length → ∀ a, (l.set i a).getD i d = a := by
  intro l
  induction l with
  | nil => intro i hi; simp at hi
  | cons b bs ih =>
    intro i hi a
    cases i with
    | zero => rfl
    | succ j => exact ih (by simpa using hi) a

theorem getD_set_ne {α : Type} {d : α} : ∀ {l : List α} {i j : Nat}, j ≠ i →
    ∀ a, (l.set i a).getD j d = l.getD j d := by
  intro l
  induction l with
  | nil => intro i j _ a; simp
  | cons b bs ih =>
    intro i j hne a
    cases i with
    | zero =>
      cases j with
      | zero => exact absurd rfl hne
      | succ k => rfl
    | succ m =>
      cases j with
      | zero => rfl
      | succ k => exact ih (fun h => hne (by rw [h])) a

/-- One scanned term preserves the `checkVariables` invariant. -/
theorem checkTerm_inv (mh : List (Nat × Hint)) {nbSec nbPub : Nat}
    {ts : LinExp} {st : CheckState} (t : Term)
    (hinv : CheckInv mh nbSec nbPub ts st)
    (hP : t.vis = .Public → t.wireID < nbPub)
    (hS : t.vis = .Secret → t.wireID < nbSec) :
    CheckInv mh nbSec nbPub (ts ++ [t]) (checkTerm mh st t) := by
  obtain ⟨hlen1, hlen2, hsec, hpub, hcnt1, hcnt2, hnd, hmark, hcnt3⟩ := hinv
  unfold checkTerm
  by_cases hz : t.coeffID = coeffIdZero
  · rw [if_pos hz]
    refine ⟨hlen1, hlen2, ?_, ?_, hcnt1, hcnt2, hnd, ?_, hcnt3⟩
    · intro i hi
      rw [seenSecretT_append_of_not (by simp [hz])]
      exact hsec i hi
    · intro i hi
      rw [seenPublicT_append_of_not (by simp [hz])]
      exact hpub i hi
    · intro w
      rw [seenInternalT_append_of_not (by simp [hz])]
      exact hmark w
  · rw [if_neg hz]
    cases hv : t.vis with
    | Public =>
      by_cases hc : t.wireID ≠ 0 ∧ st.publicConstrained.getD t.wireID false = false
      · rw [if_pos hc]
        obtain ⟨hw0, hflag⟩ := hc
        have hwlt : t.wireID < st.publicConstrained.length := by
          rw [hlen2]; exact hP hv
        refine ⟨hlen1, by rw [List.length_set]; exact hlen2, ?_, ?_, hcnt1,
          ?_, hnd, ?_, hcnt3⟩
        · intro i hi
          rw [seenSecretT_append_of_not (by simp [hv])]
          exact hsec i hi
        · intro i hi
          by_cases hit : i = t.wireID
          · subst hit
            rw [getD_set_self hwlt]
            simp only [true_iff]
            exact Or.inr (seenPublicT_append.mpr (Or.inr ⟨hv, rfl, hz⟩))
          · rw [getD_set_ne hit,
              seenPublicT_append_of_not (by simp [hv]; intro h; exact absurd h.symm hit)]
            exact hpub i hi
        · show st.cptPublic - 1 = (st.publicConstrained.set t.wireID true).count false
          have := count_false_set hwlt hflag
          omega
        · intro w
          rw [seenInternalT_append_of_not (by simp [hv])]
          exact hmark w
      · rw [if_neg hc]
        refine ⟨hlen1, hlen2, ?_, ?_, hcnt1, hcnt2, hnd, ?_, hcnt3⟩
        · intro i hi
          rw [seenSecretT_append_of_not (by simp [hv])]
          exact hsec i hi
        · intro i hi
          by_cases hit : i = t.wireID
          · subst hit
            by_cases h0 : t.wireID = 0
            · have hgd : st.publicConstrained.getD t.wireID false = true :=
                (hpub t.wireID hi).mpr (Or.inl h0)
              rw [hgd]
              simp only [true_iff]
              exact Or.inl h0
            · have hgd : st.publicConstrained.getD t.wireID false = true := by
                rcases not_and_or.mp hc with hcc | hcc
                · exact absurd h0 (by simpa using hcc)
                · simpa using hcc
              rw [hgd]
              simp only [true_iff]
              rcases (hpub t.wireID hi).mp hgd with h | h
              · exact Or.inl h
              · exact Or.inr (seenPublicT_append.mpr (Or.inl h))
          · rw [seenPublicT_append_of_not (by simp [hv]; intro h; exact absurd h.symm hit)]
            exact hpub i hi
        · intro w
          rw [seenInternalT_append_of_not (by simp [hv])]
          exact hmark w
    | Secret =>
      by_cases hc : st.secretConstrained.getD t.wireID false = false
      · rw [if_pos hc]
        have hwlt : t.wireID < st.secretConstrained.length := by
          rw [hlen1]; exact hS hv
        refine ⟨by rw [List.length_set]; exact hlen1, hlen2, ?_, ?_, ?_,
          hcnt2, hnd, ?_, hcnt3⟩
        · intro i hi
          by_cases hit : i = t.wireID
          · subst hit
            rw [getD_set_self hwlt]
            simp only [true_iff]
            exact seenSecretT_append.mpr (Or.inr ⟨hv, rfl, hz⟩)
          · rw [getD_set_ne hit,
              seenSecretT_append_of_not (by simp [hv]; intro h; exact absurd h.symm hit)]
            exact hsec i hi
        · intro i hi
          rw [seenPublicT_append_of_not (by simp [hv])]
          exact hpub i hi
        · show st.cptSecret - 1 = (st.secretConstrained.set t.wireID true).count false
          have := count_false_set hwlt hc
          omega
        · intro w
          rw [seenInternalT_append_of_not (by simp [hv])]
          exact hmark w
      · rw [if_neg hc]
        have hgd : st.secretConstrained.getD t.wireID false = true := by
          simpa using hc
        refine ⟨hlen1, hlen2, ?_, ?_, hcnt1, hcnt2, hnd, ?_, hcnt3⟩
        · intro i hi
          by_cases hit : i = t.wireID
          · subst hit
            rw [hgd]
            simp only [true_iff]
            exact seenSecretT_append.mpr (Or.inl ((hsec t.wireID hi).mp hgd))
          · rw [seenSecretT_append_of_not (by simp [hv]; intro h; exact absurd h.symm hit)]
            exact hsec i hi
        · intro i hi
          rw [seenPublicT_append_of_not (by simp [hv])]
          exact hpub i hi
        · intro w
          rw [seenInternalT_append_of_not (by simp [hv])]
          exact hmark w
    | Internal =>
      by_cases hc : ¬ st.mHintsConstrained.contains t.wireID
          ∧ (mlookup mh t.wireID).isSome
      · rw [if_pos hc]
        obtain ⟨hnc, hsome⟩ := hc
        have hnmem : t.wireID ∉ st.mHintsConstrained := by simpa using hnc
        refine ⟨hlen1, hlen2, ?_, ?_, hcnt1, hcnt2,
          List.nodup_cons.mpr ⟨hnmem, hnd⟩, ?_, ?_⟩
        · intro i hi
          rw [seenSecretT_append_of_not (by simp [hv])]
          exact hsec i hi
        · intro i hi
          rw [seenPublicT_append_of_not (by simp [hv])]
          exact hpub i hi
        · intro w
          by_cases hwt : w = t.wireID
          · subst hwt
            simp only [List.mem_cons, true_or, true_iff]
            exact ⟨hsome, seenInternalT_append.mpr (Or.inr ⟨hv, rfl, hz⟩)⟩
          · rw [seenInternalT_append_of_not (by simp [hv]; intro h; exact absurd h.symm hwt)]
            rw [List.mem_cons]
            constructor
            · rintro (h | h)
              · exact absurd h hwt
              · exact (hmark w).mp h
            · intro h
              exact Or.inr ((hmark w).mpr h)
        · show st.cptHints - 1 + (t.wireID :: st.mHintsConstrained).length = mh.length
          have hsub : (t.wireID :: st.mHintsConstrained) ⊆ mh.map Prod.fst := by
            intro x hx
            rcases List.mem_cons.mp hx with rfl | hx
            · exact key_of_mlookup_isSome hsome
            · exact key_of_mlookup_isSome ((hmark x).mp hx).1
          have hle := nodup_subset_length (List.nodup_cons.mpr ⟨hnmem, hnd⟩) hsub
          rw [List.length_map] at hle
          simp only [List.length_cons] at hle ⊢
          omega
      · rw [if_neg hc]
        refine ⟨hlen1, hlen2, ?_, ?_, hcnt1, hcnt2, hnd, ?_, hcnt3⟩
        · intro i hi
          rw [seenSecretT_append_of_not (by simp [hv])]
          exact hsec i hi
        · intro i hi
          rw [seenPublicT_append_of_not (by simp [hv])]
          exact hpub i hi
        · intro w
          by_cases hwt : w = t.wireID
          · subst hwt
            by_cases hsome : (mlookup mh t.wireID).isSome
            · have hcont : t.wireID ∈ st.mHintsConstrained := by
                by_contra hn
                exact hc ⟨by simpa using hn, hsome⟩
              simp only [hcont, true_iff]
              obtain ⟨h1, h2⟩ := (hmark t.wireID).mp hcont
              exact ⟨h1, seenInternalT_append.mpr (Or.inl h2)⟩
            · constructor
              · intro hmem
                exact absurd ((hmark t.wireID).mp hmem).1 hsome
              · rintro ⟨h1, _⟩
                exact absurd h1 hsome
          · rw [seenInternalT_append_of_not (by simp [hv]; intro h; exact absurd h.symm hwt)]
            exact hmark w

theorem seenSecretT_mono {ts more : LinExp} {i : Nat} (h : SeenSecretT ts i) :
    SeenSecretT (ts ++ more) i := by
  obtain ⟨t, ht, hp⟩ := h
  exact ⟨t, List.mem_append_left _ ht, hp⟩

theorem seenPublicT_mono {ts more : LinExp} {i : Nat} (h : SeenPublicT ts i) :
    SeenPublicT (ts ++ more) i := by
  obtain ⟨t, ht, hp⟩ := h
  exact ⟨t, List.mem_append_left _ ht, hp⟩

theorem seenInternalT_mono {ts more : LinExp} {w : Nat} (h : SeenInternalT ts w) :
    SeenInternalT (ts ++ more) w := by
  obtain ⟨t, ht, hp⟩ := h
  exact ⟨t, List.mem_append_left _ ht, hp⟩

theorem allSeenT_mono {mh : List (Nat × Hint)} {nbSec nbPub : Nat}
    {ts more : LinExp} (h : AllSeenT mh nbSec nbPub ts) :
    AllSeenT mh nbSec nbPub (ts ++ more) :=
  ⟨fun i hi => seenSecretT_mono (h.1 i hi),
   fun i hi h0 => seenPublicT_mono (h.2.1 i hi h0),
   fun e he => seenInternalT_mono (h.2.2 e he)⟩

theorem checkLE_inv (mh : List (Nat × Hint)) {nbSec nbPub : Nat} :
    ∀ (l : LinExp) {ts : LinExp} {st : CheckState},
      CheckInv mh nbSec nbPub ts st →
      (∀ t ∈ l, (t.vis = .Public → t.wireID < nbPub) ∧
        (t.vis = .Secret → t.wireID < nbSec)) →
      CheckInv mh nbSec nbPub (ts ++ l) (checkLE mh st l) := by
  intro l
  induction l with
  | nil =>
    intro ts st h _
    simpa [checkLE] using h
  | cons t rest ih =>
    intro ts st h hr
    have h1 := checkTerm_inv mh t h (hr t (List.mem_cons_self _ _)).1
      (hr t (List.mem_cons_self _ _)).2
    have h2 := ih h1 (fun x hx => hr x (List.mem_cons_of_mem _ hx))
    rw [List.append_assoc, List.singleton_append] at h2
    show CheckInv mh nbSec nbPub (ts ++ t :: rest)
      (List.foldl (checkTerm mh) (checkTerm mh st t) rest)
    exact h2

theorem checkR1C_inv (mh : List (Nat × Hint)) {nbSec nbPub : Nat}
    {ts : LinExp} {st : CheckState} (c : R1C)
    (h : CheckInv mh nbSec nbPub ts st)
    (hr : ∀ t ∈ r1cTerms c, (t.vis = .Public → t.wireID < nbPub) ∧
      (t.vis = .Secret → t.wireID < nbSec)) :
    CheckInv mh nbSec nbPub (ts ++ r1cTerms c) (checkR1C mh st c) := by
  have hrL : ∀ t ∈ c.L, (t.vis = .Public → t.wireID < nbPub) ∧
      (t.vis = .Secret → t.wireID < nbSec) :=
    fun t ht => hr t (List.mem_append_left _ (List.mem_append_left _ ht))
  have hrR : ∀ t ∈ c.R, (t.vis = .Public → t.wireID < nbPub) ∧
      (t.vis = .Secret → t.wireID < nbSec) :=
    fun t ht => hr t (List.mem_append_left _ (List.mem_append_right _ ht))
  have hrO : ∀ t ∈ c.O, (t.vis = .Public → t.wireID < nbPub) ∧
      (t.vis = .Secret → t.wireID < nbSec) :=
    fun t ht => hr t (List.mem_append_right _ ht)
  have h3 := checkLE_inv mh c.O (checkLE_inv mh c.R (checkLE_inv mh c.L h hrL) hrR) hrO
  show CheckInv mh nbSec nbPub (ts ++ (c.L ++ c.R ++ c.O))
    (checkLE mh (checkLE mh (checkLE mh st c.L) c.R) c.O)
  rw [← List.append_assoc, ← List.append_assoc]
  exact h3

theorem initCheckState_inv (sys : CSys) (hpub : 0 < sys.publicNames.length) :
    CheckInv sys.mHints sys.secretNames.length sys.publicNames.length []
      (initCheckState sys) := by
  refine ⟨by simp [initCheckState], by simp [initCheckState], ?_, ?_, ?_, ?_,
    by simp [initCheckState], ?_, by simp [initCheckState]⟩
  · intro i hi
    show (List.replicate sys.secretNames.length false).getD i false = true ↔ _
    rw [List.getD_eq_getElem?_getD, List.getElem?_getD_replicate_default_eq]
    simp [SeenSecretT]
  · intro i hi
    show ((List.replicate sys.publicNames.length false).set 0 true).getD i false
        = true ↔ _
    by_cases h0 : i = 0
    · subst h0
      rw [getD_set_self (by simpa using hpub)]
      simp
    · rw [getD_set_ne h0]
      rw [List.getD_eq_getElem?_getD, List.getElem?_getD_replicate_default_eq]
      simp [SeenPublicT, h0]
  · show sys.secretNames.length
      = (List.replicate sys.secretNames.length false).count false
    rw [List.count_replicate_self]
  · show sys.publicNames.length - 1
      = ((List.replicate sys.publicNames.length false).set 0 true).count false
    have := @count_false_set
      (List.replicate sys.publicNames.length false) 0
      (by simpa using hpub)
      (by rw [List.getD_eq_getElem?_getD, List.getElem?_getD_replicate_default_eq])
    rw [List.count_replicate_self] at this
    omega
  · intro w
    show w ∈ ([] : List Nat) ↔ _
    simp [SeenInternalT]

/-- The counters are all zero exactly when everything tracked has been
seen. -/
theorem checkInv_zero {mh : List (Nat × Hint)} {nbSec nbPub : Nat}
    {ts : LinExp} {st : CheckState} (hnd : (mh.map Prod.fst).Nodup)
    (hinv : CheckInv mh nbSec nbPub ts st) :
    (st.cptHints = 0 ∧ st.cptSecret = 0 ∧ st.cptPublic = 0)
      ↔ AllSeenT mh nbSec nbPub ts := by
  obtain ⟨hlen1, hlen2, hsec, hpub, hcnt1, hcnt2, hnd2, hmark, hcnt3⟩ := hinv
  constructor
  · rintro ⟨hH, hS, hP⟩
    refine ⟨?_, ?_, ?_⟩
    · intro i hi
      rw [hcnt1] at hS
      have hall : ∀ x ∈ st.secretConstrained, x = true := by
        intro x hx
        cases hxv : x
        · exact absurd (hxv ▸ hx) (List.count_eq_zero.mp hS)
        · rfl
      exact (hsec i hi).mp (all_true_iff_getD.mp hall i (by rw [hlen1]; exact hi))
    · intro i hi h0
      rw [hcnt2] at hP
      have hall : ∀ x ∈ st.publicConstrained, x = true := by
        intro x hx
        cases hxv : x
        · exact absurd (hxv ▸ hx) (List.count_eq_zero.mp hP)
        · rfl
      rcases (hpub i hi).mp (all_true_iff_getD.mp hall i (by rw [hlen2]; exact hi))
        with h | h
      · exact absurd h h0
      · exact h
    · intro e he
      have hkeylen : st.mHintsConstrained.length = mh.length := by omega
      have hsub : st.mHintsConstrained ⊆ mh.map Prod.fst :=
        fun x hx => key_of_mlookup_isSome ((hmark x).mp hx).1
      have hft : st.mHintsConstrained.toFinset = (mh.map Prod.fst).toFinset := by
        apply Finset.eq_of_subset_of_card_le
        · exact fun x hx => List.mem_toFinset.mpr (hsub (List.mem_toFinset.mp hx))
        · rw [List.toFinset_card_of_nodup hnd2, hkeylen]
          calc (mh.map Prod.fst).toFinset.card
              ≤ (mh.map Prod.fst).length := List.toFinset_card_le _
            _ = mh.length := List.length_map _ _
      have hmem : e.1 ∈ st.mHintsConstrained := by
        rw [← List.mem_toFinset, hft, List.mem_toFinset]
        exact List.mem_map_of_mem Prod.fst he
      exact ((hmark e.1).mp hmem).2
  · rintro ⟨h1, h2, h3⟩
    refine ⟨?_, ?_, ?_⟩
    · have hsub2 : mh.map Prod.fst ⊆ st.mHintsConstrained := by
        intro x hx
        obtain ⟨e, he, rfl⟩ := List.mem_map.mp hx
        refine (hmark e.1).mpr ⟨?_, h3 e he⟩
        rw [mlookup_of_mem_nodup hnd he]
        rfl
      have hle2 := nodup_subset_length hnd hsub2
      rw [List.length_map] at hle2
      omega
    · rw [hcnt1, List.count_eq_zero]
      intro hmem
      obtain ⟨i, hi, hget⟩ := List.mem_iff_getElem.mp hmem
      have hgd : st.secretConstrained.getD i false = false := by
        rw [List.getD_eq_getElem?_getD, List.getElem?_eq_getElem hi, hget]
        rfl
      have htrue := (hsec i (by rw [← hlen1]; exact hi)).mpr
        (h1 i (by rw [← hlen1]; exact hi))
      rw [hgd] at htrue
      simp at htrue
    · rw [hcnt2, List.count_eq_zero]
      intro hmem
      obtain ⟨i, hi, hget⟩ := List.mem_iff_getElem.mp hmem
      have hgd : st.publicConstrained.getD i false = false := by
        rw [List.getD_eq_getElem?_getD, List.getElem?_eq_getElem hi, hget]
        rfl
      by_cases h0 : i = 0
      · have := (hpub i (by rw [← hlen2]; exact hi)).mpr (Or.inl h0)
        rw [hgd] at this
        simp at this
      · have := (hpub i (by rw [← hlen2]; exact hi)).mpr
          (Or.inr (h2 i (by rw [← hlen2]; exact hi) h0))
        rw [hgd] at this
        simp at this

theorem termsOf_nil : termsOf [] = [] := rfl

theorem termsOf_cons (c : R1C) (cs : List R1C) :
    termsOf (c :: cs) = r1cTerms c ++ termsOf cs := by
  simp [termsOf]

theorem termsOf_append (cs1 cs2 : List R1C) :
    termsOf (cs1 ++ cs2) = termsOf cs1 ++ termsOf cs2 := by
  simp [termsOf]

theorem checkLoop_cons (mh : List (Nat × Hint)) (sns pns : List String)
    (st : CheckState) (c : R1C) (rest : List R1C) :
    checkLoop mh sns pns st (c :: rest)
      = if (checkR1C mh st c).cptHints = 0 ∧ (checkR1C mh st c).cptSecret = 0
            ∧ (checkR1C mh st c).cptPublic = 0 then none
        else checkLoop mh sns pns (checkR1C mh st c) rest := rfl

/-- When everything is constrained and there is at least one constraint,
the scan exits early with no error. -/
theorem checkLoop_none (mh : List (Nat × Hint)) (sns pns : List String)
    (hnd : (mh.map Prod.fst).Nodup) :
    ∀ (rest : List R1C) (ts : LinExp) (st : CheckState), rest ≠ [] →
      CheckInv mh sns.length pns.length ts st →
      TermsInRange pns.length sns.length rest →
      AllSeenT mh sns.length pns.length (ts ++ termsOf rest) →
      checkLoop mh sns pns st rest = none := by
  intro rest
  induction rest with
  | nil => intro ts st hne; exact absurd rfl hne
  | cons c rest' ih =>
    intro ts st _ hinv hrange hall
    have hinv1 := checkR1C_inv mh c hinv
      (fun t ht => hrange c (List.mem_cons_self _ _) t ht)
    rw [checkLoop_cons]
    by_cases hrest : rest' = []
    · subst hrest
      have hall1 : AllSeenT mh sns.length pns.length (ts ++ r1cTerms c) := by
        rwa [termsOf_cons, termsOf_nil, List.append_nil] at hall
      rw [if_pos ((checkInv_zero hnd hinv1).mpr hall1)]
    · by_cases hz : (checkR1C mh st c).cptHints = 0
          ∧ (checkR1C mh st c).cptSecret = 0 ∧ (checkR1C mh st c).cptPublic = 0
      · rw [if_pos hz]
      · rw [if_neg hz]
        refine ih (ts ++ r1cTerms c) _ hrest hinv1
          (fun c' hc' => hrange c' (List.mem_cons_of_mem _ hc')) ?_
        rw [termsOf_cons] at hall
        rwa [← List.append_assoc] at hall

/-- A returned error message is the error string built from a final state
that satisfies the invariant over all scanned terms. -/
theorem checkLoop_some_inv (mh : List (Nat × Hint)) (sns pns : List String) :
    ∀ (rest : List R1C) (ts : LinExp) (st : CheckState) (msg : String),
      CheckInv mh sns.length pns.length ts st →
      TermsInRange pns.length sns.length rest →
      checkLoop mh sns pns st rest = some msg →
      ∃ st1, CheckInv mh sns.length pns.length (ts ++ termsOf rest) st1 ∧
        msg = buildCheckError sns pns st1 := by
  intro rest
  induction rest with
  | nil =>
    intro ts st msg hinv _ hsome
    refine ⟨st, by rwa [termsOf_nil, List.append_nil], ?_⟩
    exact (Option.some.inj hsome).symm
  | cons c rest' ih =>
    intro ts st msg hinv hrange hsome
    rw [checkLoop_cons] at hsome
    by_cases hz : (checkR1C mh st c).cptHints = 0
        ∧ (checkR1C mh st c).cptSecret = 0 ∧ (checkR1C mh st c).cptPublic = 0
    · rw [if_pos hz] at hsome
      exact absurd hsome (by simp)
    · rw [if_neg hz] at hsome
      have hinv1 := checkR1C_inv mh c hinv
        (fun t ht => hrange c (List.mem_cons_self _ _) t ht)
      obtain ⟨st1, hst1, hmsg⟩ := ih (ts ++ r1cTerms c) _ msg hinv1
        (fun c' hc' => hrange c' (List.mem_cons_of_mem _ hc')) hsome
      refine ⟨st1, ?_, hmsg⟩
      rwa [termsOf_cons, ← List.append_assoc]

/-- When something is unconstrained (or there is no constraint at all) the
scan returns an error. -/
theorem checkLoop_some (mh : List (Nat × Hint)) (sns pns : List String)
    (hnd : (mh.map Prod.fst).Nodup) :
    ∀ (rest : List R1C) (ts : LinExp) (st : CheckState),
      CheckInv mh sns.length pns.length ts st →
      (rest = [] ∨ ¬ AllSeenT mh sns.length pns.length (ts ++ termsOf rest)) →
      TermsInRange pns.length sns.length rest →
      ∃ msg, checkLoop mh sns pns st rest = some msg := by
  intro rest
  induction rest with
  | nil => intro ts st _ _ _; exact ⟨_, rfl⟩
  | cons c rest' ih =>
    intro ts st hinv hcase hrange
    rcases hcase with hcase | hcase
    · simp at hcase
    · have hinv1 := checkR1C_inv mh c hinv
        (fun t ht => hrange c (List.mem_cons_self _ _) t ht)
      rw [checkLoop_cons]
      by_cases hz : (checkR1C mh st c).cptHints = 0
          ∧ (checkR1C mh st c).cptSecret = 0 ∧ (checkR1C mh st c).cptPublic = 0
      · exfalso
        have hall1 := (checkInv_zero hnd hinv1).mp hz
        apply hcase
        rw [termsOf_cons, ← List.append_assoc]
        exact allSeenT_mono hall1
      · rw [if_neg hz]
        refine ih (ts ++ r1cTerms c) _ hinv1 (Or.inr ?_)
          (fun c' hc' => hrange c' (List.mem_cons_of_mem _ hc'))
        rw [termsOf_cons, ← List.append_assoc] at hcase
        exact hcase

theorem isInfix_append_left (l : List Char) {x m : List Char} (h : x <:+: m) :
    x <:+: l ++ m :=
  h.trans (List.suffix_append l m).isInfix

theorem isInfix_append_right {x m : List Char} (r : List Char) (h : x <:+: m) :
    x <:+: m ++ r :=
  h.trans (List.prefix_append m r).isInfix

theorem count_false_zero_filterMap {flags : List Bool} {names : List String}
    (h : flags.count false = 0) :
    (flags.zip names).filterMap
      (fun p => if p.1 then none else some p.2) = [] := by
  rw [List.filterMap_eq_nil_iff]
  intro p hp
  obtain ⟨a, b⟩ := p
  have hmem : a ∈ flags := (List.of_mem_zip hp).1
  have ha : a = true := by
    cases hav : a
    · exact absurd (hav ▸ hmem) (List.count_eq_zero.mp h)
    · rfl
  simp [ha]

/-- The name loop, run with the counter at its invariant value (the number
of false flags), emits exactly the names at false-flag positions. -/
theorem emitNames_count : ∀ (flags : List Bool) (names : List String),
    flags.length = names.length →
    emitNames flags names (flags.count false)
      = (flags.zip names).filterMap (fun p => if p.1 then none else some p.2) := by
  intro flags
  induction flags with
  | nil => intro names _; rfl
  | cons b bs ih =>
    intro names hlen
    cases names with
    | nil => simp at hlen
    | cons n ns =>
      have hlen2 : bs.length = ns.length := by simpa using hlen
      cases hb : b
      · have hcount : (false :: bs).count false = bs.count false + 1 := by
          simp [List.count_cons]
        rw [hcount]
        rw [show emitNames (false :: bs) (n :: ns) (bs.count false + 1)
            = n :: emitNames bs ns (bs.count false) from rfl]
        rw [ih ns hlen2, List.zip_cons_cons, List.filterMap_cons]
        simp
      · have hcount : (true :: bs).count false = bs.count false := by
          simp [List.count_cons]
        rw [hcount]
        cases hc : bs.count false with
        | zero =>
          rw [show emitNames (true :: bs) (n :: ns) 0 = [] from rfl]
          rw [List.zip_cons_cons, List.filterMap_cons]
          have := @count_false_zero_filterMap bs ns hc
          simp [this]
        | succ k =>
          rw [show emitNames (true :: bs) (n :: ns) (k + 1)
              = emitNames bs ns (k + 1) from rfl]
          rw [← hc, ih ns hlen2, List.zip_cons_cons, List.filterMap_cons]
          simp

theorem mem_emitNames {flags : List Bool} {names : List String} {i : Nat}
    (hlen : flags.length = names.length) (hi : i < flags.length)
    (hflag : flags.getD i false = false) :
    names.getD i "" ∈ emitNames flags names (flags.count false) := by
  rw [emitNames_count flags names hlen]
  rw [List.mem_filterMap]
  have hi2 : i < names.length := hlen ▸ hi
  have hiz : i < (flags.zip names).length := by
    rw [List.length_zip]
    omega
  refine ⟨(flags.zip names)[i], List.getElem_mem _, ?_⟩
  rw [List.getElem_zip]
  have h1 : flags[i] = false := by
    rw [List.getD_eq_getElem?_getD, List.getElem?_eq_getElem hi] at hflag
    simpa using hflag
  have h2 : names.getD i "" = names[i] := by
    rw [List.getD_eq_getElem?_getD, List.getElem?_eq_getElem hi2]
    rfl
  rw [h2]
  simp [h1]

theorem infix_namesBlock {name : String} :
    ∀ {l : List String}, name ∈ l → name.data <:+: (namesBlock l).data := by
  intro l
  induction l with
  | nil => intro h; simp at h
  | cons n ns ih =>
    intro h
    rcases List.mem_cons.mp h with rfl | h
    · show name.data <:+: ((name ++ "\n") ++ namesBlock ns).data
      rw [String.data_append, String.data_append]
      exact ((List.prefix_append name.data _).trans
        (List.prefix_append _ _)).isInfix
    · have hx := ih h
      show name.data <:+: ((n ++ "\n") ++ namesBlock ns).data
      rw [String.data_append]
      exact hx.trans (List.suffix_append _ _).isInfix

/-- An unseen secret input's name appears in the built error message. -/
theorem buildCheckError_secret_name (sns pns : List String) (st : CheckState)
    (hlen : st.secretConstrained.length = sns.length)
    (hS : st.cptSecret = st.secretConstrained.count false) {i : Nat}
    (hi : i < st.secretConstrained.length)
    (hflag : st.secretConstrained.getD i false = false) :
    (sns.getD i "").data <:+: (buildCheckError sns pns st).data := by
  have hfi : st.secretConstrained[i] = false := by
    rw [List.getD_eq_getElem?_getD, List.getElem?_eq_getElem hi] at hflag
    simpa using hflag
  have hcpt : st.cptSecret ≠ 0 := by
    rw [hS]
    intro hzero
    exact absurd (hfi ▸ List.getElem_mem hi) (List.count_eq_zero.mp hzero)
  have hmem2 : sns.getD i "" ∈ emitNames st.secretConstrained sns st.cptSecret := by
    rw [hS]
    exact mem_emitNames hlen hi hflag
  have hinf := infix_namesBlock hmem2
  unfold buildCheckError
  rw [if_pos hcpt]
  simp only [String.data_append, List.append_assoc]
  exact isInfix_append_left _ (isInfix_append_left _ (isInfix_append_left _
    (isInfix_append_right _ hinf)))

/-- An unseen public input's name appears in the built error message. -/
theorem buildCheckError_public_name (sns pns : List String) (st : CheckState)
    (hlen : st.publicConstrained.length = pns.length)
    (hP : st.cptPublic = st.publicConstrained.count false) {i : Nat}
    (hi : i < st.publicConstrained.length)
    (hflag : st.publicConstrained.getD i false = false) :
    (pns.getD i "").data <:+: (buildCheckError sns pns st).data := by
  have hfi : st.publicConstrained[i] = false := by
    rw [List.getD_eq_getElem?_getD, List.getElem?_eq_getElem hi] at hflag
    simpa using hflag
  have hcpt : st.cptPublic ≠ 0 := by
    rw [hP]
    intro hzero
    exact absurd (hfi ▸ List.getElem_mem hi) (List.count_eq_zero.mp hzero)
  have hmem2 : pns.getD i "" ∈ emitNames st.publicConstrained pns st.cptPublic := by
    rw [hP]
    exact mem_emitNames hlen hi hflag
  have hinf := infix_namesBlock hmem2
  unfold buildCheckError
  rw [if_pos hcpt]
  simp only [String.data_append, List.append_assoc]
  apply isInfix_append_left
  exact isInfix_append_left _ (isInfix_append_left _ (isInfix_append_left _
    (isInfix_append_right _ hinf)))

/-- The count of unconstrained hints appears in the built error message. -/
theorem buildCheckError_hint_count (sns pns : List String) (st : CheckState)
    (hcpt : st.cptHints ≠ 0) :
    (toString st.cptHints ++ " unconstrained hints").data
      <:+: (buildCheckError sns pns st).data := by
  unfold buildCheckError
  rw [if_pos hcpt]
  simp only [String.data_append, List.append_assoc]
  apply isInfix_append_left
  apply isInfix_append_left
  exact ⟨[], "\n".data, by simp⟩

/-- The final hint counter equals the number of hint-map entries whose key
wire was never seen. -/
theorem checkInv_cptHints_eq {mh : List (Nat × Hint)} {nbSec nbPub : Nat}
    {ts : LinExp} {st : CheckState} (hnd : (mh.map Prod.fst).Nodup)
    (hinv : CheckInv mh nbSec nbPub ts st) :
    st.cptHints
      = (mh.filter (fun e => ! decide (SeenInternalT ts e.1))).length := by
  obtain ⟨_, _, _, _, _, _, hnd2, hmark, hcnt3⟩ := hinv
  have hmem : ∀ w, w ∈ st.mHintsConstrained ↔
      w ∈ (mh.map Prod.fst).filter (fun w => decide (SeenInternalT ts w)) := by
    intro w
    rw [List.mem_filter, hmark w]
    constructor
    · rintro ⟨h1, h2⟩
      exact ⟨key_of_mlookup_isSome h1, by simpa using h2⟩
    · rintro ⟨h1, h2⟩
      obtain ⟨e, he, rfl⟩ := List.mem_map.mp h1
      refine ⟨?_, by simpa using h2⟩
      rw [mlookup_of_mem_nodup hnd he]
      rfl
  have hlenq : st.mHintsConstrained.length
      = ((mh.map Prod.fst).filter
          (fun w => decide (SeenInternalT ts w))).length := by
    rw [← List.toFinset_card_of_nodup hnd2,
      ← List.toFinset_card_of_nodup (hnd.filter _)]
    congr 1
    ext x
    simp only [List.mem_toFinset]
    exact hmem x
  have hsplit : (mh.filter (fun e => decide (SeenInternalT ts e.1))).length
      + (mh.filter (fun e => ! decide (SeenInternalT ts e.1))).length
      = mh.length := by
    have hperm :=
      (List.filter_append_perm (fun e => decide (SeenInternalT ts e.1)) mh).length_eq
    rw [List.length_append] at hperm
    exact hperm
  have hmapfil : ((mh.map Prod.fst).filter
        (fun w => decide (SeenInternalT ts w))).length
      = (mh.filter (fun e => decide (SeenInternalT ts e.1))).length := by
    rw [List.filter_map, List.length_map]
    rfl
  omega

instance (p s : Nat) (cs : List R1C) : Decidable (TermsInRange p s cs) := by
  unfold TermsInRange
  infer_instance

theorem compile_false_eq (sys : CSys) (order : List (Nat × Hint)) (fuel : Nat) :
    Compile false sys order fuel
      = match checkVariables sys with
        | some err => .error err
        | none => .ok (finalize sys order fuel) := rfl

/-- The scan returns no error exactly when there is at least one constraint
and everything tracked is constrained. -/
theorem checkVariables_none_iff (sys : CSys)
    (hpub : 0 < sys.publicNames.length)
    (hnd : (sys.mHints.map Prod.fst).Nodup)
    (hrange : TermsInRange sys.publicNames.length sys.secretNames.length
      sys.constraints) :
    checkVariables sys = none ↔ (sys.constraints ≠ [] ∧ AllConstrained sys) := by
  constructor
  · intro hnone
    by_cases hempty : sys.constraints = []
    · exfalso
      rw [checkVariables, hempty] at hnone
      exact Option.noConfusion hnone
    · refine ⟨hempty, ?_⟩
      by_contra hall
      obtain ⟨msg, hmsg⟩ := checkLoop_some sys.mHints sys.secretNames
        sys.publicNames hnd sys.constraints [] (initCheckState sys)
        (initCheckState_inv sys hpub)
        (Or.inr (by rw [List.nil_append]; exact hall)) hrange
      rw [checkVariables, hmsg] at hnone
      exact Option.noConfusion hnone
  · rintro ⟨hne, hall⟩
    rw [checkVariables]
    exact checkLoop_none sys.mHints sys.secretNames sys.publicNames hnd
      sys.constraints [] (initCheckState sys) hne (initCheckState_inv sys hpub)
      hrange (by rw [List.nil_append]; exact hall)

/-! ### Level-builder proofs -/

theorem nlookup_cons (x : Nat × Nat) (m : List (Nat × Nat)) (w : Nat) :
    nlookup (x :: m) w = if x.1 = w then some x.2 else nlookup m w := by
  by_cases h : x.1 = w
  · simp [nlookup, List.find?_cons_of_pos, h]
  · rw [if_neg h]
    unfold nlookup
    rw [List.find?_cons_of_neg _ (by simpa using h)]

theorem nlookup_insertAll (ws : List Nat) (c : Nat) (m : List (Nat × Nat))
    (w : Nat) :
    nlookup (ws.foldl (fun acc x => (x, c) :: acc) m) w
      = if w ∈ ws then some c else nlookup m w := by
  induction ws generalizing m with
  | nil => simp
  | cons x rest ih =>
    rw [List.foldl_cons, ih ((x, c) :: m), nlookup_cons]
    by_cases hr : w ∈ rest
    · simp [hr]
    · by_cases hx : x = w
      · simp [hr, hx]
      · have hm : w ∉ x :: rest := by
          rw [List.mem_cons]
          push_neg
          exact ⟨fun h => hx h.symm, hr⟩
        rw [if_neg hr, if_neg hx, if_neg hm]

/-- Well-formedness of the hint lookup function: every output wire of a
bound record is itself bound to that record (`NewHint` registers the shared
record under every output wire, and the `HINTLOOP` rebuilds `shiftedMap`
the same way). -/
def HintFnWf (mh : Nat → Option Hint) : Prop :=
  ∀ w h, mh w = some h → w ∈ h.wires ∧ ∀ w2 ∈ h.wires, mh w2 = some h

/-- Invariant of `mWireToNode`: the output wires of a hint enter the map
together, so a mapped hint wire has all of its sibling output wires
mapped. -/
def WireMapInv (mh : Nat → Option Hint) (wm : List (Nat × Nat)) : Prop :=
  ∀ w h, (nlookup wm w).isSome → mh w = some h →
    ∀ w2 ∈ h.wires, (nlookup wm w2).isSome

/-- Every node recorded in the wire map is below `k`. -/
def MapValsLt (wm : List (Nat × Nat)) (k : Nat) : Prop :=
  ∀ w n, nlookup wm w = some n → n < k

theorem processLE_nil (mh : Nat → Option Hint) (nbInputs : Nat) (nls : List Nat)
    (fuel : Nat) (st : LBState) (cID : Nat) :
    processLE mh nbInputs nls fuel st [] cID = st := by
  rw [processLE]

theorem processLE_cons_input (mh : Nat → Option Hint) (nbInputs : Nat)
    (nls : List Nat) (fuel : Nat) (st : LBState) (cID : Nat) {t : Term}
    (rest : LinExp) (h : t.wireID < nbInputs) :
    processLE mh nbInputs nls fuel st (t :: rest) cID
      = processLE mh nbInputs nls fuel st rest cID := by
  rw [processLE]
  rw [if_pos h]

theorem processLE_cons_dep (mh : Nat → Option Hint) (nbInputs : Nat)
    (nls : List Nat) (fuel : Nat) (st : LBState) (cID : Nat) {t : Term}
    (rest : LinExp) {n : Nat} (h1 : ¬ t.wireID < nbInputs)
    (h2 : nlookup st.wireMap t.wireID = some n) :
    processLE mh nbInputs nls fuel st (t :: rest) cID
      = processLE mh nbInputs nls fuel
          (if n ≠ cID ∧ st.nodeLevel ≤ nls.getD n 0 then
            { st with nodeLevel := nls.getD n 0 + 1 }
          else st) rest cID := by
  rw [processLE]
  rw [if_neg h1, h2]

theorem processLE_cons_hint_zero (mh : Nat → Option Hint) (nbInputs : Nat)
    (nls : List Nat) (st : LBState) (cID : Nat) {t : Term}
    (rest : LinExp) {h : Hint} (h1 : ¬ t.wireID < nbInputs)
    (h2 : nlookup st.wireMap t.wireID = none) (h3 : mh t.wireID = some h) :
    processLE mh nbInputs nls 0 st (t :: rest) cID
      = processLE mh nbInputs nls 0
          { st with wireMap := (h.wires.foldl (fun m w => (w, cID) :: m)
              st.wireMap) } rest cID := by
  rw [processLE]
  rw [if_neg h1, h2, h3]

theorem processLE_cons_hint_succ (mh : Nat → Option Hint) (nbInputs : Nat)
    (nls : List Nat) (f : Nat) (st : LBState) (cID : Nat) {t : Term}
    (rest : LinExp) {h : Hint} (h1 : ¬ t.wireID < nbInputs)
    (h2 : nlookup st.wireMap t.wireID = none) (h3 : mh t.wireID = some h) :
    processLE mh nbInputs nls (f + 1) st (t :: rest) cID
      = processLE mh nbInputs nls (f + 1)
          { processHintInputs mh nbInputs nls f st h.inputs cID with
            wireMap := (h.wires.foldl (fun m w => (w, cID) :: m)
              (processHintInputs mh nbInputs nls f st h.inputs cID).wireMap) }
          rest cID := by
  rw [processLE]
  rw [if_neg h1, h2, h3]

theorem processLE_cons_fresh (mh : Nat → Option Hint) (nbInputs : Nat)
    (nls : List Nat) (fuel : Nat) (st : LBState) (cID : Nat) {t : Term}
    (rest : LinExp) (h1 : ¬ t.wireID < nbInputs)
    (h2 : nlookup st.wireMap t.wireID = none) (h3 : mh t.wireID = none) :
    processLE mh nbInputs nls fuel st (t :: rest) cID
      = processLE mh nbInputs nls fuel
          { st with wireMap := (t.wireID, cID) :: st.wireMap } rest cID := by
  rw [processLE]
  rw [if_neg h1, h2, h3]

theorem processHintInputs_nil (mh : Nat → Option Hint) (nbInputs : Nat)
    (nls : List Nat) (fuel : Nat) (st : LBState) (cID : Nat) :
    processHintInputs mh nbInputs nls fuel st [] cID = st := by
  rw [processHintInputs]

theorem processHintInputs_cons_hvar (mh : Nat → Option Hint) (nbInputs : Nat)
    (nls : List Nat) (fuel : Nat) (st : LBState) (cID : Nat) (le : LinExp)
    (rest : List HintInput) :
    processHintInputs mh nbInputs nls fuel st (.hvar le :: rest) cID
      = processHintInputs mh nbInputs nls fuel
          (processLE mh nbInputs nls fuel st le cID) rest cID := by
  rw [processHintInputs]

theorem processHintInputs_cons_hle (mh : Nat → Option Hint) (nbInputs : Nat)
    (nls : List Nat) (fuel : Nat) (st : LBState) (cID : Nat) (le : LinExp)
    (rest : List HintInput) :
    processHintInputs mh nbInputs nls fuel st (.hle le :: rest) cID
      = processHintInputs mh nbInputs nls fuel
          (processLE mh nbInputs nls fuel st le cID) rest cID := by
  rw [processHintInputs]

theorem processHintInputs_cons_hterm (mh : Nat → Option Hint) (nbInputs : Nat)
    (nls : List Nat) (fuel : Nat) (st : LBState) (cID : Nat) (t : Term)
    (rest : List HintInput) :
    processHintInputs mh nbInputs nls fuel st (.hterm t :: rest) cID
      = processHintInputs mh nbInputs nls fuel
          (processLE mh nbInputs nls fuel st [t] cID) rest cID := by
  rw [processHintInputs]

theorem processHintInputs_cons_hconst (mh : Nat → Option Hint) (nbInputs : Nat)
    (nls : List Nat) (fuel : Nat) (st : LBState) (cID : Nat) (n : Nat)
    (rest : List HintInput) :
    processHintInputs mh nbInputs nls fuel st (.hconst n :: rest) cID
      = processHintInputs mh nbInputs nls fuel st rest cID := by
  rw [processHintInputs]

/-- The candidate level only grows while scanning. -/
theorem level_mono (mh : Nat → Option Hint) (nbInputs : Nat) :
    ∀ fuel : Nat,
      (∀ (nls : List Nat) (st : LBState) (l : LinExp) (cID : Nat),
        st.nodeLevel ≤ (processLE mh nbInputs nls fuel st l cID).nodeLevel) ∧
      (∀ (nls : List Nat) (st : LBState) (ins : List HintInput) (cID : Nat),
        st.nodeLevel
          ≤ (processHintInputs mh nbInputs nls fuel st ins cID).nodeLevel) := by
  intro fuel
  induction fuel with
  | zero =>
    have hLE : ∀ (nls : List Nat) (l : LinExp) (st : LBState) (cID : Nat),
        st.nodeLevel ≤ (processLE mh nbInputs nls 0 st l cID).nodeLevel := by
      intro nls l
      induction l with
      | nil =>
        intro st cID
        rw [processLE_nil]
      | cons t rest ih =>
        intro st cID
        by_cases hin : t.wireID < nbInputs
        · rw [processLE_cons_input _ _ _ _ _ _ rest hin]
          exact ih st cID
        · cases hl : nlookup st.wireMap t.wireID with
          | some n =>
            rw [processLE_cons_dep _ _ _ _ _ _ rest hin hl]
            by_cases hc : n ≠ cID ∧ st.nodeLevel ≤ nls.getD n 0
            · rw [if_pos hc]
              refine le_trans ?_ (ih _ cID)
              show st.nodeLevel ≤ nls.getD n 0 + 1
              exact le_trans hc.2 (Nat.le_succ _)
            · rw [if_neg hc]
              exact ih st cID
          | none =>
            cases hh : mh t.wireID with
            | some h =>
              rw [processLE_cons_hint_zero _ _ _ _ _ rest hin hl hh]
              exact ih ({ st with
                wireMap := (h.wires.foldl (fun m w => (w, cID) :: m) st.wireMap) }) cID
            | none =>
              rw [processLE_cons_fresh _ _ _ _ _ _ rest hin hl hh]
              exact ih ({ st with wireMap := (t.wireID, cID) :: st.wireMap }) cID
    refine ⟨fun nls st l cID => hLE nls l st cID, ?_⟩
    intro nls st ins cID
    induction ins generalizing st with
    | nil => rw [processHintInputs_nil]
    | cons i rest ih =>
      cases i with
      | hvar le =>
        rw [processHintInputs_cons_hvar]
        exact le_trans (hLE nls le st cID) (ih _)
      | hle le =>
        rw [processHintInputs_cons_hle]
        exact le_trans (hLE nls le st cID) (ih _)
      | hterm t =>
        rw [processHintInputs_cons_hterm]
        exact le_trans (hLE nls [t] st cID) (ih _)
      | hconst n =>
        rw [processHintInputs_cons_hconst]
        exact ih st
  | succ f ihf =>
    have hLE : ∀ (nls : List Nat) (l : LinExp) (st : LBState) (cID : Nat),
        st.nodeLevel ≤ (processLE mh nbInputs nls (f + 1) st l cID).nodeLevel := by
      intro nls l
      induction l with
      | nil =>
        intro st cID
        rw [processLE_nil]
      | cons t rest ih =>
        intro st cID
        by_cases hin : t.wireID < nbInputs
        · rw [processLE_cons_input _ _ _ _ _ _ rest hin]
          exact ih st cID
        · cases hl : nlookup st.wireMap t.wireID with
          | some n =>
            rw [processLE_cons_dep _ _ _ _ _ _ rest hin hl]
            by_cases hc : n ≠ cID ∧ st.nodeLevel ≤ nls.getD n 0
            · rw [if_pos hc]
              refine le_trans ?_ (ih _ cID)
              show st.nodeLevel ≤ nls.getD n 0 + 1
              exact le_trans hc.2 (Nat.le_succ _)
            · rw [if_neg hc]
              exact ih st cID
          | none =>
            cases hh : mh t.wireID with
            | some h =>
              rw [processLE_cons_hint_succ _ _ _ _ _ _ rest hin hl hh]
              refine le_trans ?_ (ih _ cID)
              show st.nodeLevel
                ≤ (processHintInputs mh nbInputs nls f st h.inputs cID).nodeLevel
              exact ihf.2 nls st h.inputs cID
            | none =>
              rw [processLE_cons_fresh _ _ _ _ _ _ rest hin hl hh]
              exact ih ({ st with wireMap := (t.wireID, cID) :: st.wireMap }) cID
    refine ⟨fun nls st l cID => hLE nls l st cID, ?_⟩
    intro nls st ins cID
    induction ins generalizing st with
    | nil => rw [processHintInputs_nil]
    | cons i rest ih =>
      cases i with
      | hvar le =>
        rw [processHintInputs_cons_hvar]
        exact le_trans (hLE nls le st cID) (ih _)
      | hle le =>
        rw [processHintInputs_cons_hle]
        exact le_trans (hLE nls le st cID) (ih _)
      | hterm t =>
        rw [processHintInputs_cons_hterm]
        exact le_trans (hLE nls [t] st cID) (ih _)
      | hconst n =>
        rw [processHintInputs_cons_hconst]
        exact ih st

/-- Inserting wires that are unbound or already bound to `c` preserves every
existing binding of the wire map. -/
theorem insertAll_preserve (ws : List Nat) (c : Nat) (m : List (Nat × Nat))
    (hws : ∀ w2 ∈ ws, nlookup m w2 = none ∨ nlookup m w2 = some c) :
    ∀ w n, nlookup m w = some n →
      nlookup (ws.foldl (fun acc x => (x, c) :: acc) m) w = some n := by
  intro w n hm
  rw [nlookup_insertAll]
  by_cases hw : w ∈ ws
  · rw [if_pos hw]
    rcases hws w hw with h | h
    · rw [hm] at h
      exact absurd h (by simp)
    · rw [hm] at h
      rw [Option.some.inj h]
  · rw [if_neg hw]
    exact hm

/-- Inserting all output wires of a registered hint keeps the wire-map
sibling invariant. -/
theorem insertAll_inv (mh : Nat → Option Hint) (hwf : HintFnWf mh)
    {h : Hint} (c : Nat) (m : List (Nat × Nat)) (hinv : WireMapInv mh m)
    (w0 : Nat) (hw0 : mh w0 = some h) :
    WireMapInv mh (h.wires.foldl (fun acc x => (x, c) :: acc) m) := by
  intro w h' hsome hmw w3 hw3
  rw [nlookup_insertAll] at hsome
  rw [nlookup_insertAll]
  by_cases hw : w ∈ h.wires
  · have hmh : mh w = some h := (hwf w0 h hw0).2 w hw
    have he : h' = h := by
      rw [hmh] at hmw
      exact (Option.some.inj hmw).symm
    have hw3' : w3 ∈ h.wires := he ▸ hw3
    rw [if_pos hw3']
    rfl
  · rw [if_neg hw] at hsome
    have h3 := hinv w h' hsome hmw w3 hw3
    by_cases hw3h : w3 ∈ h.wires
    · rw [if_pos hw3h]
      rfl
    · rw [if_neg hw3h]
      exact h3

/-- During a scan, existing wire-map bindings are never changed, every new
binding carries the current constraint ID, and the sibling invariant is
preserved. -/
theorem map_preserve (mh : Nat → Option Hint) (nbInputs : Nat)
    (hwf : HintFnWf mh) :
    ∀ fuel : Nat,
      (∀ (nls : List Nat) (st : LBState) (l : LinExp) (cID : Nat),
        WireMapInv mh st.wireMap →
          WireMapInv mh (processLE mh nbInputs nls fuel st l cID).wireMap ∧
          (∀ w n, nlookup st.wireMap w = some n →
            nlookup (processLE mh nbInputs nls fuel st l cID).wireMap w
              = some n) ∧
          (∀ w n,
            nlookup (processLE mh nbInputs nls fuel st l cID).wireMap w
              = some n →
            nlookup st.wireMap w = some n ∨ n = cID)) ∧
      (∀ (nls : List Nat) (st : LBState) (ins : List HintInput) (cID : Nat),
        WireMapInv mh st.wireMap →
          WireMapInv mh
            (processHintInputs mh nbInputs nls fuel st ins cID).wireMap ∧
          (∀ w n, nlookup st.wireMap w = some n →
            nlookup
              (processHintInputs mh nbInputs nls fuel st ins cID).wireMap w
              = some n) ∧
          (∀ w n,
            nlookup
              (processHintInputs mh nbInputs nls fuel st ins cID).wireMap w
              = some n →
            nlookup st.wireMap w = some n ∨ n = cID)) := by
  intro fuel
  induction fuel with
  | zero =>
    have hLE : ∀ (nls : List Nat) (l : LinExp) (st : LBState) (cID : Nat),
        WireMapInv mh st.wireMap →
          WireMapInv mh (processLE mh nbInputs nls 0 st l cID).wireMap ∧
          (∀ w n, nlookup st.wireMap w = some n →
            nlookup (processLE mh nbInputs nls 0 st l cID).wireMap w
              = some n) ∧
          (∀ w n,
            nlookup (processLE mh nbInputs nls 0 st l cID).wireMap w
              = some n →
            nlookup st.wireMap w = some n ∨ n = cID) := by
      intro nls l
      induction l with
      | nil =>
        intro st cID hinv
        rw [processLE_nil]
        exact ⟨hinv, fun w n hm => hm, fun w n hm => Or.inl hm⟩
      | cons t rest ih =>
        intro st cID hinv
        by_cases hin : t.wireID < nbInputs
        · rw [processLE_cons_input _ _ _ _ _ _ rest hin]
          exact ih st cID hinv
        · cases hl : nlookup st.wireMap t.wireID with
          | some n0 =>
            rw [processLE_cons_dep _ _ _ _ _ _ rest hin hl]
            by_cases hc : n0 ≠ cID ∧ st.nodeLevel ≤ nls.getD n0 0
            · rw [if_pos hc]
              exact ih ({ st with nodeLevel := nls.getD n0 0 + 1 }) cID hinv
            · rw [if_neg hc]
              exact ih st cID hinv
          | none =>
            cases hh : mh t.wireID with
            | some h =>
              rw [processLE_cons_hint_zero _ _ _ _ _ rest hin hl hh]
              have hfresh : ∀ w2 ∈ h.wires,
                  nlookup st.wireMap w2 = none := by
                intro w2 hw2
                cases hl2 : nlookup st.wireMap w2 with
                | none => rfl
                | some k =>
                  have hs : (nlookup st.wireMap w2).isSome := by
                    rw [hl2]
                    rfl
                  have hcontra := hinv w2 h hs ((hwf t.wireID h hh).2 w2 hw2)
                    t.wireID (hwf t.wireID h hh).1
                  rw [hl] at hcontra
                  exact absurd hcontra (by simp)
              have hfresh2 : ∀ w2 ∈ h.wires,
                  nlookup st.wireMap w2 = none
                    ∨ nlookup st.wireMap w2 = some cID :=
                fun w2 hw2 => Or.inl (hfresh w2 hw2)
              have hinv2 : WireMapInv mh
                  (h.wires.foldl (fun m w => (w, cID) :: m) st.wireMap) :=
                insertAll_inv mh hwf cID st.wireMap hinv t.wireID hh
              obtain ⟨j1, j2, j3⟩ := ih ({ st with
                wireMap := (h.wires.foldl (fun m w => (w, cID) :: m)
                  st.wireMap) }) cID hinv2
              refine ⟨j1, ?_, ?_⟩
              · intro w n hm
                exact j2 w n
                  (insertAll_preserve h.wires cID st.wireMap hfresh2 w n hm)
              · intro w n hm
                rcases j3 w n hm with hm2 | hc
                · have hm2' : nlookup
                      (h.wires.foldl (fun m w => (w, cID) :: m) st.wireMap) w
                      = some n := hm2
                  rw [nlookup_insertAll] at hm2'
                  by_cases hw : w ∈ h.wires
                  · rw [if_pos hw] at hm2'
                    exact Or.inr (Option.some.inj hm2').symm
                  · rw [if_neg hw] at hm2'
                    exact Or.inl hm2'
                · exact Or.inr hc
            | none =>
              rw [processLE_cons_fresh _ _ _ _ _ _ rest hin hl hh]
              have hinv2 : WireMapInv mh ((t.wireID, cID) :: st.wireMap) := by
                intro w h' hsome hmw w3 hw3
                rw [nlookup_cons] at hsome
                rw [nlookup_cons]
                by_cases hwt : t.wireID = w
                · rw [← hwt] at hmw
                  rw [hh] at hmw
                  exact absurd hmw (by simp)
                · rw [if_neg hwt] at hsome
                  have h3 := hinv w h' hsome hmw w3 hw3
                  by_cases hwt3 : t.wireID = w3
                  · rw [if_pos hwt3]
                    rfl
                  · rw [if_neg hwt3]
                    exact h3
              obtain ⟨j1, j2, j3⟩ := ih ({ st with
                wireMap := (t.wireID, cID) :: st.wireMap }) cID hinv2
              refine ⟨j1, ?_, ?_⟩
              · intro w n hm
                refine j2 w n ?_
                show nlookup ((t.wireID, cID) :: st.wireMap) w = some n
                rw [nlookup_cons]
                by_cases hwt : t.wireID = w
                · rw [← hwt] at hm
                  rw [hl] at hm
                  exact absurd hm (by simp)
                · rw [if_neg hwt]
                  exact hm
              · intro w n hm
                rcases j3 w n hm with hm2 | hc
                · have hm2' : nlookup ((t.wireID, cID) :: st.wireMap) w
                      = some n := hm2
                  rw [nlookup_cons] at hm2'
                  by_cases hwt : t.wireID = w
                  · rw [if_pos hwt] at hm2'
                    exact Or.inr (Option.some.inj hm2').symm
                  · rw [if_neg hwt] at hm2'
                    exact Or.inl hm2'
                · exact Or.inr hc
    refine ⟨fun nls st l cID hinv => hLE nls l st cID hinv, ?_⟩
    intro nls st ins cID
    induction ins generalizing st with
    | nil =>
      intro hinv
      rw [processHintInputs_nil]
      exact ⟨hinv, fun w n hm => hm, fun w n hm => Or.inl hm⟩
    | cons i rest ih =>
      intro hinv
      cases i with
      | hvar le =>
        rw [processHintInputs_cons_hvar]
        obtain ⟨k1, k2, k3⟩ := hLE nls le st cID hinv
        obtain ⟨j1, j2, j3⟩ := ih (processLE mh nbInputs nls 0 st le cID) k1
        refine ⟨j1, fun w n hm => j2 w n (k2 w n hm), ?_⟩
        intro w n hm
        rcases j3 w n hm with hm2 | hc
        · exact k3 w n hm2
        · exact Or.inr hc
      | hle le =>
        rw [processHintInputs_cons_hle]
        obtain ⟨k1, k2, k3⟩ := hLE nls le st cID hinv
        obtain ⟨j1, j2, j3⟩ := ih (processLE mh nbInputs nls 0 st le cID) k1
        refine ⟨j1, fun w n hm => j2 w n (k2 w n hm), ?_⟩
        intro w n hm
        rcases j3 w n hm with hm2 | hc
        · exact k3 w n hm2
        · exact Or.inr hc
      | hterm t =>
        rw [processHintInputs_cons_hterm]
        obtain ⟨k1, k2, k3⟩ := hLE nls [t] st cID hinv
        obtain ⟨j1, j2, j3⟩ := ih (processLE mh nbInputs nls 0 st [t] cID) k1
        refine ⟨j1, fun w n hm => j2 w n (k2 w n hm), ?_⟩
        intro w n hm
        rcases j3 w n hm with hm2 | hc
        · exact k3 w n hm2
        · exact Or.inr hc
      | hconst n =>
        rw [processHintInputs_cons_hconst]
        exact ih st hinv
  | succ f ihf =>
    have hLE : ∀ (nls : List Nat) (l : LinExp) (st : LBState) (cID : Nat),
        WireMapInv mh st.wireMap →
          WireMapInv mh (processLE mh nbInputs nls (f + 1) st l cID).wireMap ∧
          (∀ w n, nlookup st.wireMap w = some n →
            nlookup (processLE mh nbInputs nls (f + 1) st l cID).wireMap w
              = some n) ∧
          (∀ w n,
            nlookup (processLE mh nbInputs nls (f + 1) st l cID).wireMap w
              = some n →
            nlookup st.wireMap w = some n ∨ n = cID) := by
      intro nls l
      induction l with
      | nil =>
        intro st cID hinv
        rw [processLE_nil]
        exact ⟨hinv, fun w n hm => hm, fun w n hm => Or.inl hm⟩
      | cons t rest ih =>
        intro st cID hinv
        by_cases hin : t.wireID < nbInputs
        · rw [processLE_cons_input _ _ _ _ _ _ rest hin]
          exact ih st cID hinv
        · cases hl : nlookup st.wireMap t.wireID with
          | some n0 =>
            rw [processLE_cons_dep _ _ _ _ _ _ rest hin hl]
            by_cases hc : n0 ≠ cID ∧ st.nodeLevel ≤ nls.getD n0 0
            · rw [if_pos hc]
              exact ih ({ st with nodeLevel := nls.getD n0 0 + 1 }) cID hinv
            · rw [if_neg hc]
              exact ih st cID hinv
          | none =>
            cases hh : mh t.wireID with
            | some h =>
              rw [processLE_cons_hint_succ _ _ _ _ _ _ rest hin hl hh]
              obtain ⟨i1, i2, i3⟩ := ihf.2 nls st h.inputs cID hinv
              have hfresh : ∀ w2 ∈ h.wires,
                  nlookup st.wireMap w2 = none := by
                intro w2 hw2
                cases hl2 : nlookup st.wireMap w2 with
                | none => rfl
                | some k =>
                  have hs : (nlookup st.wireMap w2).isSome := by
                    rw [hl2]
                    rfl
                  have hcontra := hinv w2 h hs ((hwf t.wireID h hh).2 w2 hw2)
                    t.wireID (hwf t.wireID h hh).1
                  rw [hl] at hcontra
                  exact absurd hcontra (by simp)
              have hfresh1 : ∀ w2 ∈ h.wires,
                  nlookup
                    (processHintInputs mh nbInputs nls f st h.inputs
                      cID).wireMap w2 = none
                  ∨ nlookup
                      (processHintInputs mh nbInputs nls f st h.inputs
                        cID).wireMap w2 = some cID := by
                intro w2 hw2
                cases hl1 : nlookup
                    (processHintInputs mh nbInputs nls f st h.inputs
                      cID).wireMap w2 with
                | none => exact Or.inl rfl
                | some k =>
                  rcases i3 w2 k hl1 with hold | hck
                  · rw [hfresh w2 hw2] at hold
                    exact absurd hold (by simp)
                  · exact Or.inr (hck ▸ rfl)
              have hinv2 := insertAll_inv mh hwf cID
                (processHintInputs mh nbInputs nls f st h.inputs cID).wireMap
                i1 t.wireID hh
              obtain ⟨j1, j2, j3⟩ := ih
                ({ processHintInputs mh nbInputs nls f st h.inputs cID with
                  wireMap := (h.wires.foldl (fun m w => (w, cID) :: m)
                    (processHintInputs mh nbInputs nls f st h.inputs
                      cID).wireMap) }) cID hinv2
              refine ⟨j1, ?_, ?_⟩
              · intro w n hm
                exact j2 w n (insertAll_preserve h.wires cID
                  (processHintInputs mh nbInputs nls f st h.inputs
                    cID).wireMap hfresh1 w n (i2 w n hm))
              · intro w n hm
                rcases j3 w n hm with hm2 | hc
                · have hm2' : nlookup
                      (h.wires.foldl (fun m w => (w, cID) :: m)
                        (processHintInputs mh nbInputs nls f st h.inputs
                          cID).wireMap) w = some n := hm2
                  rw [nlookup_insertAll] at hm2'
                  by_cases hw : w ∈ h.wires
                  · rw [if_pos hw] at hm2'
                    exact Or.inr (Option.some.inj hm2').symm
                  · rw [if_neg hw] at hm2'
                    rcases i3 w n hm2' with hold | hc2
                    · exact Or.inl hold
                    · exact Or.inr hc2
                · exact Or.inr hc
            | none =>
              rw [processLE_cons_fresh _ _ _ _ _ _ rest hin hl hh]
              have hinv2 : WireMapInv mh ((t.wireID, cID) :: st.wireMap) := by
                intro w h' hsome hmw w3 hw3
                rw [nlookup_cons] at hsome
                rw [nlookup_cons]
                by_cases hwt : t.wireID = w
                · rw [← hwt] at hmw
                  rw [hh] at hmw
                  exact absurd hmw (by simp)
                · rw [if_neg hwt] at hsome
                  have h3 := hinv w h' hsome hmw w3 hw3
                  by_cases hwt3 : t.wireID = w3
                  · rw [if_pos hwt3]
                    rfl
                  · rw [if_neg hwt3]
                    exact h3
              obtain ⟨j1, j2, j3⟩ := ih ({ st with
                wireMap := (t.wireID, cID) :: st.wireMap }) cID hinv2
              refine ⟨j1, ?_, ?_⟩
              · intro w n hm
                refine j2 w n ?_
                show nlookup ((t.wireID, cID) :: st.wireMap) w = some n
                rw [nlookup_cons]
                by_cases hwt : t.wireID = w
                · rw [← hwt] at hm
                  rw [hl] at hm
                  exact absurd hm (by simp)
                · rw [if_neg hwt]
                  exact hm
              · intro w n hm
                rcases j3 w n hm with hm2 | hc
                · have hm2' : nlookup ((t.wireID, cID) :: st.wireMap) w
                      = some n := hm2
                  rw [nlookup_cons] at hm2'
                  by_cases hwt : t.wireID = w
                  · rw [if_pos hwt] at hm2'
                    exact Or.inr (Option.some.inj hm2').symm
                  · rw [if_neg hwt] at hm2'
                    exact Or.inl hm2'
                · exact Or.inr hc
    refine ⟨fun nls st l cID hinv => hLE nls l st cID hinv, ?_⟩
    intro nls st ins cID
    induction ins generalizing st with
    | nil =>
      intro hinv
      rw [processHintInputs_nil]
      exact ⟨hinv, fun w n hm => hm, fun w n hm => Or.inl hm⟩
    | cons i rest ih =>
      intro hinv
      cases i with
      | hvar le =>
        rw [processHintInputs_cons_hvar]
        obtain ⟨k1, k2, k3⟩ := hLE nls le st cID hinv
        obtain ⟨j1, j2, j3⟩ :=
          ih (processLE mh nbInputs nls (f + 1) st le cID) k1
        refine ⟨j1, fun w n hm => j2 w n (k2 w n hm), ?_⟩
        intro w n hm
        rcases j3 w n hm with hm2 | hc
        · exact k3 w n hm2
        · exact Or.inr hc
      | hle le =>
        rw [processHintInputs_cons_hle]
        obtain ⟨k1, k2, k3⟩ := hLE nls le st cID hinv
        obtain ⟨j1, j2, j3⟩ :=
          ih (processLE mh nbInputs nls (f + 1) st le cID) k1
        refine ⟨j1, fun w n hm => j2 w n (k2 w n hm), ?_⟩
        intro w n hm
        rcases j3 w n hm with hm2 | hc
        · exact k3 w n hm2
        · exact Or.inr hc
      | hterm t =>
        rw [processHintInputs_cons_hterm]
        obtain ⟨k1, k2, k3⟩ := hLE nls [t] st cID hinv
        obtain ⟨j1, j2, j3⟩ :=
          ih (processLE mh nbInputs nls (f + 1) st [t] cID) k1
        refine ⟨j1, fun w n hm => j2 w n (k2 w n hm), ?_⟩
        intro w n hm
        rcases j3 w n hm with hm2 | hc
        · exact k3 w n hm2
        · exact Or.inr hc
      | hconst n =>
        rw [processHintInputs_cons_hconst]
        exact ih st hinv

/-- If a term of the scanned expression refers to a non-input wire resolved
by an earlier node `n`, the candidate level after the scan exceeds the
recorded level of `n` (`b.nodeLevel = level + 1` in the source). -/
theorem level_bump (mh : Nat → Option Hint) (nbInputs : Nat)
    (hwf : HintFnWf mh) (fuel : Nat) (nls : List Nat) :
    ∀ (l : LinExp) (st : LBState) (cID : Nat),
      WireMapInv mh st.wireMap →
      ∀ w n, (∃ t ∈ l, t.wireID = w) → ¬ w < nbInputs →
        nlookup st.wireMap w = some n → n ≠ cID →
        nls.getD n 0 < (processLE mh nbInputs nls fuel st l cID).nodeLevel := by
  intro l
  induction l with
  | nil =>
    intro st cID hinv w n hex hge hlk hne
    rcases hex with ⟨t, ht, _⟩
    exact absurd ht (List.not_mem_nil t)
  | cons t rest ih =>
    intro st cID hinv w n hex hge hlk hne
    by_cases hin : t.wireID < nbInputs
    · rw [processLE_cons_input _ _ _ _ _ _ rest hin]
      rcases hex with ⟨t', ht', hw'⟩
      rcases List.mem_cons.mp ht' with heq | hmem
      · refine absurd ?_ hge
        have htw : t.wireID = w := by
          rw [← hw', heq]
        rw [← htw]
        exact hin
      · exact ih st cID hinv w n ⟨t', hmem, hw'⟩ hge hlk hne
    · cases hl : nlookup st.wireMap t.wireID with
      | some n0 =>
        rw [processLE_cons_dep _ _ _ _ _ _ rest hin hl]
        rcases hex with ⟨t', ht', hw'⟩
        rcases List.mem_cons.mp ht' with heq | hmem
        · have htw : t.wireID = w := by
            rw [← hw', heq]
          have hwn : n0 = n := by
            rw [htw, hlk] at hl
            exact (Option.some.inj hl).symm
          by_cases hc : n0 ≠ cID ∧ st.nodeLevel ≤ nls.getD n0 0
          · rw [if_pos hc]
            have hm2 : nls.getD n0 0 + 1
                ≤ (processLE mh nbInputs nls fuel
                    ({ st with nodeLevel := nls.getD n0 0 + 1 }) rest
                    cID).nodeLevel :=
              (level_mono mh nbInputs fuel).1 nls
                ({ st with nodeLevel := nls.getD n0 0 + 1 }) rest cID
            rw [hwn] at hm2 ⊢
            omega
          · rw [if_neg hc]
            have hA : n0 ≠ cID := by
              rw [hwn]
              exact hne
            have hB : ¬ st.nodeLevel ≤ nls.getD n0 0 := fun hb => hc ⟨hA, hb⟩
            have hmono := (level_mono mh nbInputs fuel).1 nls st rest cID
            rw [hwn] at hB
            omega
        · by_cases hc : n0 ≠ cID ∧ st.nodeLevel ≤ nls.getD n0 0
          · rw [if_pos hc]
            exact ih ({ st with nodeLevel := nls.getD n0 0 + 1 }) cID hinv
              w n ⟨t', hmem, hw'⟩ hge hlk hne
          · rw [if_neg hc]
            exact ih st cID hinv w n ⟨t', hmem, hw'⟩ hge hlk hne
      | none =>
        cases hh : mh t.wireID with
        | some h =>
          rcases hex with ⟨t', ht', hw'⟩
          rcases List.mem_cons.mp ht' with heq | hmem
          · have htw : t.wireID = w := by
              rw [← hw', heq]
            rw [htw, hlk] at hl
            exact absurd hl (by simp)
          · have hfresh : ∀ w2 ∈ h.wires,
                nlookup st.wireMap w2 = none := by
              intro w2 hw2
              cases hl2 : nlookup st.wireMap w2 with
              | none => rfl
              | some k =>
                have hs : (nlookup st.wireMap w2).isSome := by
                  rw [hl2]
                  rfl
                have hcontra := hinv w2 h hs ((hwf t.wireID h hh).2 w2 hw2)
                  t.wireID (hwf t.wireID h hh).1
                rw [hl] at hcontra
                exact absurd hcontra (by simp)
            cases fuel with
            | zero =>
              rw [processLE_cons_hint_zero _ _ _ _ _ rest hin hl hh]
              have hfresh2 : ∀ w2 ∈ h.wires,
                  nlookup st.wireMap w2 = none
                    ∨ nlookup st.wireMap w2 = some cID :=
                fun w2 hw2 => Or.inl (hfresh w2 hw2)
              have hinv2 : WireMapInv mh
                  (h.wires.foldl (fun m w => (w, cID) :: m) st.wireMap) :=
                insertAll_inv mh hwf cID st.wireMap hinv t.wireID hh
              have hlk2 : nlookup
                  (h.wires.foldl (fun m w => (w, cID) :: m) st.wireMap) w
                  = some n :=
                insertAll_preserve h.wires cID st.wireMap hfresh2 w n hlk
              exact ih ({ st with wireMap := (h.wires.foldl
                (fun m w => (w, cID) :: m) st.wireMap) }) cID hinv2
                w n ⟨t', hmem, hw'⟩ hge hlk2 hne
            | succ f =>
              rw [processLE_cons_hint_succ _ _ _ _ _ _ rest hin hl hh]
              obtain ⟨i1, i2, i3⟩ := (map_preserve mh nbInputs hwf f).2
                nls st h.inputs cID hinv
              have hfresh1 : ∀ w2 ∈ h.wires,
                  nlookup
                    (processHintInputs mh nbInputs nls f st h.inputs
                      cID).wireMap w2 = none
                  ∨ nlookup
                      (processHintInputs mh nbInputs nls f st h.inputs
                        cID).wireMap w2 = some cID := by
                intro w2 hw2
                cases hl1 : nlookup
                    (processHintInputs mh nbInputs nls f st h.inputs
                      cID).wireMap w2 with
                | none => exact Or.inl rfl
                | some k =>
                  rcases i3 w2 k hl1 with hold | hck
                  · rw [hfresh w2 hw2] at hold
                    exact absurd hold (by simp)
                  · exact Or.inr (hck ▸ rfl)
              have hinv2 := insertAll_inv mh hwf cID
                (processHintInputs mh nbInputs nls f st h.inputs cID).wireMap
                i1 t.wireID hh
              have hlk2 := insertAll_preserve h.wires cID
                (processHintInputs mh nbInputs nls f st h.inputs cID).wireMap
                hfresh1 w n (i2 w n hlk)
              exact ih
                ({ processHintInputs mh nbInputs nls f st h.inputs cID with
                  wireMap := (h.wires.foldl (fun m w => (w, cID) :: m)
                    (processHintInputs mh nbInputs nls f st h.inputs
                      cID).wireMap) }) cID hinv2
                w n ⟨t', hmem, hw'⟩ hge hlk2 hne
        | none =>
          rw [processLE_cons_fresh _ _ _ _ _ _ rest hin hl hh]
          have htne : t.wireID ≠ w := by
            intro he
            rw [he, hlk] at hl
            exact absurd hl (by simp)
          rcases hex with ⟨t', ht', hw'⟩
          rcases List.mem_cons.mp ht' with heq | hmem
          · refine absurd ?_ htne
            rw [← hw', heq]
          · have hinv2 : WireMapInv mh ((t.wireID, cID) :: st.wireMap) := by
              intro w4 h' hsome hmw w3 hw3
              rw [nlookup_cons] at hsome
              rw [nlookup_cons]
              by_cases hwt : t.wireID = w4
              · rw [← hwt] at hmw
                rw [hh] at hmw
                exact absurd hmw (by simp)
              · rw [if_neg hwt] at hsome
                have h3 := hinv w4 h' hsome hmw w3 hw3
                by_cases hwt3 : t.wireID = w3
                · rw [if_pos hwt3]
                  rfl
                · rw [if_neg hwt3]
                  exact h3
            have hlk2 : nlookup ((t.wireID, cID) :: st.wireMap) w
                = some n := by
              rw [nlookup_cons, if_neg htne]
              exact hlk
            exact ih ({ st with wireMap := (t.wireID, cID) :: st.wireMap })
              cID hinv2 w n ⟨t', hmem, hw'⟩ hge hlk2 hne

/-- The scan of one constraint inside the `buildLevels` loop: `L`, then
`R`, then `O`, starting from candidate level `0` (`b.nodeLevel = 0`). -/
def scanR1C (mh : Nat → Option Hint) (nbInputs : Nat) (nls : List Nat)
    (fuel : Nat) (wm : List (Nat × Nat)) (c : R1C) (cID : Nat) : LBState :=
  processLE mh nbInputs nls fuel
    (processLE mh nbInputs nls fuel
      (processLE mh nbInputs nls fuel ⟨wm, 0⟩ c.L cID) c.R cID) c.O cID

theorem runLevels_nil (mh : Nat → Option Hint) (nbInputs fuel cID : Nat)
    (wm : List (Nat × Nat)) (nls : List Nat) :
    runLevels mh nbInputs fuel [] cID wm nls = (wm, nls) := by
  rw [runLevels]

theorem runLevels_cons (mh : Nat → Option Hint) (nbInputs fuel : Nat)
    (c : R1C) (rest : List R1C) (cID : Nat) (wm : List (Nat × Nat))
    (nls : List Nat) :
    runLevels mh nbInputs fuel (c :: rest) cID wm nls
      = runLevels mh nbInputs fuel rest (cID + 1)
          (scanR1C mh nbInputs nls fuel wm c cID).wireMap
          (nls.set cID (scanR1C mh nbInputs nls fuel wm c cID).nodeLevel) := by
  rw [runLevels]
  rfl

/-- One constraint scan preserves the wire-map invariants: existing
bindings survive and new bindings carry the constraint ID. -/
theorem scanR1C_step (mh : Nat → Option Hint) (nbInputs : Nat)
    (hwf : HintFnWf mh) (nls : List Nat) (fuel : Nat)
    (wm : List (Nat × Nat)) (c : R1C) (cID : Nat)
    (hinv : WireMapInv mh wm) :
    WireMapInv mh (scanR1C mh nbInputs nls fuel wm c cID).wireMap ∧
    (∀ w n, nlookup wm w = some n →
      nlookup (scanR1C mh nbInputs nls fuel wm c cID).wireMap w = some n) ∧
    (∀ w n,
      nlookup (scanR1C mh nbInputs nls fuel wm c cID).wireMap w = some n →
      nlookup wm w = some n ∨ n = cID) := by
  unfold scanR1C
  obtain ⟨a1, a2, a3⟩ := (map_preserve mh nbInputs hwf fuel).1 nls
    ⟨wm, 0⟩ c.L cID hinv
  obtain ⟨b1, b2, b3⟩ := (map_preserve mh nbInputs hwf fuel).1 nls
    (processLE mh nbInputs nls fuel ⟨wm, 0⟩ c.L cID) c.R cID a1
  obtain ⟨d1, d2, d3⟩ := (map_preserve mh nbInputs hwf fuel).1 nls
    (processLE mh nbInputs nls fuel
      (processLE mh nbInputs nls fuel ⟨wm, 0⟩ c.L cID) c.R cID) c.O cID b1
  refine ⟨d1, ?_, ?_⟩
  · intro w n hm
    exact d2 w n (b2 w n (a2 w n hm))
  · intro w n hm
    rcases d3 w n hm with hm2 | hc
    · rcases b3 w n hm2 with hm3 | hc
      · exact a3 w n hm3
      · exact Or.inr hc
    · exact Or.inr hc

theorem runLevels_append (mh : Nat → Option Hint) (nbInputs fuel : Nat)
    (cs1 cs2 : List R1C) :
    ∀ (cID : Nat) (wm : List (Nat × Nat)) (nls : List Nat),
      runLevels mh nbInputs fuel (cs1 ++ cs2) cID wm nls
        = runLevels mh nbInputs fuel cs2 (cID + cs1.length)
            (runLevels mh nbInputs fuel cs1 cID wm nls).1
            (runLevels mh nbInputs fuel cs1 cID wm nls).2 := by
  induction cs1 with
  | nil =>
    intro cID wm nls
    rw [List.nil_append, runLevels_nil]
    simp
  | cons c rest ih =>
    intro cID wm nls
    rw [List.cons_append, runLevels_cons, runLevels_cons, ih]
    have harith : cID + 1 + rest.length = cID + (c :: rest).length := by
      rw [List.length_cons]
      omega
    rw [harith]

/-- `runLevels` never changes the length of the `nodeLevels` array. -/
theorem runLevels_length (mh : Nat → Option Hint) (nbInputs fuel : Nat) :
    ∀ (cs : List R1C) (cID : Nat) (wm : List (Nat × Nat)) (nls : List Nat),
      (runLevels mh nbInputs fuel cs cID wm nls).2.length = nls.length := by
  intro cs
  induction cs with
  | nil =>
    intro cID wm nls
    rw [runLevels_nil]
  | cons c rest ih =>
    intro cID wm nls
    rw [runLevels_cons, ih]
    simp

/-- Running the loop from a well-formed map with node values below `cID`
yields a well-formed map with node values below `cID + |constraints|`. -/
theorem runLevels_inv (mh : Nat → Option Hint) (nbInputs fuel : Nat)
    (hwf : HintFnWf mh) :
    ∀ (cs : List R1C) (cID : Nat) (wm : List (Nat × Nat)) (nls : List Nat),
      WireMapInv mh wm → MapValsLt wm cID →
      WireMapInv mh (runLevels mh nbInputs fuel cs cID wm nls).1 ∧
      MapValsLt (runLevels mh nbInputs fuel cs cID wm nls).1
        (cID + cs.length) := by
  intro cs
  induction cs with
  | nil =>
    intro cID wm nls hinv hval
    rw [runLevels_nil]
    exact ⟨hinv, fun w n hm => by
      have := hval w n hm
      omega⟩
  | cons c rest ih =>
    intro cID wm nls hinv hval
    rw [runLevels_cons]
    obtain ⟨s1, s2, s3⟩ := scanR1C_step mh nbInputs hwf nls fuel wm c cID hinv
    have hval2 : MapValsLt (scanR1C mh nbInputs nls fuel wm c cID).wireMap
        (cID + 1) := by
      intro w n hm
      rcases s3 w n hm with hm2 | hc
      · have := hval w n hm2
        omega
      · omega
    obtain ⟨j1, j2⟩ := ih (cID + 1)
      (scanR1C mh nbInputs nls fuel wm c cID).wireMap
      (nls.set cID (scanR1C mh nbInputs nls fuel wm c cID).nodeLevel) s1 hval2
    refine ⟨j1, ?_⟩
    intro w n hm
    have := j2 w n hm
    rw [List.length_cons]
    omega

/-- Levels already recorded for earlier constraints are never rewritten by
the remainder of the loop. -/
theorem runLevels_stable (mh : Nat → Option Hint) (nbInputs fuel : Nat) :
    ∀ (cs : List R1C) (cID : Nat) (wm : List (Nat × Nat)) (nls : List Nat)
      (k : Nat), k < cID →
      (runLevels mh nbInputs fuel cs cID wm nls).2.getD k 0
        = nls.getD k 0 := by
  intro cs
  induction cs with
  | nil =>
    intro cID wm nls k hk
    rw [runLevels_nil]
  | cons c rest ih =>
    intro cID wm nls k hk
    rw [runLevels_cons, ih (cID + 1) _ _ k (by omega)]
    exact getD_set_ne (by omega) _

/-- A decidable entry-wise check implying `HintMapWf`. -/
theorem hintMapWf_of_entries (m : List (Nat × Hint))
    (hnd : (m.map Prod.fst).Nodup)
    (hck : ∀ e ∈ m, e.1 ∈ e.2.wires ∧
      ∀ w2 ∈ e.2.wires, mlookup m w2 = some e.2) :
    HintMapWf m := by
  refine ⟨hnd, ?_⟩
  intro w h hl
  exact hck (w, h) (mem_of_mlookup hl)

/-- The wire-to-node map accumulated by the `buildLevels` loop just before
constraint `i` is scanned. -/
def wireMapBefore (cs : List R1C) (mh : Nat → Option Hint)
    (nbInputs fuel i : Nat) : List (Nat × Nat) :=
  (runLevels mh nbInputs fuel (cs.take i) 0 []
    (List.replicate cs.length 0)).1

/-- The trivial hint map is well formed. -/
theorem hintFnWf_none : HintFnWf (fun _ => none) :=
  fun _ _ hcontra => Option.noConfusion hcontra

/-- Membership in a `buildLevels` bucket determines the constraint's
recorded level: bucket `k` holds exactly the constraint indices whose final
`nodeLevels` entry is `k`. -/
theorem mem_buildLevels (cs : List R1C) (mh : Nat → Option Hint)
    (nbInputs fuel k i : Nat)
    (hmem : i ∈ (buildLevels cs mh nbInputs fuel).getD k []) :
    i < cs.length
      ∧ (constraintLevels cs mh nbInputs fuel).getD i 0 = k := by
  have hmem' : i ∈ (((List.range
      (constraintLevels cs mh nbInputs fuel).dedup.length).map
      (fun lvl => (List.range
        (constraintLevels cs mh nbInputs fuel).length).filter
        (fun n => (constraintLevels cs mh nbInputs fuel).getD n 0
          = lvl))).getD k []) := hmem
  rw [List.getD_eq_getElem?_getD, List.getElem?_map] at hmem'
  by_cases hk : k < (constraintLevels cs mh nbInputs fuel).dedup.length
  · rw [List.getElem?_range hk] at hmem'
    have hmem2 : i ∈ (List.range
        (constraintLevels cs mh nbInputs fuel).length).filter
        (fun n => (constraintLevels cs mh nbInputs fuel).getD n 0 = k) :=
      hmem'
    rw [List.mem_filter] at hmem2
    obtain ⟨h1, h2⟩ := hmem2
    rw [List.mem_range] at h1
    have hlen : (constraintLevels cs mh nbInputs fuel).length
        = cs.length := by
      show (runLevels mh nbInputs fuel cs 0 []
        (List.replicate cs.length 0)).2.length = cs.length
      rw [runLevels_length]
      simp
    refine ⟨?_, of_decide_eq_true h2⟩
    rw [← hlen]
    exact h1
  · rw [List.getElem?_eq_none (by simpa using hk)] at hmem'
    exact absurd hmem' (by simp)

/-- The dependency-safety core: a non-input wire of constraint `i` that the
wire map already binds to a node `n` before constraint `i` is scanned
forces `nodeLevels[n] < nodeLevels[i]` in the final level array. -/
theorem levels_safe (cs : List R1C) (mh : Nat → Option Hint)
    (nbInputs fuel : Nat) (hwf : HintFnWf mh) :
    ∀ i, i < cs.length →
      ∀ t ∈ r1cTerms (cs.getD i ⟨[], [], []⟩), ¬ t.wireID < nbInputs →
        ∀ n,
          nlookup (wireMapBefore cs mh nbInputs fuel i) t.wireID = some n →
          (constraintLevels cs mh nbInputs fuel).getD n 0
            < (constraintLevels cs mh nbInputs fuel).getD i 0 := by
  intro i hi t ht hnin n hlkup
  have hlk : nlookup ((runLevels mh nbInputs fuel (cs.take i) 0 []
      (List.replicate cs.length 0)).1) t.wireID = some n := hlkup
  have htake : (cs.take i).length = i := by
    rw [List.length_take]
    omega
  have hsplit : cs.take i ++ cs.getD i ⟨[], [], []⟩ :: cs.drop (i + 1)
      = cs := by
    conv_rhs => rw [← List.take_append_drop i cs]
    rw [List.drop_eq_getElem_cons hi]
    rw [List.getD_eq_getElem?_getD, List.getElem?_eq_getElem hi]
    rfl
  have hinv0 : WireMapInv mh [] := by
    intro w h hsome hmw w2 hw2
    simp [nlookup] at hsome
  have hval0 : MapValsLt [] 0 := by
    intro w m hm
    simp [nlookup] at hm
  obtain ⟨hinvI, hvalI'⟩ := runLevels_inv mh nbInputs fuel hwf (cs.take i) 0
    [] (List.replicate cs.length 0) hinv0 hval0
  have hvalI : ∀ w m,
      nlookup ((runLevels mh nbInputs fuel (cs.take i) 0 []
        (List.replicate cs.length 0)).1) w = some m → m < i := by
    intro w m hm
    have := hvalI' w m hm
    omega
  have hn : n < i := hvalI t.wireID n hlk
  have hne : n ≠ i := by omega
  have happ := runLevels_append mh nbInputs fuel (cs.take i)
    (cs.getD i ⟨[], [], []⟩ :: cs.drop (i + 1)) 0 []
    (List.replicate cs.length 0)
  rw [hsplit, htake, Nat.zero_add, runLevels_cons] at happ
  have hlenI : (runLevels mh nbInputs fuel (cs.take i) 0 []
      (List.replicate cs.length 0)).2.length = cs.length := by
    rw [runLevels_length]
    simp
  have hbump : ((runLevels mh nbInputs fuel (cs.take i) 0 []
        (List.replicate cs.length 0)).2).getD n 0
      < (scanR1C mh nbInputs
          (runLevels mh nbInputs fuel (cs.take i) 0 []
            (List.replicate cs.length 0)).2 fuel
          (runLevels mh nbInputs fuel (cs.take i) 0 []
            (List.replicate cs.length 0)).1
          (cs.getD i ⟨[], [], []⟩) i).nodeLevel := by
    unfold scanR1C
    have ht' : t ∈ ((cs.getD i ⟨[], [], []⟩).L
        ++ (cs.getD i ⟨[], [], []⟩).R) ++ (cs.getD i ⟨[], [], []⟩).O := ht
    rcases List.mem_append.mp ht' with hLR | hO
    · rcases List.mem_append.mp hLR with hL | hR
      · have h1 := level_bump mh nbInputs hwf fuel
          (runLevels mh nbInputs fuel (cs.take i) 0 []
            (List.replicate cs.length 0)).2
          (cs.getD i ⟨[], [], []⟩).L
          ⟨(runLevels mh nbInputs fuel (cs.take i) 0 []
            (List.replicate cs.length 0)).1, 0⟩ i hinvI t.wireID n
          ⟨t, hL, rfl⟩ hnin hlk hne
        have h2 := (level_mono mh nbInputs fuel).1
          (runLevels mh nbInputs fuel (cs.take i) 0 []
            (List.replicate cs.length 0)).2
          (processLE mh nbInputs
            (runLevels mh nbInputs fuel (cs.take i) 0 []
              (List.replicate cs.length 0)).2 fuel
            ⟨(runLevels mh nbInputs fuel (cs.take i) 0 []
              (List.replicate cs.length 0)).1, 0⟩
            (cs.getD i ⟨[], [], []⟩).L i)
          (cs.getD i ⟨[], [], []⟩).R i
        have h3 := (level_mono mh nbInputs fuel).1
          (runLevels mh nbInputs fuel (cs.take i) 0 []
            (List.replicate cs.length 0)).2
          (processLE mh nbInputs
            (runLevels mh nbInputs fuel (cs.take i) 0 []
              (List.replicate cs.length 0)).2 fuel
            (processLE mh nbInputs
              (runLevels mh nbInputs fuel (cs.take i) 0 []
                (List.replicate cs.length 0)).2 fuel
              ⟨(runLevels mh nbInputs fuel (cs.take i) 0 []
                (List.replicate cs.length 0)).1, 0⟩
              (cs.getD i ⟨[], [], []⟩).L i)
            (cs.getD i ⟨[], [], []⟩).R i)
          (cs.getD i ⟨[], [], []⟩).O i
        omega
      · obtain ⟨a1, a2, a3⟩ := (map_preserve mh nbInputs hwf fuel).1
          (runLevels mh nbInputs fuel (cs.take i) 0 []
            (List.replicate cs.length 0)).2
          ⟨(runLevels mh nbInputs fuel (cs.take i) 0 []
            (List.replicate cs.length 0)).1, 0⟩
          (cs.getD i ⟨[], [], []⟩).L i hinvI
        have h1 := level_bump mh nbInputs hwf fuel
          (runLevels mh nbInputs fuel (cs.take i) 0 []
            (List.replicate cs.length 0)).2
          (cs.getD i ⟨[], [], []⟩).R
          (processLE mh nbInputs
            (runLevels mh nbInputs fuel (cs.take i) 0 []
              (List.replicate cs.length 0)).2 fuel
            ⟨(runLevels mh nbInputs fuel (cs.take i) 0 []
              (List.replicate cs.length 0)).1, 0⟩
            (cs.getD i ⟨[], [], []⟩).L i) i a1 t.wireID n
          ⟨t, hR, rfl⟩ hnin (a2 t.wireID n hlk) hne
        have h3 := (level_mono mh nbInputs fuel).1
          (runLevels mh nbInputs fuel (cs.take i) 0 []
            (List.replicate cs.length 0)).2
          (processLE mh nbInputs
            (runLevels mh nbInputs fuel (cs.take i) 0 []
              (List.replicate cs.length 0)).2 fuel
            (processLE mh nbInputs
              (runLevels mh nbInputs fuel (cs.take i) 0 []
                (List.replicate cs.length 0)).2 fuel
              ⟨(runLevels mh nbInputs fuel (cs.take i) 0 []
                (List.replicate cs.length 0)).1, 0⟩
              (cs.getD i ⟨[], [], []⟩).L i)
            (cs.getD i ⟨[], [], []⟩).R i)
          (cs.getD i ⟨[], [], []⟩).O i
        omega
    · obtain ⟨a1, a2, a3⟩ := (map_preserve mh nbInputs hwf fuel).1
        (runLevels mh nbInputs fuel (cs.take i) 0 []
          (List.replicate cs.length 0)).2
        ⟨(runLevels mh nbInputs fuel (cs.take i) 0 []
          (List.replicate cs.length 0)).1, 0⟩
        (cs.getD i ⟨[], [], []⟩).L i hinvI
      obtain ⟨b1, b2, b3⟩ := (map_preserve mh nbInputs hwf fuel).1
        (runLevels mh nbInputs fuel (cs.take i) 0 []
          (List.replicate cs.length 0)).2
        (processLE mh nbInputs
          (runLevels mh nbInputs fuel (cs.take i) 0 []
            (List.replicate cs.length 0)).2 fuel
          ⟨(runLevels mh nbInputs fuel (cs.take i) 0 []
            (List.replicate cs.length 0)).1, 0⟩
          (cs.getD i ⟨[], [], []⟩).L i)
        (cs.getD i ⟨[], [], []⟩).R i a1
      have h1 := level_bump mh nbInputs hwf fuel
        (runLevels mh nbInputs fuel (cs.take i) 0 []
          (List.replicate cs.length 0)).2
        (cs.getD i ⟨[], [], []⟩).O
        (processLE mh nbInputs
          (runLevels mh nbInputs fuel (cs.take i) 0 []
            (List.replicate cs.length 0)).2 fuel
          (processLE mh nbInputs
            (runLevels mh nbInputs fuel (cs.take i) 0 []
              (List.replicate cs.length 0)).2 fuel
            ⟨(runLevels mh nbInputs fuel (cs.take i) 0 []
              (List.replicate cs.length 0)).1, 0⟩
            (cs.getD i ⟨[], [], []⟩).L i)
          (cs.getD i ⟨[], [], []⟩).R i) i b1 t.wireID n
        ⟨t, hO, rfl⟩ hnin (b2 t.wireID n (a2 t.wireID n hlk)) hne
      exact h1
  show (runLevels mh nbInputs fuel cs 0 []
      (List.replicate cs.length 0)).2.getD n 0
    < (runLevels mh nbInputs fuel cs 0 []
        (List.replicate cs.length 0)).2.getD i 0
  rw [happ]
  rw [runLevels_stable mh nbInputs fuel (cs.drop (i + 1)) (i + 1) _ _ n
    (by omega)]
  rw [runLevels_stable mh nbInputs fuel (cs.drop (i + 1)) (i + 1) _ _ i
    (by omega)]
  rw [getD_set_ne hne _]
  rw [getD_set_self (by rw [hlenI]; exact hi) _]
  exact hbump

end Gnark

namespace Gnark

/-! ## Claim theorems (first group) -/

/-- C10: the GKR addition gate's `Evaluate` is total but only sums up to two
arguments — empty input gives the zero element, one input is returned
unchanged, two inputs give their modular sum, and three or more inputs give
the zero element rather than the sum (witnessed at `[1, 1, 1]`). -/
theorem addGate_sums_at_most_two (p : Nat) (x : List Nat) :
    addGateEvaluate p [] = 0 ∧
    (∀ a, addGateEvaluate p [a] = a) ∧
    (∀ a b, addGateEvaluate p [a, b] = (a + b) % p) ∧
    (3 ≤ x.length → addGateEvaluate p x = 0) ∧
    addGateEvaluate 7 [1, 1, 1] = 0 ∧ (1 + 1 + 1) % 7 = 3 := by
  refine ⟨rfl, fun a => rfl, fun a b => rfl, ?_, rfl, rfl⟩
  intro h
  match x, h with
  | a :: b :: c :: rest, _ => rfl

/-- Witness for C10 at the concrete input `[1, 2, 3]`. -/
theorem addGate_sums_at_most_two_witness : addGateEvaluate 5 [1, 2, 3] = 0 :=
  (addGate_sums_at_most_two 5 [1, 2, 3]).2.2.2.1 (by decide)

/-- C2 (amended): unless configured with `IgnoreUnconstrainedInputs`,
`Compile` returns an error and no constraint system if and only if the
stored constraint list is empty or some secret input wire, some public
input wire other than the reserved wire 0, or some hint output wire never
appears with a non-zero coefficient in any stored constraint's `L`, `R` or
`O` expression (the empty-constraint case, where `errors.New` of the empty
message is still a non-nil error, is the amendment); the error produced
names every unconstrained secret input and every unconstrained public
input and carries the count of unconstrained hint outputs; and the scan
stops early once every tracked counter reaches zero, so the result is
unchanged by constraints beyond that point. -/
theorem compile_unconstrained_check (sys : CSys) (order : List (Nat × Hint))
    (fuel : Nat) (hpub : 0 < sys.publicNames.length)
    (hnd : (sys.mHints.map Prod.fst).Nodup)
    (hrange : TermsInRange sys.publicNames.length sys.secretNames.length
      sys.constraints) :
    ((∃ e, Compile false sys order fuel = .error e) ↔
      (sys.constraints = [] ∨ ¬ AllConstrained sys)) ∧
    Compile true sys order fuel = .ok (finalize sys order fuel) ∧
    (∀ msg, checkVariables sys = some msg →
      (∀ i, i < sys.secretNames.length →
        ¬ SeenSecretT (termsOf sys.constraints) i →
        (sys.secretNames.getD i "").data <:+: msg.data) ∧
      (∀ i, i < sys.publicNames.length → i ≠ 0 →
        ¬ SeenPublicT (termsOf sys.constraints) i →
        (sys.publicNames.getD i "").data <:+: msg.data) ∧
      ((sys.mHints.filter (fun e =>
          ! decide (SeenInternalT (termsOf sys.constraints) e.1))).length ≠ 0 →
        (toString (sys.mHints.filter (fun e =>
            ! decide (SeenInternalT (termsOf sys.constraints) e.1))).length
          ++ " unconstrained hints").data <:+: msg.data)) ∧
    (∀ extra, TermsInRange sys.publicNames.length sys.secretNames.length extra →
      checkVariables sys = none →
      checkVariables { sys with constraints := sys.constraints ++ extra }
        = none) := by
  have hiff := checkVariables_none_iff sys hpub hnd hrange
  refine ⟨?_, rfl, ?_, ?_⟩
  · constructor
    · rintro ⟨e, he⟩
      rw [compile_false_eq] at he
      cases hcv : checkVariables sys with
      | none =>
        rw [hcv] at he
        exact Except.noConfusion he
      | some msg =>
        by_contra hc
        push_neg at hc
        have := hiff.mpr hc
        rw [hcv] at this
        exact Option.noConfusion this
    · intro hcase
      cases hcv : checkVariables sys with
      | some msg =>
        refine ⟨msg, ?_⟩
        rw [compile_false_eq, hcv]
      | none =>
        exfalso
        obtain ⟨h1, h2⟩ := hiff.mp hcv
        rcases hcase with h | h
        · exact h1 h
        · exact h h2
  · intro msg hmsg
    obtain ⟨st1, hinv1, hmsgeq⟩ := checkLoop_some_inv sys.mHints sys.secretNames
      sys.publicNames sys.constraints [] (initCheckState sys) msg
      (initCheckState_inv sys hpub) hrange hmsg
    rw [List.nil_append] at hinv1
    have hcnt := checkInv_cptHints_eq hnd hinv1
    obtain ⟨hlen1, hlen2, hsec, hpub2, hcnt1, hcnt2, hnd2, hmark, hcnt3⟩ := hinv1
    subst hmsgeq
    refine ⟨?_, ?_, ?_⟩
    · intro i hi hnseen
      have hflag : st1.secretConstrained.getD i false = false := by
        cases hgd : st1.secretConstrained.getD i false
        · rfl
        · exact absurd ((hsec i hi).mp hgd) hnseen
      exact buildCheckError_secret_name _ _ st1 hlen1 hcnt1
        (by rw [hlen1]; exact hi) hflag
    · intro i hi h0 hnseen
      have hflag : st1.publicConstrained.getD i false = false := by
        cases hgd : st1.publicConstrained.getD i false
        · rfl
        · rcases (hpub2 i hi).mp hgd with h | h
          · exact absurd h h0
          · exact absurd h hnseen
      exact buildCheckError_public_name _ _ st1 hlen2 hcnt2
        (by rw [hlen2]; exact hi) hflag
    · intro hfilter
      have hne : st1.cptHints ≠ 0 := by
        rw [hcnt]
        exact hfilter
      have hinfix := buildCheckError_hint_count sys.secretNames
        sys.publicNames st1 hne
      rw [hcnt] at hinfix
      exact hinfix
  · intro extra hrex hnone
    have h1 := hiff.mp hnone
    have hr2 : TermsInRange sys.publicNames.length sys.secretNames.length
        (sys.constraints ++ extra) := by
      intro c hc t ht
      rcases List.mem_append.mp hc with hc | hc
      · exact hrange c hc t ht
      · exact hrex c hc t ht
    refine (checkVariables_none_iff
      { sys with constraints := sys.constraints ++ extra } hpub hnd hr2).mpr
      ⟨?_, ?_⟩
    · intro h
      exact h1.1 (List.append_eq_nil.mp h).1
    · show AllSeenT _ _ _ (termsOf (sys.constraints ++ extra))
      rw [termsOf_append]
      exact allSeenT_mono h1.2

/-- Counterexample to C2 as stated: the empty circuit (no secrets, no
extra publics, no hints, no constraints) has nothing unconstrained, yet
`Compile` returns an error — `errors.New` of the empty built message. -/
theorem compile_error_empty_circuit :
    Compile false ⟨["one"], [], 0, [], [], [], [], [], [], fun _ => []⟩ [] 0
      = .error "" ∧
    AllConstrained ⟨["one"], [], 0, [], [], [], [], [], [], fun _ => []⟩ := by
  constructor
  · rfl
  · decide

/-- Witness for C2 (amended) on a one-secret circuit whose single
constraint mentions the secret: compilation with the check disabled
returns the finalized system. -/
theorem compile_unconstrained_check_witness :
    Compile true
        ⟨["one"], ["x"], 0,
         [⟨[⟨1, 0, .Secret⟩], [⟨1, 0, .Public⟩], [⟨1, 0, .Public⟩]⟩],
         [], [], [], [], [], fun _ => []⟩ [] 0
      = .ok (finalize
        ⟨["one"], ["x"], 0,
         [⟨[⟨1, 0, .Secret⟩], [⟨1, 0, .Public⟩], [⟨1, 0, .Public⟩]⟩],
         [], [], [], [], [], fun _ => []⟩ [] 0) :=
  (compile_unconstrained_check
    ⟨["one"], ["x"], 0,
     [⟨[⟨1, 0, .Secret⟩], [⟨1, 0, .Public⟩], [⟨1, 0, .Public⟩]⟩],
     [], [], [], [], [], fun _ => []⟩ [] 0
    (by decide) (by decide) (by decide)).2.1

/-- C3: during `Compile`, every term's wire ID in every stored constraint,
every hint input expression, and every log/debug-info reference is
rewritten by the shift determined solely by its visibility — a Public ID is
unchanged, a Secret ID gains `|public|`, an Internal ID gains
`|public| + |secret|` (with `|public|` counting the reserved constant-1
wire); with `|public| = 3`, `|secret| = 4`: internal 5 becomes 12, secret 2
becomes 5, public 1 stays 1. -/
theorem compile_offsets_wires (sys : CSys) (order : List (Nat × Hint))
    (fuel : Nat) (hwf : HintMapWf sys.mHints) (hperm : order.Perm sys.mHints) :
    (∀ id, shiftVID sys.publicNames.length sys.secretNames.length id .Public
        = id) ∧
    (∀ id, shiftVID sys.publicNames.length sys.secretNames.length id .Secret
        = id + sys.publicNames.length) ∧
    (∀ id, shiftVID sys.publicNames.length sys.secretNames.length id .Internal
        = id + sys.publicNames.length + sys.secretNames.length) ∧
    (finalize sys order fuel).constraints
      = sys.constraints.map (fun c =>
          ⟨offsetIDs sys.publicNames.length sys.secretNames.length c.L,
           offsetIDs sys.publicNames.length sys.secretNames.length c.R,
           offsetIDs sys.publicNames.length sys.secretNames.length c.O⟩) ∧
    (finalize sys order fuel).logs
      = sys.logs.map (offsetIDs sys.publicNames.length sys.secretNames.length) ∧
    (finalize sys order fuel).debugInfo
      = sys.debugInfo.map
          (offsetIDs sys.publicNames.length sys.secretNames.length) ∧
    (∀ w h, mlookup sys.mHints w = some h →
      mlookup (finalize sys order fuel).mHints
          (shiftVID sys.publicNames.length sys.secretNames.length w .Internal)
        = some (shiftHint sys.publicNames.length sys.secretNames.length h)) ∧
    shiftVID 3 4 5 .Internal = 12 ∧ shiftVID 3 4 2 .Secret = 5 ∧
    shiftVID 3 4 1 .Public = 1 := by
  refine ⟨fun id => rfl, fun id => rfl, fun id => rfl, rfl, rfl, rfl, ?_,
    rfl, rfl, rfl⟩
  intro w h hw
  exact (hintLoop_lookup sys.publicNames.length sys.secretNames.length
    hwf hperm).1 w h hw

/-- Witness for C3 on a builder with three public and four secret wires. -/
theorem compile_offsets_wires_witness :
    shiftVID 3 4 5 .Internal = 12 ∧ shiftVID 3 4 2 .Secret = 5 ∧
    shiftVID 3 4 1 .Public = 1 :=
  (compile_offsets_wires
    ⟨["one", "p1", "p2"], ["s0", "s1", "s2", "s3"], 0, [], [], [], [], [], [],
     fun _ => []⟩ [] 0
    (hintMapWf_of_entries [] (by decide) (by decide)) (by decide)).2.2.2.2.2.2.2

/-- C9: compilation is deterministic — the finalization phase run over two
arbitrary iteration orders of the hint map (the only map iteration in
`Compile`) produces identical constraint lists, pointwise identical
finalized hint maps, and identical level partitions, along with identical
log and debug-info offsets.  All other parts of the builder and of
`buildLevels` are pure functions of the call sequence in the embedding, so
no output depends on map or set iteration order. -/
theorem compile_deterministic (sys : CSys) (fuel : Nat)
    (o1 o2 : List (Nat × Hint)) (hwf : HintMapWf sys.mHints)
    (h1 : o1.Perm sys.mHints) (h2 : o2.Perm sys.mHints) :
    (finalize sys o1 fuel).constraints = (finalize sys o2 fuel).constraints ∧
    (∀ w, mlookup (finalize sys o1 fuel).mHints w
        = mlookup (finalize sys o2 fuel).mHints w) ∧
    (finalize sys o1 fuel).levels = (finalize sys o2 fuel).levels ∧
    (finalize sys o1 fuel).logs = (finalize sys o2 fuel).logs ∧
    (finalize sys o1 fuel).debugInfo = (finalize sys o2 fuel).debugInfo := by
  have hlk := hintLoop_perm_lookup sys.publicNames.length
    sys.secretNames.length hwf h1 h2
  refine ⟨rfl, hlk, ?_, rfl, rfl⟩
  have hfn : mlookup (hintLoop sys.publicNames.length sys.secretNames.length o1)
      = mlookup (hintLoop sys.publicNames.length sys.secretNames.length o2) :=
    funext hlk
  show buildLevels _
      (mlookup (hintLoop sys.publicNames.length sys.secretNames.length o1)) _ _
    = buildLevels _
      (mlookup (hintLoop sys.publicNames.length sys.secretNames.length o2)) _ _
  rw [hfn]

/-- Witness for C9: two different iteration orders over a two-wire hint map
yield the same level partition. -/
theorem compile_deterministic_witness :
    (finalize
        ⟨["one"], [], 2, [⟨[⟨1, 0, .Internal⟩], [⟨1, 0, .Public⟩], [⟨1, 1, .Internal⟩]⟩],
         [(0, ⟨7, [], [0, 1]⟩), (1, ⟨7, [], [0, 1]⟩)], [], [], [], [],
         fun _ => []⟩
        [(0, ⟨7, [], [0, 1]⟩), (1, ⟨7, [], [0, 1]⟩)] 1).levels
      = (finalize
        ⟨["one"], [], 2, [⟨[⟨1, 0, .Internal⟩], [⟨1, 0, .Public⟩], [⟨1, 1, .Internal⟩]⟩],
         [(0, ⟨7, [], [0, 1]⟩), (1, ⟨7, [], [0, 1]⟩)], [], [], [], [],
         fun _ => []⟩
        [(1, ⟨7, [], [0, 1]⟩), (0, ⟨7, [], [0, 1]⟩)] 1).levels :=
  (compile_deterministic
    ⟨["one"], [], 2, [⟨[⟨1, 0, .Internal⟩], [⟨1, 0, .Public⟩], [⟨1, 1, .Internal⟩]⟩],
     [(0, ⟨7, [], [0, 1]⟩), (1, ⟨7, [], [0, 1]⟩)], [], [], [], [],
     fun _ => []⟩ 1
    [(0, ⟨7, [], [0, 1]⟩), (1, ⟨7, [], [0, 1]⟩)]
    [(1, ⟨7, [], [0, 1]⟩), (0, ⟨7, [], [0, 1]⟩)]
    (hintMapWf_of_entries _ (by decide) (by decide))
    (by decide) (by decide)).2.2.1

/-- C5: `reduce` is idempotent — reducing an already-reduced expression
returns the same terms in the same order, and a reduced expression is
sorted by visibility class then wire ID with no two terms sharing a
wire/visibility pair. -/
theorem reduce_idempotent (p : Nat) (st : List Nat) (l : LinExp) :
    reduce p (reduce p st l).2 (reduce p st l).1 = reduce p st l ∧
    List.Sorted termLeP (reduce p st l).1 ∧
    List.Pairwise (fun s t => ¬ SameWire s t) (reduce p st l).1 := by
  have h1 : List.Pairwise TermLt (reduce p st l).1 :=
    (mergeTerms_sorted p st (sortIfNeeded l) (sortIfNeeded_sorted l)).1
  have hsorted : List.Sorted termLeP (reduce p st l).1 :=
    h1.imp termLeP_of_lt
  refine ⟨?_, hsorted, h1.imp not_sameWire_of_lt⟩
  show mergeTerms p (reduce p st l).2 (sortIfNeeded (reduce p st l).1) = reduce p st l
  rw [show sortIfNeeded (reduce p st l).1 = (reduce p st l).1 by
    unfold sortIfNeeded
    rw [if_pos (by simpa [isSortedTerms] using hsorted)]]
  rw [mergeTerms_of_pairwise p _ _ h1]

/-- C4: on an expression holding exactly two terms that reference the same
wire ID and visibility, with coefficient values `a` and `b`, `reduce`
produces exactly one term for that wire whose interned coefficient value is
`(a + b) mod p`; in particular when `(a + b) mod p = 0` that term is
retained with coefficient value `0` rather than being removed. -/
theorem reduce_merges_duplicate_wire (p : Nat) (st : List Nat) (l : LinExp)
    (w : Nat) (vs : Visibility) (t1 t2 : Term)
    (hf : l.filter (wireKey w vs) = [t1, t2])
    (hr1 : t1.coeffID < st.length) (hr2 : t2.coeffID < st.length) :
    ∃ cid, (reduce p st l).1.filter (wireKey w vs) = [⟨cid, w, vs⟩] ∧
      (reduce p st l).2.getD cid 0
        = (st.getD t1.coeffID 0 + st.getD t2.coeffID 0) % p := by
  have hperm : ((sortIfNeeded l).filter (wireKey w vs)).Perm [t1, t2] := by
    rw [← hf]
    exact (sortIfNeeded_perm l).filter _
  rcases perm_pair_cases hperm with hcase | hcase
  · exact mergeTerms_filter_pair p st _ w vs t1 t2 (sortIfNeeded_sorted l) hcase hr1 hr2
  · obtain ⟨cid, hc1, hc2⟩ :=
      mergeTerms_filter_pair p st _ w vs t2 t1 (sortIfNeeded_sorted l) hcase hr2 hr1
    refine ⟨cid, hc1, ?_⟩
    show (mergeTerms p st (sortIfNeeded l)).2.getD cid 0 = _
    rw [hc2, Nat.add_comm]

/-- Witness for C4: wire 3 (secret) appears with coefficient values 5 and 4
in a table over the modulus 7; the reduced expression holds one term for
wire 3 whose interned value is 2. -/
theorem reduce_merges_duplicate_wire_witness :
    ∃ cid,
      (reduce 7 [0, 1, 5, 4] [⟨2, 3, .Secret⟩, ⟨3, 3, .Secret⟩]).1.filter
        (wireKey 3 .Secret) = [⟨cid, 3, .Secret⟩] ∧
      (reduce 7 [0, 1, 5, 4] [⟨2, 3, .Secret⟩, ⟨3, 3, .Secret⟩]).2.getD cid 0
        = (([0, 1, 5, 4] : List Nat).getD 2 0 + ([0, 1, 5, 4] : List Nat).getD 3 0) % 7 :=
  reduce_merges_duplicate_wire 7 [0, 1, 5, 4] [⟨2, 3, .Secret⟩, ⟨3, 3, .Secret⟩]
    3 .Secret ⟨2, 3, .Secret⟩ ⟨3, 3, .Secret⟩ (by decide) (by decide) (by decide)

/-- C7: `NewHint` fails (no variables, an error) precisely when the
requested output count is zero or negative; otherwise it returns exactly
`nbOutputs` variables, each a single-term expression over a distinct,
previously unused internal wire allocated in order, converts each input via
`hintInputOf` (cloned linear expression or constant), and registers exactly
one shared `Hint` record reachable in the hint map from every output wire,
leaving earlier bindings untouched. -/
theorem NewHint_contract (sys : CSys) (fid : Nat) (nbOutputs : Int)
    (inputs : List FrontValue) :
    (nbOutputs ≤ 0 → NewHint sys fid nbOutputs inputs = none) ∧
    (0 < nbOutputs →
      ∃ res sys2, NewHint sys fid nbOutputs inputs = some (res, sys2) ∧
        res.length = nbOutputs.toNat ∧
        (∀ i, i < nbOutputs.toNat →
          res.getD i [] = [⟨coeffIdOne, sys.nbInternal + i, .Internal⟩]) ∧
        sys2.nbInternal = sys.nbInternal + nbOutputs.toNat ∧
        (∀ i, i < nbOutputs.toNat →
          mlookup sys2.mHints (sys.nbInternal + i)
            = some ⟨fid, inputs.map hintInputOf,
                List.range' sys.nbInternal nbOutputs.toNat⟩) ∧
        (∀ w, w < sys.nbInternal → mlookup sys2.mHints w = mlookup sys.mHints w) ∧
        sys2.constraints = sys.constraints) := by
  constructor
  · intro h
    unfold NewHint
    rw [if_pos h]
  · intro h
    have hneg : ¬ nbOutputs ≤ 0 := by omega
    refine ⟨(List.range' sys.nbInternal nbOutputs.toNat).map
        (fun i => [(⟨coeffIdOne, i, .Internal⟩ : Term)]),
      { sys with
          nbInternal := sys.nbInternal + nbOutputs.toNat,
          mHints := (List.range' sys.nbInternal nbOutputs.toNat).foldl
            (fun m w => (w,
              (⟨fid, inputs.map hintInputOf,
                 List.range' sys.nbInternal nbOutputs.toNat⟩ : Hint)) :: m)
            sys.mHints },
      ?_, ?_, ?_, rfl, ?_, ?_, rfl⟩
    · simp only [NewHint, if_neg hneg, allocHintOutputs_spec]
    · simp
    · intro i hi
      rw [List.getD_eq_getElem?_getD, List.getElem?_map,
        List.getElem?_range' _ _ hi]
      simp
    · intro i hi
      show mlookup ((List.range' sys.nbInternal nbOutputs.toNat).foldl _ _) _ = _
      rw [mlookup_insertAll]
      rw [if_pos (by rw [List.mem_range'_1]; omega)]
    · intro w hw
      show mlookup ((List.range' sys.nbInternal nbOutputs.toNat).foldl _ _) _ = _
      rw [mlookup_insertAll]
      rw [if_neg (by rw [List.mem_range'_1]; omega)]

/-- Witness for C7: a hint with two outputs on a fresh builder. -/
theorem NewHint_contract_witness :
    ∃ res sys2,
      NewHint ⟨["one"], [], 0, [], [], [], [], [], [], fun _ => []⟩ 9 2 [.fconst 5]
        = some (res, sys2) ∧
      res.length = (2 : Int).toNat ∧
      (∀ i, i < (2 : Int).toNat →
        res.getD i [] = [⟨coeffIdOne, 0 + i, .Internal⟩]) ∧
      sys2.nbInternal = 0 + (2 : Int).toNat ∧
      (∀ i, i < (2 : Int).toNat →
        mlookup sys2.mHints (0 + i)
          = some ⟨9, [FrontValue.fconst 5].map hintInputOf,
              List.range' 0 (2 : Int).toNat⟩) ∧
      (∀ w, w < 0 →
        mlookup sys2.mHints w
          = mlookup (⟨["one"], [], 0, [], [], [], [], [], [], fun _ => []⟩ : CSys).mHints w) ∧
      sys2.constraints
        = (⟨["one"], [], 0, [], [], [], [], [], [], fun _ => []⟩ : CSys).constraints :=
  (NewHint_contract ⟨["one"], [], 0, [], [], [], [], [], [], fun _ => []⟩ 9 2
    [.fconst 5]).2 (by decide)

/-- C8: after `MarkBoolean` on a non-constant variable `v`, `IsBoolean v`
returns true; and on any non-constant expression `IsBoolean` returns true
exactly when the sorted expression itself is recorded in its hash bucket —
an expression that merely shares the bucket but differs structurally yields
false.  The statement holds for every structural hash function. -/
theorem markBoolean_isBoolean_spec (hashCode : LinExp → Nat) (sys : CSys)
    (l : LinExp) (hnc : constantValue sys (.fvar l) = none) :
    (∃ sys1, markBoolean hashCode sys (.fvar l) = some sys1 ∧
       isBoolean hashCode sys1 (.fvar l) = true) ∧
    (∀ e : LinExp, constantValue sys (.fvar e) = none →
       (isBoolean hashCode sys (.fvar e) = true ↔
         sortIfNeeded e ∈ sys.mtBooleans (hashCode (sortIfNeeded e)))) := by
  constructor
  · refine ⟨markedTable hashCode sys (sortIfNeeded l),
      markBoolean_of_not_constant hashCode sys l hnc, ?_⟩
    have hcv : constantValue (markedTable hashCode sys (sortIfNeeded l))
        (.fvar l) = none := hnc
    unfold isBoolean
    rw [hcv]
    simp [markedTable]
  · intro e he
    unfold isBoolean
    rw [he]
    simp [List.any_eq_true]

/-- Witness for C8: a single-term secret expression marked boolean on a
fresh builder. -/
theorem markBoolean_isBoolean_spec_witness :
    ∃ sys1,
      markBoolean (fun _ => 0) ⟨["one"], [], 0, [], [], [], [], [], [], fun _ => []⟩
          (.fvar [⟨1, 0, .Secret⟩]) = some sys1 ∧
      isBoolean (fun _ => 0) sys1 (.fvar [⟨1, 0, .Secret⟩]) = true :=
  (markBoolean_isBoolean_spec (fun _ => 0)
    ⟨["one"], [], 0, [], [], [], [], [], [], fun _ => []⟩
    [⟨1, 0, .Secret⟩] (by decide)).1

/-- C6: `newR1C` stores clones of its operands, swapping the two factor
expressions exactly when `L` has strictly more terms than `R`, so the stored
constraint always satisfies `|L| ≤ |R|`; `addConstraint` appends the built
constraint to the constraint list. -/
theorem newR1C_swap_invariant (sys : CSys) (l r o : LinExp) (dbg : Option Nat) :
    (newR1C l r o).L.length ≤ (newR1C l r o).R.length ∧
    (r.length < l.length → newR1C l r o = ⟨cloneLE r, cloneLE l, cloneLE o⟩) ∧
    (l.length ≤ r.length → newR1C l r o = ⟨cloneLE l, cloneLE r, cloneLE o⟩) ∧
    (addConstraint sys (newR1C l r o) dbg).constraints
      = sys.constraints ++ [newR1C l r o] := by
  refine ⟨?_, ?_, ?_, ?_⟩
  · unfold newR1C
    by_cases h : r.length < l.length
    · simp only [if_pos h, cloneLE_eq]
      omega
    · simp only [if_neg h, cloneLE_eq]
      omega
  · intro h; simp [newR1C, h]
  · intro h
    have : ¬ r.length < l.length := by omega
    simp [newR1C, this]
  · cases dbg <;> rfl

/-- Witness for C6 at concrete operands with `|L| > |R|`. -/
theorem newR1C_swap_invariant_witness :
    newR1C [⟨1, 1, .Public⟩, ⟨1, 2, .Public⟩] [⟨1, 3, .Public⟩] []
      = ⟨cloneLE [⟨1, 3, .Public⟩], cloneLE [⟨1, 1, .Public⟩, ⟨1, 2, .Public⟩],
         cloneLE []⟩ :=
  (newR1C_swap_invariant ⟨[], [], 0, [], [], [], [], [], [], fun _ => []⟩
    [⟨1, 1, .Public⟩, ⟨1, 2, .Public⟩] [⟨1, 3, .Public⟩] [] none).2.1 (by decide)

/-- A concrete two-constraint system for exercising the level builder:
constraint 0 resolves internal wire 2 through its `O` expression and
constraint 1 reads wire 2 through its `L` expression. -/
def csLvl : List R1C :=
  [⟨[], [], [⟨1, 2, .Internal⟩]⟩, ⟨[⟨1, 2, .Internal⟩], [], []⟩]

/-- C1: the level partition produced by `buildLevels` is dependency-safe —
whenever constraint `i` sits in bucket `k` and one of the terms of its `L`,
`R` or `O` expression references a non-input wire (ID at or above the
public+secret count) that the loop's wire map had already bound to another
constraint `n` before `i` was scanned, then `n` sits in a strictly earlier
bucket `k' < k`; and a term whose wire ID is below the input count is
skipped by `processLE`, so input wires never raise a constraint's level. -/
theorem buildLevels_safe (cs : List R1C) (mh : Nat → Option Hint)
    (nbInputs fuel : Nat) (hwf : HintFnWf mh) :
    (∀ k i, i ∈ (buildLevels cs mh nbInputs fuel).getD k [] →
      ∀ t ∈ r1cTerms (cs.getD i ⟨[], [], []⟩), ¬ t.wireID < nbInputs →
        ∀ n k',
          nlookup (wireMapBefore cs mh nbInputs fuel i) t.wireID = some n →
          n ∈ (buildLevels cs mh nbInputs fuel).getD k' [] → k' < k) ∧
    (∀ (nls : List Nat) (f : Nat) (st : LBState) (t : Term) (l : LinExp)
        (cID : Nat), t.wireID < nbInputs →
      processLE mh nbInputs nls f st (t :: l) cID
        = processLE mh nbInputs nls f st l cID) := by
  constructor
  · intro k i hik t ht hnin n k' hlk hnk
    obtain ⟨hi, hki⟩ := mem_buildLevels cs mh nbInputs fuel k i hik
    obtain ⟨hn, hkn⟩ := mem_buildLevels cs mh nbInputs fuel k' n hnk
    have hcore := levels_safe cs mh nbInputs fuel hwf i hi t ht hnin n hlk
    omega
  · intro nls f st t l cID hlt
    exact processLE_cons_input mh nbInputs nls f st cID l hlt

/-- Witness for C1 on `csLvl` with two input wires and no hints: constraint
1 lands in bucket 1 because its `L` term reads wire 2, which constraint 0
(in bucket 0) resolved. -/
theorem buildLevels_safe_witness :
    HintFnWf (fun _ => none) ∧
    1 ∈ (buildLevels csLvl (fun _ => none) 2 0).getD 1 [] ∧
    (⟨1, 2, .Internal⟩ : Term) ∈ r1cTerms (csLvl.getD 1 ⟨[], [], []⟩) ∧
    ¬ (⟨1, 2, .Internal⟩ : Term).wireID < 2 ∧
    nlookup (wireMapBefore csLvl (fun _ => none) 2 0 1)
      (⟨1, 2, .Internal⟩ : Term).wireID = some 0 ∧
    0 ∈ (buildLevels csLvl (fun _ => none) 2 0).getD 0 [] ∧
    0 < 1 := by
  have hscan0 : scanR1C (fun _ => none) 2 [0, 0] 0 []
      ⟨[], [], [⟨1, 2, .Internal⟩]⟩ 0 = ⟨[(2, 0)], 0⟩ := by
    show processLE (fun _ => none) 2 [0, 0] 0
      (processLE (fun _ => none) 2 [0, 0] 0
        (processLE (fun _ => none) 2 [0, 0] 0 ⟨[], 0⟩ [] 0) [] 0)
      [⟨1, 2, .Internal⟩] 0 = ⟨[(2, 0)], 0⟩
    rw [processLE_nil, processLE_nil]
    rw [@processLE_cons_fresh (fun _ => none) 2 [0, 0] 0 ⟨[], 0⟩ 0
      ⟨1, 2, .Internal⟩ [] (by decide) rfl rfl]
    rw [processLE_nil]
  have hscan1 : scanR1C (fun _ => none) 2 [0, 0] 0 [(2, 0)]
      ⟨[⟨1, 2, .Internal⟩], [], []⟩ 1 = ⟨[(2, 0)], 1⟩ := by
    show processLE (fun _ => none) 2 [0, 0] 0
      (processLE (fun _ => none) 2 [0, 0] 0
        (processLE (fun _ => none) 2 [0, 0] 0 ⟨[(2, 0)], 0⟩
          [⟨1, 2, .Internal⟩] 1) [] 1) [] 1 = ⟨[(2, 0)], 1⟩
    rw [@processLE_cons_dep (fun _ => none) 2 [0, 0] 0 ⟨[(2, 0)], 0⟩ 1
      ⟨1, 2, .Internal⟩ [] 0 (by decide) rfl]
    rw [processLE_nil, processLE_nil, processLE_nil]
    rfl
  have hrun : runLevels (fun _ => none) 2 0 csLvl 0 []
      (List.replicate csLvl.length 0) = ([(2, 0)], [0, 1]) := by
    show runLevels (fun _ => none) 2 0
      (⟨[], [], [⟨1, 2, .Internal⟩]⟩ :: [⟨[⟨1, 2, .Internal⟩], [], []⟩])
      0 [] [0, 0] = ([(2, 0)], [0, 1])
    rw [runLevels_cons, hscan0]
    show runLevels (fun _ => none) 2 0
      (⟨[⟨1, 2, .Internal⟩], [], []⟩ :: []) 1 [(2, 0)] [0, 0]
      = ([(2, 0)], [0, 1])
    rw [runLevels_cons, hscan1]
    show runLevels (fun _ => none) 2 0 [] 2 [(2, 0)] [0, 1]
      = ([(2, 0)], [0, 1])
    rw [runLevels_nil]
  have hlv : constraintLevels csLvl (fun _ => none) 2 0 = [0, 1] := by
    show (runLevels (fun _ => none) 2 0 csLvl 0 []
      (List.replicate csLvl.length 0)).2 = [0, 1]
    rw [hrun]
  have hbl : buildLevels csLvl (fun _ => none) 2 0 = [[0], [1]] := by
    show (List.range
        (constraintLevels csLvl (fun _ => none) 2 0).dedup.length).map
      (fun lvl => (List.range
        (constraintLevels csLvl (fun _ => none) 2 0).length).filter
        (fun n => (constraintLevels csLvl (fun _ => none) 2 0).getD n 0
          = lvl)) = [[0], [1]]
    rw [hlv]
    decide
  have hwm : wireMapBefore csLvl (fun _ => none) 2 0 1 = [(2, 0)] := by
    show (runLevels (fun _ => none) 2 0 [⟨[], [], [⟨1, 2, .Internal⟩]⟩] 0 []
      [0, 0]).1 = [(2, 0)]
    rw [runLevels_cons, hscan0, runLevels_nil]
  have h1mem : 1 ∈ (buildLevels csLvl (fun _ => none) 2 0).getD 1 [] := by
    rw [hbl]
    decide
  have h0mem : 0 ∈ (buildLevels csLvl (fun _ => none) 2 0).getD 0 [] := by
    rw [hbl]
    decide
  have hlkw : nlookup (wireMapBefore csLvl (fun _ => none) 2 0 1)
      (⟨1, 2, .Internal⟩ : Term).wireID = some 0 := by
    rw [hwm]
    rfl
  exact ⟨hintFnWf_none, h1mem, by decide, by decide, hlkw, h0mem,
    (buildLevels_safe csLvl (fun _ => none) 2 0 hintFnWf_none).1 1 1 h1mem
      ⟨1, 2, .Internal⟩ (by decide) (by decide) 0 0 hlkw h0mem⟩

end Gnark
